import Mathlib

/-!
Verification of the multi-provider LLM orchestration and JSON-recovery engine
of the quiz-generation bot (src/services/quizGenerator.ts).

The TypeScript source is shallowly embedded: strings are `List Char`,
`JSON.parse` is modelled by a recursive-descent parser `jsParse` over the JSON
fragment exercised in this development (null, booleans, integer numerals,
strings with the standard escapes, arrays, objects), and every function is
written to be executable by the kernel (structural or fuel-bounded recursion),
so concrete runs can be settled by `decide`/`rfl`.
-/

set_option maxRecDepth 100000

namespace QG

/-- The backtick character (written via its code point). -/
def btick : Char := Char.ofNat 96

/-- JSON whitespace as accepted by `JSON.parse`: space, tab, LF, CR. -/
def isJsonWs (c : Char) : Bool :=
  c = ' ' || c = '\t' || c = '\n' || c = '\r'

/-- Whitespace of the JavaScript regex class `\s` (restricted to the code
points that can occur in this development): space, tab, LF, CR, VT, FF,
NBSP and the BOM. -/
def isRegWs (c : Char) : Bool :=
  c = ' ' || c = '\t' || c = '\n' || c = '\r' || c = '\x0b' || c = '\x0c' ||
  c = ' ' || c = '﻿'

/-- `String.prototype.trim`: drop leading and trailing whitespace (the
ECMAScript `trim` set coincides with `isRegWs` on the code points used here). -/
def jsTrim (s : List Char) : List Char :=
  ((s.dropWhile isRegWs).reverse.dropWhile isRegWs).reverse

/-- ASCII lower-casing, as `String.prototype.toLowerCase` acts on ASCII. -/
def lcChar (c : Char) : Char :=
  if 'A' ≤ c ∧ c ≤ 'Z' then Char.ofNat (c.toNat + 32) else c

def lcStr (s : List Char) : List Char := s.map lcChar

/-- Does `s` start with `p`? -/
def startsWith : List Char → List Char → Bool
  | _, [] => true
  | [], _ :: _ => false
  | c :: cs, p :: ps => c = p && startsWith cs ps

/-- `String.prototype.includes`: does `pat` occur as a contiguous substring? -/
def containsSub (s pat : List Char) : Bool :=
  match s with
  | [] => startsWith [] pat
  | _ :: cs => startsWith s pat || containsSub cs pat

/-- Case-insensitive containment, modelling `s.toLowerCase().includes(pat)`
for an already-lower-case `pat`. -/
def lcContains (s pat : List Char) : Bool :=
  containsSub (lcStr s) pat

def isDigitCh (c : Char) : Bool := 48 ≤ c.toNat && c.toNat ≤ 57

def isAlphaCh (c : Char) : Bool :=
  ('a' ≤ c && c ≤ 'z') || ('A' ≤ c && c ≤ 'Z')

/-- Numeric value of a list of decimal digit characters (most significant
first), as accumulated by a left fold. -/
def digitsToNat (ds : List Char) : Nat :=
  ds.foldl (fun a c => a * 10 + (c.toNat - 48)) 0

/-- Decimal digits of `n`, most significant first (fuel-bounded so that the
kernel can evaluate it; `n + 1` units of fuel always suffice). -/
def natCharsFuel : Nat → Nat → List Char
  | 0, _ => []
  | fuel + 1, n =>
    if n < 10 then [Char.ofNat (n + 48)]
    else natCharsFuel fuel (n / 10) ++ [Char.ofNat (n % 10 + 48)]

def natChars (n : Nat) : List Char := natCharsFuel (n + 1) n

/-- Decimal rendering of an integer, as `String(n)` produces for integers. -/
def intChars (n : Int) : List Char :=
  if n < 0 then '-' :: natChars n.natAbs else natChars n.natAbs

/- The JSON value tree.  `JsonList` and `JsonFields` are inlined mutual types
(rather than `List`) so that equality is derivable and kernel-reducible.
Object fields keep their textual order; duplicate keys are allowed and, as
with JavaScript objects built by `JSON.parse`, the *last* occurrence wins on
field access. -/
mutual
inductive Json where
  | null : Json
  | jbool (b : Bool) : Json
  | num (n : Int) : Json
  | str (s : List Char) : Json
  | arr (xs : JsonList) : Json
  | obj (fs : JsonFields) : Json
  deriving DecidableEq, Repr

inductive JsonList where
  | nil : JsonList
  | cons (hd : Json) (tl : JsonList) : JsonList
  deriving DecidableEq, Repr

inductive JsonFields where
  | nil : JsonFields
  | cons (key : List Char) (val : Json) (tl : JsonFields) : JsonFields
  deriving DecidableEq, Repr
end

instance : DecidableEq (Except (List Char) Json) := fun a b =>
  match a, b with
  | .ok x, .ok y =>
    if h : x = y then isTrue (by rw [h]) else isFalse (by intro hh; cases hh; exact h rfl)
  | .error x, .error y =>
    if h : x = y then isTrue (by rw [h]) else isFalse (by intro hh; cases hh; exact h rfl)
  | .ok _, .error _ => isFalse (by intro hh; cases hh)
  | .error _, .ok _ => isFalse (by intro hh; cases hh)

def JsonList.toList : JsonList → List Json
  | .nil => []
  | .cons x xs => x :: xs.toList

def JsonList.ofList : List Json → JsonList
  | [] => .nil
  | x :: xs => .cons x (JsonList.ofList xs)

def JsonList.append : JsonList → JsonList → JsonList
  | .nil, ys => ys
  | .cons x xs, ys => .cons x (xs.append ys)

def JsonList.length : JsonList → Nat
  | .nil => 0
  | .cons _ xs => xs.length + 1

/-- Hexadecimal value of a digit character, if any. -/
def hexVal (c : Char) : Option Nat :=
  if '0' ≤ c ∧ c ≤ '9' then some (c.toNat - 48)
  else if 'a' ≤ c ∧ c ≤ 'f' then some (c.toNat - 87)
  else if 'A' ≤ c ∧ c ≤ 'F' then some (c.toNat - 55)
  else none

/-- Body of a JSON string literal, after the opening quote: returns the
decoded content and the remainder after the closing quote.  Raw control
characters are rejected; the standard single-character escapes and `\uXXXX`
are decoded. -/
def strBody : List Char → Option (List Char × List Char)
  | [] => none
  | '"' :: r => some ([], r)
  | '\\' :: 'u' :: a :: b :: c :: d :: r =>
    match hexVal a, hexVal b, hexVal c, hexVal d with
    | some x, some y, some z, some w =>
      (strBody r).map (fun p => (Char.ofNat (((x * 16 + y) * 16 + z) * 16 + w) :: p.1, p.2))
    | _, _, _, _ => none
  | '\\' :: e :: r =>
    let dec : Option Char :=
      if e = '"' then some '"'
      else if e = '\\' then some '\\'
      else if e = '/' then some '/'
      else if e = 'n' then some '\n'
      else if e = 't' then some '\t'
      else if e = 'r' then some '\r'
      else if e = 'b' then some '\x08'
      else if e = 'f' then some '\x0c'
      else none
    match dec with
    | some ch => (strBody r).map (fun p => (ch :: p.1, p.2))
    | none => none
  | c :: r =>
    if c.toNat < 32 then none
    else (strBody r).map (fun p => (c :: p.1, p.2))

/-- Unsigned core of a JSON integer numeral: digits without a redundant
leading zero, not followed by a fraction or exponent (the fragment of the
JSON number grammar exercised here). -/
def numCore (t : List Char) : Option (Int × List Char) :=
  let ds := t.takeWhile isDigitCh
  let r := t.dropWhile isDigitCh
  match ds with
  | [] => none
  | '0' :: _ :: _ => none
  | _ =>
    match r with
    | '.' :: _ => none
    | 'e' :: _ => none
    | 'E' :: _ => none
    | _ => some ((digitsToNat ds : Int), r)

/-- A JSON integer numeral: optional minus sign before the unsigned core. -/
def numBody : List Char → Option (Int × List Char)
  | '-' :: t => (numCore t).map (fun p => (-p.1, p.2))
  | t => numCore t

mutual
/-- Recursive-descent JSON value, fuel-bounded.  `2 * length + 2` units of
fuel always suffice (each unit of fuel is spent after at least one character
of progress, at most twice per character). -/
def parseValue : Nat → List Char → Option (Json × List Char)
  | 0, _ => none
  | fuel + 1, s =>
    match s.dropWhile isJsonWs with
    | [] => none
    | c :: cs =>
      if c = 'n' then
        if startsWith cs ("ull".toList) then some (.null, cs.drop 3) else none
      else if c = 't' then
        if startsWith cs ("rue".toList) then some (.jbool true, cs.drop 3) else none
      else if c = 'f' then
        if startsWith cs ("alse".toList) then some (.jbool false, cs.drop 4) else none
      else if c = '"' then
        (strBody cs).map (fun p => (.str p.1, p.2))
      else if c = '[' then
        match (cs.dropWhile isJsonWs) with
        | ']' :: r => some (.arr .nil, r)
        | _ => (parseElems fuel (cs.dropWhile isJsonWs)).map (fun p => (.arr p.1, p.2))
      else if c = '{' then
        match (cs.dropWhile isJsonWs) with
        | '}' :: r => some (.obj .nil, r)
        | _ => (parseMembers fuel (cs.dropWhile isJsonWs)).map (fun p => (.obj p.1, p.2))
      else if c = '-' ∨ isDigitCh c then
        (numBody (c :: cs)).map (fun p => (.num p.1, p.2))
      else none

/-- One or more array elements followed by `]`. -/
def parseElems : Nat → List Char → Option (JsonList × List Char)
  | 0, _ => none
  | fuel + 1, s =>
    match parseValue fuel s with
    | none => none
    | some (v, r) =>
      match r.dropWhile isJsonWs with
      | ',' :: r2 => (parseElems fuel r2).map (fun p => (.cons v p.1, p.2))
      | ']' :: r2 => some (.cons v .nil, r2)
      | _ => none

/-- One or more `"key": value` members followed by `}`. -/
def parseMembers : Nat → List Char → Option (JsonFields × List Char)
  | 0, _ => none
  | fuel + 1, s =>
    match s.dropWhile isJsonWs with
    | '"' :: cs =>
      match strBody cs with
      | none => none
      | some (k, r) =>
        match r.dropWhile isJsonWs with
        | ':' :: r2 =>
          match parseValue fuel r2 with
          | none => none
          | some (v, r3) =>
            match r3.dropWhile isJsonWs with
            | ',' :: r4 => (parseMembers fuel r4).map (fun p => (.cons k v p.1, p.2))
            | '}' :: r4 => some (.cons k v .nil, r4)
            | _ => none
        | _ => none
    | _ => none
end

/-- The model of `JSON.parse`: parse one value, allow surrounding whitespace,
require the whole input to be consumed. -/
def jsParse (s : List Char) : Option Json :=
  match parseValue (2 * s.length + 2) s with
  | some (v, r) => if r.dropWhile isJsonWs = [] then some v else none
  | none => none

mutual
/-- Canonical compact rendering of a JSON value (no whitespace, no escapes —
used only on values whose strings are free of characters needing escapes). -/
def render : Json → List Char
  | .null => "null".toList
  | .jbool true => "true".toList
  | .jbool false => "false".toList
  | .num n => intChars n
  | .str s => '"' :: s ++ ['"']
  | .arr xs => '[' :: renderList xs ++ [']']
  | .obj fs => '{' :: renderFields fs ++ ['}']

def renderList : JsonList → List Char
  | .nil => []
  | .cons x .nil => render x
  | .cons x (.cons y t) => render x ++ ',' :: renderList (.cons y t)

def renderFields : JsonFields → List Char
  | .nil => []
  | .cons k v .nil => '"' :: k ++ '"' :: ':' :: render v
  | .cons k v (.cons k2 v2 t) =>
    ('"' :: k ++ '"' :: ':' :: render v) ++ ',' :: renderFields (.cons k2 v2 t)
end

mutual
/-- Like `render`, but every non-empty array and object carries a trailing
comma before its closing bracket — the malformed shape the sanitizer's
trailing-comma removal is meant to repair. -/
def renderTC : Json → List Char
  | .null => "null".toList
  | .jbool true => "true".toList
  | .jbool false => "false".toList
  | .num n => intChars n
  | .str s => '"' :: s ++ ['"']
  | .arr .nil => "[]".toList
  | .arr (.cons x t) => '[' :: renderListTC (.cons x t) ++ ',' :: [']']
  | .obj .nil => "\x7b\x7d".toList
  | .obj (.cons k v t) => '{' :: renderFieldsTC (.cons k v t) ++ ',' :: ['}']

def renderListTC : JsonList → List Char
  | .nil => []
  | .cons x .nil => renderTC x
  | .cons x (.cons y t) => renderTC x ++ ',' :: renderListTC (.cons y t)

def renderFieldsTC : JsonFields → List Char
  | .nil => []
  | .cons k v .nil => '"' :: k ++ '"' :: ':' :: renderTC v
  | .cons k v (.cons k2 v2 t) =>
    ('"' :: k ++ '"' :: ':' :: renderTC v) ++ ',' :: renderFieldsTC (.cons k2 v2 t)
end

/-- The string-aware brace/bracket depth scanner shared by
`extractFirstBalancedJson` and `tryRecoverQuizJson` (quizGenerator.ts lines
95–127 and 162–200): walk the input tracking string-literal state (honouring
backslash escapes) and the nesting depth of `oc`/`cc`; as soon as the depth
returns to zero, yield the consumed span and the remainder. -/
def scanGo (oc cc : Char) : Int → Bool → Bool → List Char → Option (List Char × List Char)
  | _, _, _, [] => none
  | d, true, true, c :: cs => (scanGo oc cc d true false cs).map (fun p => (c :: p.1, p.2))
  | d, true, false, c :: cs =>
    if c = '\\' then (scanGo oc cc d true true cs).map (fun p => (c :: p.1, p.2))
    else if c = '"' then (scanGo oc cc d false false cs).map (fun p => (c :: p.1, p.2))
    else (scanGo oc cc d true false cs).map (fun p => (c :: p.1, p.2))
  | d, false, _, c :: cs =>
    if c = '"' then (scanGo oc cc d true false cs).map (fun p => (c :: p.1, p.2))
    else
      let d' := d + (if c = oc then 1 else 0) - (if c = cc then 1 else 0)
      if d' = 0 then some ([c], cs)
      else (scanGo oc cc d' false false cs).map (fun p => (c :: p.1, p.2))

/-- quizGenerator.ts lines 85–128: locate the first `{` or `[` and extract the
first balanced JSON span starting there, or `none` if the scan never closes. -/
def extractFirstBalancedJson (s : List Char) : Option (List Char) :=
  let rest := s.dropWhile (fun c => ¬(c = '{' ∨ c = '['))
  match rest with
  | [] => none
  | c :: _ =>
    let cc := if c = '{' then '}' else ']'
    (scanGo c cc 0 false false rest).map (·.1)

/-- quizGenerator.ts lines 133–139: if balanced extraction failed, fall back
to the substring from the first `{` through the last `}` (when that span is
non-degenerate), else leave the string unchanged. -/
def fallbackSlice (s : List Char) : List Char :=
  let t := s.dropWhile (fun c => ¬ c = '{')
  match t with
  | [] => s
  | _ :: rest =>
    if '}' ∈ rest then ((t.reverse).dropWhile (fun c => ¬ c = '}')).reverse
    else s

/-- First replacement of the fence-stripping step
(`s.replace(/^```[a-zA-Z]*\s*‍/m, '')` with the string known to start with
three backticks): drop the backticks, the language tag and following
whitespace. -/
def stripFenceHead (s : List Char) : List Char :=
  ((s.drop 3).dropWhile isAlphaCh).dropWhile isRegWs

/-- Second replacement of the fence-stripping step
(`s.replace(/```\s*$/m, '')`): remove the first occurrence of three backticks
followed by whitespace reaching a line end; with `/m` and a greedy `\s*`, the
removed span runs to the end of the string when only whitespace follows, and
otherwise up to (excluding) the last newline of the whitespace run. -/
def stripFenceTail : List Char → List Char
  | [] => []
  | c :: cs =>
    if c = btick ∧ startsWith cs [btick, btick] then
      let after := cs.drop 2
      let run := after.takeWhile isRegWs
      let rest := after.dropWhile isRegWs
      if rest = [] then []
      else if '\n' ∈ run then
        ('\n' :: ((run.reverse).takeWhile (fun x => ¬ x = '\n')).reverse) ++ rest
      else c :: stripFenceTail cs
    else c :: stripFenceTail cs

/-- Does this suffix begin with optional `\s*` whitespace followed by `}` or
`]`?  A comma is removed by the trailing-comma regex exactly when its suffix
satisfies this. -/
def wsCloserFlag : List Char → Bool
  | [] => false
  | c :: rest => (c = '}' || c = ']') || (isRegWs c && wsCloserFlag rest)

/-- The global replacement `s.replace(/,\s*([}\]])/g, '$1')` (quizGenerator.ts
line 142).  Matches never overlap, so the replacement drops every comma whose
following whitespace run ends at a `}`/`]`, together with that whitespace run,
keeping the closer. -/
def rtc : List Char → List Char
  | [] => []
  | c :: rest =>
    if c = ',' ∧ wsCloserFlag rest then (rtc rest).dropWhile isRegWs
    else c :: rtc rest

/-- quizGenerator.ts lines 70–144, `sanitizeJsonString`: trim, strip a BOM,
strip code fences, extract the first balanced JSON value (with the
first-`{`–last-`}` fallback) and remove trailing commas before closers. -/
def sanitizeJsonString (raw : List Char) : List Char :=
  let s := jsTrim raw
  if s = [] then s
  else
    let s := if s.head? = some '﻿' then jsTrim (s.drop 1) else s
    let s := if startsWith s [btick, btick, btick] then
               jsTrim (stripFenceTail (stripFenceHead s))
             else s
    let s := match extractFirstBalancedJson s with
             | some b => b
             | none => fallbackSlice s
    rtc s

/-- Is this position a match of the regex `/"questions"\s*:\s*\[/`? -/
def qKeyAt (s : List Char) : Bool :=
  startsWith s ("\"questions\"".toList) &&
  (match (s.drop 11).dropWhile isRegWs with
   | ':' :: r2 => (match r2.dropWhile isRegWs with
                   | '[' :: _ => true
                   | _ => false)
   | _ => false)

/-- Index of the first match of `/"questions"\s*:\s*\[/`, as
`String.prototype.match` reports it. -/
def findQIdx : List Char → Option Nat
  | [] => none
  | c :: cs => if qKeyAt (c :: cs) then some 0 else (findQIdx cs).map (· + 1)

/-- Element loop of `tryRecoverQuizJson` (lines 156–203): skip
whitespace/commas, stop at end, `]` or a non-`{` character, scan one balanced
object, parse it (aborting the whole recovery on a parse failure) and
continue.  `none` is the aborted recovery; fuel `length + 1` always
suffices. -/
def recLoop : Nat → List Char → JsonList → Option JsonList
  | 0, _, _ => none
  | fuel + 1, s, acc =>
    let s' := s.dropWhile (fun c => isRegWs c || c = ',')
    match s' with
    | [] => some acc
    | c :: _ =>
      if c = ']' then some acc
      else if ¬ c = '{' then some acc
      else
        match scanGo '{' '}' 0 false false s' with
        | none => some acc
        | some (objStr, rest) =>
          match jsParse (sanitizeJsonString objStr) with
          | none => none
          | some v => recLoop fuel rest (acc.append (.cons v .nil))

/-- quizGenerator.ts lines 146–207, `tryRecoverQuizJson`: find the
`"questions"` key (a match at index 0 is treated as no match by the falsy
`!m.index` check), locate its `[`, and collect the complete `{...}` elements;
yields `{ questions: [...] }` when at least one object was recovered. -/
def tryRecoverQuizJson (raw : List Char) : Option Json :=
  match findQIdx raw with
  | none => none
  | some 0 => none
  | some (i + 1) =>
    let t := (raw.drop (i + 1)).dropWhile (fun c => ¬ c = '[')
    match t with
    | [] => none
    | _ :: body =>
      match recLoop (body.length + 1) body .nil with
      | none => none
      | some .nil => none
      | some (.cons v objs) =>
        some (.obj (.cons ("questions".toList) (.arr (.cons v objs)) .nil))

/-- quizGenerator.ts lines 209–220, `safeJsonParse`: strict-parse the
sanitized string; on failure try the recovery path; on total failure report
the first 400 characters of the sanitized text. -/
def safeJsonParse (raw : List Char) : Except (List Char) Json :=
  let cleaned := sanitizeJsonString raw
  match jsParse cleaned with
  | some v => .ok v
  | none =>
    match tryRecoverQuizJson raw with
    | some r => .ok r
    | none => .error (cleaned.take 400)

/-! ### Usage normalization (quizGenerator.ts lines 371–404) -/

/-- A JavaScript number as far as `normalizeUsage` inspects one: a finite
value (integral in every observed payload) or one of the non-finite values
produced by `Number(...)`. -/
inductive JsNum where
  | fin (n : Int) : JsNum
  | nan : JsNum
  | inf : JsNum
  | ninf : JsNum
  deriving DecidableEq, Repr

/-- The upstream `usage` object: every accepted field name, each possibly
absent (`undefined`). -/
structure UsageIn where
  promptTokenCount : Option JsNum := none
  promptTokens : Option JsNum := none
  inputTokenCount : Option JsNum := none
  inputTokens : Option JsNum := none
  prompt_tokens : Option JsNum := none
  candidatesTokenCount : Option JsNum := none
  candidateTokenCount : Option JsNum := none
  outputTokenCount : Option JsNum := none
  outputTokens : Option JsNum := none
  completionTokens : Option JsNum := none
  completion_tokens : Option JsNum := none
  totalTokenCount : Option JsNum := none
  totalTokens : Option JsNum := none
  total_tokens : Option JsNum := none
  deriving DecidableEq, Repr

/-- The `??` operator on possibly-absent numbers. -/
def jnOr (a b : Option JsNum) : Option JsNum :=
  match a with
  | some x => some x
  | none => b

/-- `Number(x)` for a possibly-absent number: `Number(undefined)` is `NaN`. -/
def numOf (a : Option JsNum) : JsNum :=
  match a with
  | some x => x
  | none => .nan

/-- `Number.isFinite(x) && x > 0`. -/
def finPos : JsNum → Bool
  | .fin n => 0 < n
  | _ => false

def jnVal : JsNum → Int
  | .fin n => n
  | _ => 0

/-- The `prompt` selection chain of `normalizeUsage`. -/
def promptChain (u : UsageIn) : Option JsNum :=
  jnOr u.promptTokenCount (jnOr u.promptTokens (jnOr u.inputTokenCount
    (jnOr u.inputTokens u.prompt_tokens)))

/-- The `completion` selection chain of `normalizeUsage`. -/
def completionChain (u : UsageIn) : Option JsNum :=
  jnOr u.candidatesTokenCount (jnOr u.candidateTokenCount (jnOr u.outputTokenCount
    (jnOr u.outputTokens (jnOr u.completionTokens u.completion_tokens))))

/-- The `total` selection chain of `normalizeUsage`. -/
def totalChain (u : UsageIn) : Option JsNum :=
  jnOr u.totalTokenCount (jnOr u.totalTokens u.total_tokens)

/-- The normalized `{promptTokens, completionTokens, totalTokens}` record;
`none` models an omitted field. -/
structure UsageOut where
  promptTokens : Option Int
  completionTokens : Option Int
  totalTokens : Option Int
  deriving DecidableEq, Repr

/-- quizGenerator.ts lines 371–404, `normalizeUsage`. -/
def normalizeUsage : Option UsageIn → UsageOut
  | none => ⟨none, none, none⟩
  | some u =>
    let p := numOf (promptChain u)
    let c := numOf (completionChain u)
    let t := numOf (totalChain u)
    let op := if finPos p then some (jnVal p) else none
    let oc := if finPos c then some (jnVal c) else none
    let ot := if finPos t then some (jnVal t) else none
    let ot :=
      match ot with
      | some v => some v
      | none =>
        let sum := op.getD 0 + oc.getD 0
        if 0 < sum then some sum else none
    ⟨op, oc, ot⟩

/-! ### The concurrency gate (quizGenerator.ts lines 26–68) -/

/-- Gate state: the in-flight counter and the FIFO queue of suspended
callers (identified by tokens). -/
structure GateState where
  inFlight : Int
  waiters : List Nat
  deriving DecidableEq, Repr

/-- An externally observable gate event: an `acquire()` by caller `id`, or a
`release()`. -/
inductive GateOp where
  | acq (id : Nat) : GateOp
  | rel : GateOp
  deriving DecidableEq, Repr

/-- Bookkeeping trace: callers enqueued while the gate was saturated, and
callers admitted from the queue by a `release()`. -/
structure GateTrace where
  enq : List Nat
  adm : List Nat
  deriving DecidableEq, Repr

/-- One gate transition.  `acquire` (lines 34–45): below the limit the counter
is incremented and the caller proceeds; otherwise the caller is pushed on the
waiter queue.  `release` (lines 55–59): the counter is decremented (floored at
zero), and the earliest waiter, if any, is resumed — its stored callback
increments the counter. -/
def gateStep (maxc : Nat) : GateState × GateTrace → GateOp → GateState × GateTrace
  | (s, tr), .acq id =>
    if s.inFlight < (maxc : Int) then ({ s with inFlight := s.inFlight + 1 }, tr)
    else ({ s with waiters := s.waiters ++ [id] }, { tr with enq := tr.enq ++ [id] })
  | (s, tr), .rel =>
    let d := max 0 (s.inFlight - 1)
    match s.waiters with
    | [] => ({ inFlight := d, waiters := [] }, tr)
    | w :: rest => ({ inFlight := d + 1, waiters := rest }, { tr with adm := tr.adm ++ [w] })

/-- Run a sequence of gate operations from the initial state. -/
def gateRun (maxc : Nat) (ops : List GateOp) : GateState × GateTrace :=
  ops.foldl (gateStep maxc) (⟨0, []⟩, ⟨[], []⟩)

/-- quizGenerator.ts lines 61–68, `withConcurrencyLimit`: `acquire`, run the
body, and `release` in a `finally` — the release happens on the normal return
and on the throwing path alike.  The body's outcome is passed in; the function
returns it unchanged together with the gate operations performed. -/
def withConcurrencyLimit (id : Nat) (outcome : Except (List Char) Json) :
    Except (List Char) Json × List GateOp :=
  match outcome with
  | .ok a => (.ok a, [.acq id, .rel])
  | .error e => (.error e, [.acq id, .rel])

/-! ### The generation orchestrator (quizGenerator.ts lines 465–816) -/

/-- Gemini model candidates hard-coded in config/gemini.ts. -/
def QUIZ_MODELS : List (List Char) :=
  [ "gemini-1.5-pro-latest".toList,
    "gemini-1.5-flash-latest".toList,
    "gemini-2.0-flash".toList,
    "gemini-2.0-flash-exp".toList,
    "gemini-1.5-pro".toList,
    "gemini-1.5-flash".toList,
    "gemini-1.5-pro-002".toList,
    "gemini-1.5-flash-002".toList ]

def QUIZ_MODEL : List Char := "gemini-1.5-pro-latest".toList

/-- The `llmStats` record (lines 431–444). -/
structure Stats where
  geminiAttempts : Nat
  geminiSuccess : Nat
  geminiFail : Nat
  deepseekAttempts : Nat
  deepseekSuccess : Nat
  deepseekFail : Nat
  groqAttempts : Nat
  groqSuccess : Nat
  groqFail : Nat
  lastProvider : List Char
  lastModel : List Char
  lastError : List Char
  deriving DecidableEq, Repr

/-- The outcome of one upstream provider call: the response text, or a thrown
error with its optional HTTP status and response body. -/
inductive CallRes where
  | ok (content : List Char) : CallRes
  | err (status : Option Nat) (msg : List Char) (body : List Char) : CallRes
  deriving DecidableEq, Repr

/-- A thrown JavaScript error as the orchestrator inspects it. -/
structure ErrObj where
  status : Option Nat
  msg : List Char
  body : List Char
  deriving DecidableEq, Repr

/-- The environment oracle: what the k-th call to each provider returns, and
the elapsed wall-clock milliseconds observed at the k-th Gemini backoff
check. -/
structure Env where
  gemini : Nat → CallRes
  ds : Nat → CallRes
  groq : Nat → CallRes
  elapsedAt : Nat → Nat

/-- The configuration derived from the process environment: how many Gemini
API keys are configured, whether DeepSeek/Groq keys are present, and the
model-candidate lists. -/
structure Config where
  geminiKeyCount : Nat
  dsConfigured : Bool
  groqConfigured : Bool
  models : List (List Char)
  dsModels : List (List Char)
  groqModels : List (List Char)

def insufficientMsg : List Char := "Insufficient content".toList
def invalidJsonMsg : List Char := "Invalid JSON".toList
def invalidStructMsg : List Char := "Invalid JSON structure received from AI".toList
def emptyGeminiMsg : List Char := "Empty response from Gemini".toList
def emptyDsMsg : List Char := "Empty response from DeepSeek".toList
def emptyGroqMsg : List Char := "Empty response from Groq".toList
def noProviderMsg : List Char :=
  "No LLM provider configured. Set DEEPSEEK_API_KEY and/or GROQ_API_KEY (and optionally Gemini keys).".toList
def genericFailMsg : List Char :=
  "Failed to generate quiz. The AI service might be busy or the file content is unclear.".toList
def unexpectedLoopMsg : List Char := "Unexpected error in generation loop.".toList

/-- lines 47–53, `formatProviderError` (`String(e?.message || e || 'Unknown
error')` with status and up-to-400-character body appended; every error this
model constructs carries a non-empty message). -/
def formatProviderError (e : Option ErrObj) : List Char :=
  match e with
  | none => "Unknown error".toList
  | some e =>
    let statusPart :=
      match e.status with
      | some st => if st = 0 then [] else (" status=".toList) ++ natChars st
      | none => []
    let body := jsTrim e.body
    let bodyLine := if body = [] then [] else '\n' :: body.take 400
    e.msg ++ statusPart ++ bodyLine

/-- Last-occurrence field lookup, as a JavaScript object built by `JSON.parse`
resolves duplicate keys. -/
def lookupLast : JsonFields → List Char → Option Json
  | .nil, _ => none
  | .cons k v t, key =>
    match lookupLast t key with
    | some r => some r
    | none => if k = key then some v else none

/-- `quizData.questions` when it is an array (`quizData.questions &&
Array.isArray(quizData.questions)`); `none` for a missing field, a falsy
value or any non-array. -/
def getQuestions (v : Json) : Option JsonList :=
  match v with
  | .obj fs =>
    match lookupLast fs ("questions".toList) with
    | some (.arr xs) => some xs
    | _ => none
  | _ => none

/-- The shared post-call checks: parse via `safeJsonParse`, require a
`questions` array, and treat an empty array as insufficient content. -/
def parseChecks (content : List Char) : Except ErrObj Json :=
  match safeJsonParse content with
  | .error snip => .error ⟨none, invalidJsonMsg, snip⟩
  | .ok v =>
    match getQuestions v with
    | none => .error ⟨none, invalidStructMsg, []⟩
    | some .nil => .error ⟨none, insufficientMsg, []⟩
    | some (.cons _ _) => .ok v

/-- One DeepSeek adapter call followed by the checks. -/
def dsAttempt (env : Env) (i : Nat) : Except ErrObj Json :=
  match env.ds i with
  | .ok c => if c = [] then .error ⟨none, emptyDsMsg, []⟩ else parseChecks c
  | .err s m b => .error ⟨s, m, b⟩

/-- One Groq adapter call followed by the checks. -/
def groqAttempt (env : Env) (i : Nat) : Except ErrObj Json :=
  match env.groq i with
  | .ok c => if c = [] then .error ⟨none, emptyGroqMsg, []⟩ else parseChecks c
  | .err s m b => .error ⟨s, m, b⟩

/-- The DeepSeek model-candidate loop (identical in the no-Gemini path and
the fallback path): iterate candidates, skipping a candidate on a 400 whose
body mentions `invalid_request_error` or a not-found model, and stopping on
any other failure.  Returns the success value (if any), the updated stats,
the next call index, and the last error seen. -/
def dsLoop (env : Env) : List (List Char) → Nat → Stats → Option ErrObj →
    Option Json × Stats × Nat × Option ErrObj
  | [], i, st, le => (none, st, i, le)
  | m :: ms, i, st, le =>
    let _ := le
    let st := { st with lastModel := m }
    match dsAttempt env i with
    | .ok v => (some v, { st with deepseekSuccess := st.deepseekSuccess + 1, lastError := [] }, i + 1, none)
    | .error e =>
      if e.status = some 400 ∧
         (containsSub e.body ("invalid_request_error".toList) ∨
          (lcContains e.body ("model".toList) ∧ lcContains e.body ("not found".toList))) then
        dsLoop env ms (i + 1) st (some e)
      else (none, st, i + 1, some e)

/-- The Groq model-candidate loop (skips decommissioned/invalid-request 400s). -/
def groqLoop (env : Env) : List (List Char) → Nat → Stats → Option ErrObj →
    Option Json × Stats × Nat × Option ErrObj
  | [], i, st, le => (none, st, i, le)
  | m :: ms, i, st, le =>
    let _ := le
    let st := { st with lastModel := m }
    match groqAttempt env i with
    | .ok v => (some v, { st with groqSuccess := st.groqSuccess + 1, lastError := [] }, i + 1, none)
    | .error e =>
      if e.status = some 400 ∧
         (containsSub e.body ("model_decommissioned".toList) ∨
          lcContains e.body ("decommissioned".toList) ∨
          containsSub e.body ("invalid_request_error".toList)) then
        groqLoop env ms (i + 1) st (some e)
      else (none, st, i + 1, some e)

/-- The Groq block of the no-Gemini path (lines 552–590): on failure the call
throws `Groq failed: ...`. -/
def groqNGFlow (cfg : Config) (env : Env) (st : Stats) (dc : Nat) :
    Except (List Char) Json × Stats × Nat × Nat :=
  let st1 := { st with groqAttempts := st.groqAttempts + 1, lastProvider := "groq".toList }
  match groqLoop env cfg.groqModels 0 st1 none with
  | (some v, st2, qc, _) => (.ok v, st2, dc, qc)
  | (none, st2, qc, le) =>
    let st3 := { st2 with groqFail := st2.groqFail + 1, lastError := formatProviderError le }
    (.error (("Groq failed: ".toList) ++ formatProviderError le), st3, dc, qc)

/-- Lines 507–593: the path taken when no Gemini key is configured — DeepSeek
(if configured), then Groq (if configured), else the no-provider error.
Returns (result, stats, DeepSeek calls, Groq calls). -/
def noGeminiFlow (cfg : Config) (env : Env) (st0 : Stats) :
    Except (List Char) Json × Stats × Nat × Nat :=
  if cfg.dsConfigured then
    let st1 := { st0 with deepseekAttempts := st0.deepseekAttempts + 1,
                          lastProvider := "deepseek".toList }
    match dsLoop env cfg.dsModels 0 st1 none with
    | (some v, st2, dc, _) => (.ok v, st2, dc, 0)
    | (none, st2, dc, le) =>
      let st3 := { st2 with deepseekFail := st2.deepseekFail + 1,
                            lastError := formatProviderError le }
      if cfg.groqConfigured then groqNGFlow cfg env st3 dc
      else (.error (("DeepSeek failed: ".toList) ++ formatProviderError le), st3, dc, 0)
  else if cfg.groqConfigured then groqNGFlow cfg env st0 0
  else (.error noProviderMsg, st0, 0, 0)

/-- Loop-local state of the Gemini retry loop, together with the per-provider
call counters and the stats record. -/
structure LoopSt where
  modelIndex : Nat
  keyIndex : Nat
  attempt : Nat
  lastRetry : Option (List Char)
  gCalls : Nat
  dCalls : Nat
  qCalls : Nat
  stats : Stats
  deriving DecidableEq, Repr

inductive StepOut where
  | done (r : Except (List Char) Json) (st : LoopSt) : StepOut
  | cont (st : LoopSt) : StepOut
  deriving DecidableEq, Repr

/-- Generic first-match scan over every suffix of a string. -/
def scanFor (f : List Char → Option (List Char)) : List Char → Option (List Char)
  | [] => f []
  | c :: cs =>
    match f (c :: cs) with
    | some r => some r
    | none => scanFor f cs

/-- Match of `/Please retry in\s+([0-9.]+)s/i` at the head of an
already-lower-cased string, returning the capture. -/
def retryInAt (s : List Char) : Option (List Char) :=
  if startsWith s ("please retry in".toList) then
    let r := s.drop 15
    let ws := r.takeWhile isRegWs
    let r2 := r.dropWhile isRegWs
    if ws = [] then none
    else
      let ds := r2.takeWhile (fun c => isDigitCh c || c = '.')
      let r3 := r2.dropWhile (fun c => isDigitCh c || c = '.')
      if ds = [] then none
      else
        match r3 with
        | 's' :: _ => some ds
        | _ => none
  else none

/-- Match of `/retryDelay"\s*:\s*"(\d+)s"/i` at the head of an
already-lower-cased string, returning the capture. -/
def retryDelayAt (s : List Char) : Option (List Char) :=
  if startsWith s ("retrydelay\"".toList) then
    match (s.drop 11).dropWhile isRegWs with
    | ':' :: r2 =>
      (match r2.dropWhile isRegWs with
       | '"' :: r4 =>
         let ds := r4.takeWhile isDigitCh
         let r5 := r4.dropWhile isDigitCh
         if ds = [] then none
         else
           match r5 with
           | 's' :: '"' :: _ => some ds
           | _ => none
       | _ => none)
    | _ => none
  else none

/-- `msg.match(/Please retry in\s+([0-9.]+)s/i)?.[1]`. -/
def findRetryIn (msg : List Char) : Option (List Char) :=
  scanFor retryInAt (lcStr msg)

/-- `msg.match(/retryDelay"\s*:\s*"(\d+)s"/i)?.[1]`. -/
def findRetryDelay (msg : List Char) : Option (List Char) :=
  scanFor retryDelayAt (lcStr msg)

/-- `Math.ceil(Number(r) * 1000)` for a `[0-9.]+` capture; `none` models the
`NaN` produced when `r` is not a valid numeral (more than one dot, or a lone
dot). -/
def parseSecMs (r : List Char) : Option Nat :=
  let dots := r.count '.'
  if 1 < dots then none
  else if r = ['.'] then none
  else
    let ip := r.takeWhile (fun c => ¬ c = '.')
    let fp := (r.dropWhile (fun c => ¬ c = '.')).drop 1
    let f3 := fp.take 3 ++ List.replicate (3 - (fp.take 3).length) '0'
    let extra := (fp.drop 3).any (fun c => ¬ c = '0')
    some (digitsToNat ip * 1000 + digitsToNat f3 + (if extra then 1 else 0))

/-- Lines 672–676: the error-classification predicates, from the HTTP status
and the message text. -/
def isModelNotFoundE (status : Option Nat) (msg : List Char) : Bool :=
  status = some 404 || containsSub msg ("404".toList) ||
  (containsSub msg ("models/".toList) && containsSub msg ("not found".toList))

def isRateLimitE (status : Option Nat) (msg : List Char) : Bool :=
  status = some 429 || containsSub msg ("429".toList) ||
  lcContains msg ("rate limit".toList) || lcContains msg ("quota".toList)

def isForbiddenE (status : Option Nat) (msg : List Char) : Bool :=
  status = some 401 || status = some 403 || containsSub msg ("403".toList) ||
  containsSub msg ("401".toList) || lcContains msg ("permission".toList)

def isServerOverloadE (status : Option Nat) (msg : List Char) : Bool :=
  status = some 503 || containsSub msg ("503".toList)

def isTimeoutE (msg : List Char) : Bool :=
  msg = "GENERATION_TIMEOUT".toList || containsSub msg ("TIMEOUT".toList)

def isHardFreeTierZeroE (msg : List Char) : Bool :=
  containsSub msg ("limit: 0".toList) &&
  (containsSub msg ("generate_content_free_tier".toList) || containsSub msg ("FreeTier".toList))

/-- Lines 622–646: the body of one Gemini `try` block given the response
text — empty-response check, the insufficient-content substring check
(before any parsing), then parse and structure checks. -/
def geminiBody (content : List Char) : Except ErrObj Json :=
  if content = [] then .error ⟨none, emptyGeminiMsg, []⟩
  else if lcContains content ("insufficient content".toList) then
    .error ⟨none, insufficientMsg, []⟩
  else parseChecks content

/-- The DeepSeek fallback block inside the Gemini catch (lines 712–756):
run the candidate loop; on failure record `deepseekFail` and the error
message and fall through. -/
def dsFallbackRun (cfg : Config) (env : Env) (st : LoopSt) : Option Json × LoopSt :=
  let stats1 := { st.stats with deepseekAttempts := st.stats.deepseekAttempts + 1,
                                lastProvider := "deepseek".toList }
  match dsLoop env cfg.dsModels st.dCalls stats1 none with
  | (some v, s2, i2, _) => (some v, { st with stats := s2, dCalls := i2 })
  | (none, s2, i2, le) =>
    let m := match le with
             | some e => e.msg
             | none => "undefined".toList
    (none, { st with stats := { s2 with deepseekFail := s2.deepseekFail + 1, lastError := m },
                     dCalls := i2 })

/-- The Groq fallback block inside the Gemini catch (lines 759–803). -/
def groqFallbackRun (cfg : Config) (env : Env) (st : LoopSt) : Option Json × LoopSt :=
  let stats1 := { st.stats with groqAttempts := st.stats.groqAttempts + 1,
                                lastProvider := "groq".toList }
  match groqLoop env cfg.groqModels st.qCalls stats1 none with
  | (some v, s2, i2, _) => (some v, { st with stats := s2, qCalls := i2 })
  | (none, s2, i2, le) =>
    let m := match le with
             | some e => e.msg
             | none => "undefined".toList
    (none, { st with stats := { s2 with groqFail := s2.groqFail + 1, lastError := m },
                     qCalls := i2 })

/-- Line 807: the quota-exceeded terminal message. -/
def quotaMsg (lr : Option (List Char)) : List Char :=
  ("Gemini API Quota Exceeded. The system is currently busy.".toList) ++
  (match lr with
   | some r => (" Please retry in ".toList) ++ r ++ ("s.".toList)
   | none => [])

/-- The tail of the Gemini catch block (lines 711–810): the DeepSeek fallback
(when configured and the error class warrants it), then the Groq fallback,
then the terminal quota/generic errors. -/
def fbSection (cfg : Config) (env : Env) (st : LoopSt) (fallbackClass isRL : Bool) : StepOut :=
  match (if cfg.dsConfigured ∧ fallbackClass = true then dsFallbackRun cfg env st
         else (none, st)) with
  | (some v, st1) => .done (.ok v) st1
  | (none, st1) =>
    match (if cfg.groqConfigured ∧ fallbackClass = true then groqFallbackRun cfg env st1
           else (none, st1)) with
    | (some v, st2) => .done (.ok v) st2
    | (none, st2) =>
      if 3 < st2.attempt ∧ isRL = true then .done (.error (quotaMsg st2.lastRetry)) st2
      else .done (.error genericFailMsg) st2

/-- The catch block of the Gemini retry loop (lines 647–810): stats and
attempt bookkeeping, the insufficient-content rethrow, classification, model
advance, key rotation, the backoff-or-fallback decision, the DeepSeek and
Groq fallbacks and the terminal errors. -/
def geminiCatch (cfg : Config) (env : Env) (st0 : LoopSt) (e : ErrObj) : StepOut :=
  let st := { st0 with
    stats := { st0.stats with geminiFail := st0.stats.geminiFail + 1, lastError := e.msg },
    attempt := st0.attempt + 1 }
  if e.msg = insufficientMsg then .done (.error insufficientMsg) st
  else
    let msg := e.msg
    let status := e.status
    let retrySecs := (findRetryIn msg).orElse (fun _ => findRetryDelay msg)
    let st := match retrySecs with
              | some r => { st with lastRetry := some r }
              | none => st
    let hardFree := isHardFreeTierZeroE msg
    let isMNF := isModelNotFoundE status msg
    let isRL := isRateLimitE status msg
    let isFB := isForbiddenE status msg
    let isSO := isServerOverloadE status msg
    let isTO := isTimeoutE msg
    if isMNF ∧ st.modelIndex + 1 < cfg.models.length then
      .cont { st with modelIndex := st.modelIndex + 1, attempt := 0 }
    else
      let st := if (isRL || isFB || isSO || isTO) ∧ 1 < cfg.geminiKeyCount then
                  { st with keyIndex := st.keyIndex + 1 }
                else st
      let rawWait : Option Nat :=
        match retrySecs with
        | some r => (parseSecMs r).map (fun v => max 500 v)
        | none => some (2000 * 2 ^ st.attempt)
      let elapsed := env.elapsedAt st.gCalls
      let capped := rawWait.map (fun v => min v 7000)
      let wouldExceed : Bool :=
        match capped with
        | some cw => decide (35000 < elapsed + cw)
        | none => false
      let tooLong : Bool :=
        match rawWait with
        | some rw => decide (7000 < rw)
        | none => false
      let inBackoff : Bool := (isRL || isSO || isTO) && decide (st.attempt ≤ 3) && ! hardFree
      let fallbackInstead : Bool :=
        (cfg.dsConfigured || cfg.groqConfigured) && (tooLong || wouldExceed)
      if inBackoff && ! fallbackInstead then .cont st
      else fbSection cfg env st (isMNF || isRL || isSO || isTO || isFB) isRL

/-- One iteration of the Gemini retry loop (lines 595–811): the attempt, and
on failure the catch block. -/
def geminiStep (cfg : Config) (env : Env) (st : LoopSt) : StepOut :=
  let currentModel :=
    match cfg.models.get? st.modelIndex with
    | some m => if m = [] then QUIZ_MODEL else m
    | none => QUIZ_MODEL
  let st := { st with stats := { st.stats with
                geminiAttempts := st.stats.geminiAttempts + 1,
                lastProvider := "gemini".toList,
                lastModel := currentModel } }
  let outcome := env.gemini st.gCalls
  let st := { st with gCalls := st.gCalls + 1 }
  let res : Except ErrObj Json :=
    match outcome with
    | .ok c => geminiBody c
    | .err s m b => .error ⟨s, m, b⟩
  match res with
  | .ok v =>
    .done (.ok v) { st with stats := { st.stats with
      geminiSuccess := st.stats.geminiSuccess + 1, lastError := [] } }
  | .error e => geminiCatch cfg env st e

/-- The `while (attempt <= MAX_RETRIES)` driver; `none` is fuel exhaustion
(every run in this development carries enough fuel). -/
def runLoop (cfg : Config) (env : Env) : Nat → LoopSt →
    Option (Except (List Char) Json × LoopSt)
  | 0, _ => none
  | fuel + 1, st =>
    if 3 < st.attempt then some (.error unexpectedLoopMsg, st)
    else
      match geminiStep cfg env st with
      | .done r st' => some (r, st')
      | .cont st' => runLoop cfg env fuel st'

/-- The overall result of one `generateQuiz` call: the returned value or
thrown error message, the final stats, and how many HTTP-level provider calls
were made. -/
structure GenOut where
  result : Except (List Char) Json
  stats : Stats
  gCalls : Nat
  dCalls : Nat
  qCalls : Nat
  deriving DecidableEq, Repr

def initLoopSt (st0 : Stats) : LoopSt :=
  ⟨0, 0, 0, none, 0, 0, 0, st0⟩

/-- quizGenerator.ts lines 465–816, `generateQuiz` (inside the concurrency
gate): the no-Gemini path when no Gemini key is configured, otherwise the
Gemini retry loop. -/
def generateQuiz (cfg : Config) (env : Env) (fuel : Nat) (st0 : Stats) : Option GenOut :=
  if cfg.geminiKeyCount = 0 then
    match noGeminiFlow cfg env st0 with
    | (r, st, dc, qc) => some ⟨r, st, 0, dc, qc⟩
  else
    (runLoop cfg env fuel (initLoopSt st0)).map
      (fun p => ⟨p.1, p.2.stats, p.2.gCalls, p.2.dCalls, p.2.qCalls⟩)

/-- The loop state carried by a step outcome. -/
def StepOut.state : StepOut → LoopSt
  | .done _ st => st
  | .cont st => st

/-- The terminal result of a step, if it terminated the loop. -/
def StepOut.result : StepOut → Option (Except (List Char) Json)
  | .done r _ => some r
  | .cont _ => none

/-- `llmStats` at process start (lines 431–444). -/
def statsInit : Stats := ⟨0, 0, 0, 0, 0, 0, 0, 0, 0, [], [], []⟩

/-- The Gemini model-candidate list when no override is configured:
`dedup(['', QUIZ_MODEL, ...QUIZ_MODELS].filter(Boolean))` = `QUIZ_MODELS`
(whose head is `QUIZ_MODEL`). -/
def modelCandidatesDefault : List (List Char) := QUIZ_MODELS

/-- `DEEPSEEK_MODEL_CANDIDATES` with no override configured. -/
def dsModelCandidates : List (List Char) :=
  ["deepseek-chat".toList, "deepseek-reasoner".toList]

/-- `GROQ_MODEL_CANDIDATES` with no override configured. -/
def groqModelCandidates : List (List Char) :=
  [ "llama-3.3-70b-versatile".toList,
    "llama-3.1-8b-instant".toList,
    "openai/gpt-oss-20b".toList,
    "openai/gpt-oss-120b".toList,
    "qwen/qwen3-32b".toList ]

/-! ## Claim C6: no configured provider -/

/-- Claim C6: if no API key is configured for any provider (Gemini, DeepSeek,
Groq), `generateQuiz` fails immediately with the no-provider-configured
error, with zero HTTP calls made and the `llmStats` counters left completely
unchanged. -/
theorem claim6_no_provider (cfg : Config) (env : Env) (fuel : Nat) (st0 : Stats)
    (hg : cfg.geminiKeyCount = 0) (hd : cfg.dsConfigured = false)
    (hq : cfg.groqConfigured = false) :
    generateQuiz cfg env fuel st0 = some ⟨.error noProviderMsg, st0, 0, 0, 0⟩ := by
  simp [generateQuiz, noGeminiFlow, hg, hd, hq]

/-- Witness for C6 at a concrete configuration and environment. -/
theorem claim6_no_provider_witness :
    generateQuiz ⟨0, false, false, modelCandidatesDefault, dsModelCandidates, groqModelCandidates⟩
      ⟨fun _ => .err none [] [], fun _ => .err none [] [], fun _ => .err none [] [], fun _ => 0⟩
      20 statsInit = some ⟨.error noProviderMsg, statsInit, 0, 0, 0⟩ :=
  claim6_no_provider _ _ 20 statsInit rfl rfl rfl

/-! ## Claim C9: the insufficient-content substring check fires before parsing -/

/-- Claim C9: on the Gemini path, any non-empty response text containing
`"insufficient content"` case-insensitively makes the attempt throw the
insufficient-content error, which terminates the call immediately (no model
advance, no DeepSeek or Groq call) — no matter what the text would parse to. -/
theorem geminiCatch_insufficient (cfg : Config) (env : Env) (st : LoopSt) (e : ErrObj)
    (h : e.msg = insufficientMsg) :
    (geminiCatch cfg env st e).result = some (.error insufficientMsg) ∧
    (geminiCatch cfg env st e).state.dCalls = st.dCalls ∧
    (geminiCatch cfg env st e).state.qCalls = st.qCalls ∧
    (geminiCatch cfg env st e).state.gCalls = st.gCalls ∧
    (geminiCatch cfg env st e).state.modelIndex = st.modelIndex := by
  dsimp only [geminiCatch]
  rw [if_pos h]
  exact ⟨rfl, rfl, rfl, rfl, rfl⟩

theorem claim9_phrase_precedes_parse (cfg : Config) (env : Env) (st : LoopSt)
    (c : List Char) (hc : env.gemini st.gCalls = .ok c) (hne : c ≠ [])
    (hphrase : lcContains c ("insufficient content".toList) = true) :
    (geminiStep cfg env st).result = some (.error insufficientMsg) ∧
    (geminiStep cfg env st).state.dCalls = st.dCalls ∧
    (geminiStep cfg env st).state.qCalls = st.qCalls ∧
    (geminiStep cfg env st).state.gCalls = st.gCalls + 1 ∧
    (geminiStep cfg env st).state.modelIndex = st.modelIndex := by
  dsimp only [geminiStep]
  rw [hc]
  dsimp only [geminiBody]
  rw [if_neg hne, if_pos hphrase]
  exact geminiCatch_insufficient cfg env _ _ rfl

/-- Witness for C9: the response is a *valid* quiz JSON whose only question
merely mentions the phrase, and it is still rejected as insufficient
content. -/
theorem claim9_phrase_precedes_parse_witness :
    (let c : List Char :=
      ("\x7b\"questions\":[\x7b\"question\":\"why is insufficient content reported?\",\"options\":[\"a\",\"b\",\"c\",\"d\"],\"correctIndex\":1,\"explanation\":\"e\"\x7d]\x7d").toList
     let cfg : Config := ⟨1, false, false, modelCandidatesDefault, dsModelCandidates, groqModelCandidates⟩
     let env : Env := ⟨fun _ => .ok c, fun _ => .err none [] [], fun _ => .err none [] [], fun _ => 0⟩
     (geminiStep cfg env (initLoopSt statsInit)).result = some (.error insufficientMsg) ∧
     ((safeJsonParse c).toOption.bind getQuestions).map JsonList.length = some 1) := by
  exact ⟨(claim9_phrase_precedes_parse _ _ _ _ rfl (by decide) (by decide)).1, by decide⟩

/-! ## Claim C5: model rotation in the Gemini retry loop -/

theorem dsFallbackRun_state (cfg : Config) (env : Env) (st : LoopSt) :
    (dsFallbackRun cfg env st).2.modelIndex = st.modelIndex ∧
    (dsFallbackRun cfg env st).2.attempt = st.attempt ∧
    (dsFallbackRun cfg env st).2.gCalls = st.gCalls ∧
    (dsFallbackRun cfg env st).2.qCalls = st.qCalls := by
  refine ⟨?_, ?_, ?_, ?_⟩ <;>
  · dsimp only [dsFallbackRun]
    split <;> rfl

theorem groqFallbackRun_state (cfg : Config) (env : Env) (st : LoopSt) :
    (groqFallbackRun cfg env st).2.modelIndex = st.modelIndex ∧
    (groqFallbackRun cfg env st).2.attempt = st.attempt ∧
    (groqFallbackRun cfg env st).2.gCalls = st.gCalls ∧
    (groqFallbackRun cfg env st).2.dCalls = st.dCalls := by
  refine ⟨?_, ?_, ?_, ?_⟩ <;>
  · dsimp only [groqFallbackRun]
    split <;> rfl

theorem geminiCatch_advance (cfg : Config) (env : Env) (st : LoopSt) (e : ErrObj)
    (hmsg : e.msg ≠ insufficientMsg)
    (h404 : isModelNotFoundE e.status e.msg = true)
    (hlt : st.modelIndex + 1 < cfg.models.length) :
    (geminiCatch cfg env st e).result = none ∧
    (geminiCatch cfg env st e).state.modelIndex = st.modelIndex + 1 ∧
    (geminiCatch cfg env st e).state.attempt = 0 := by
  dsimp only [geminiCatch]
  rw [if_neg hmsg]
  split
  · refine ⟨rfl, ?_, rfl⟩
    dsimp only [StepOut.state]
    split <;> rfl
  · rename_i h
    exact absurd ⟨h404, by split <;> exact hlt⟩ h

theorem ds_if_snd_modelIndex (cfg : Config) (env : Env) (st : LoopSt) (P : Prop)
    [Decidable P] :
    ((if P then dsFallbackRun cfg env st else (none, st)).2).modelIndex = st.modelIndex := by
  split
  · exact (dsFallbackRun_state cfg env st).1
  · rfl

theorem ds_if_snd_attempt (cfg : Config) (env : Env) (st : LoopSt) (P : Prop)
    [Decidable P] :
    ((if P then dsFallbackRun cfg env st else (none, st)).2).attempt = st.attempt := by
  split
  · exact (dsFallbackRun_state cfg env st).2.1
  · rfl

theorem ds_if_snd_gCalls (cfg : Config) (env : Env) (st : LoopSt) (P : Prop)
    [Decidable P] :
    ((if P then dsFallbackRun cfg env st else (none, st)).2).gCalls = st.gCalls := by
  split
  · exact (dsFallbackRun_state cfg env st).2.2.1
  · rfl

theorem groq_if_snd_modelIndex (cfg : Config) (env : Env) (st : LoopSt) (P : Prop)
    [Decidable P] :
    ((if P then groqFallbackRun cfg env st else (none, st)).2).modelIndex = st.modelIndex := by
  split
  · exact (groqFallbackRun_state cfg env st).1
  · rfl

theorem groq_if_snd_attempt (cfg : Config) (env : Env) (st : LoopSt) (P : Prop)
    [Decidable P] :
    ((if P then groqFallbackRun cfg env st else (none, st)).2).attempt = st.attempt := by
  split
  · exact (groqFallbackRun_state cfg env st).2.1
  · rfl

theorem groq_if_snd_gCalls (cfg : Config) (env : Env) (st : LoopSt) (P : Prop)
    [Decidable P] :
    ((if P then groqFallbackRun cfg env st else (none, st)).2).gCalls = st.gCalls := by
  split
  · exact (groqFallbackRun_state cfg env st).2.2.1
  · rfl

theorem fbSection_modelIndex (cfg : Config) (env : Env) (st : LoopSt) (fc rl : Bool) :
    (fbSection cfg env st fc rl).state.modelIndex = st.modelIndex := by
  dsimp only [fbSection]
  split
  · rename_i v st1 heq
    have e1 := congrArg Prod.snd heq
    dsimp only at e1
    dsimp only [StepOut.state]
    rw [← e1, ds_if_snd_modelIndex]
  · rename_i st1 heq
    have e1 := congrArg Prod.snd heq
    dsimp only at e1
    split
    · rename_i v st2 heq2
      have e2 := congrArg Prod.snd heq2
      dsimp only at e2
      dsimp only [StepOut.state]
      rw [← e2, ← e1, groq_if_snd_modelIndex, ds_if_snd_modelIndex]
    · rename_i st2 heq2
      have e2 := congrArg Prod.snd heq2
      dsimp only at e2
      split <;>
      · dsimp only [StepOut.state]
        rw [← e2, ← e1, groq_if_snd_modelIndex, ds_if_snd_modelIndex]

theorem fbSection_attempt (cfg : Config) (env : Env) (st : LoopSt) (fc rl : Bool) :
    (fbSection cfg env st fc rl).state.attempt = st.attempt := by
  dsimp only [fbSection]
  split
  · rename_i v st1 heq
    have e1 := congrArg Prod.snd heq
    dsimp only at e1
    dsimp only [StepOut.state]
    rw [← e1, ds_if_snd_attempt]
  · rename_i st1 heq
    have e1 := congrArg Prod.snd heq
    dsimp only at e1
    split
    · rename_i v st2 heq2
      have e2 := congrArg Prod.snd heq2
      dsimp only at e2
      dsimp only [StepOut.state]
      rw [← e2, ← e1, groq_if_snd_attempt, ds_if_snd_attempt]
    · rename_i st2 heq2
      have e2 := congrArg Prod.snd heq2
      dsimp only at e2
      split <;>
      · dsimp only [StepOut.state]
        rw [← e2, ← e1, groq_if_snd_attempt, ds_if_snd_attempt]

theorem fbSection_gCalls (cfg : Config) (env : Env) (st : LoopSt) (fc rl : Bool) :
    (fbSection cfg env st fc rl).state.gCalls = st.gCalls := by
  dsimp only [fbSection]
  split
  · rename_i v st1 heq
    have e1 := congrArg Prod.snd heq
    dsimp only at e1
    dsimp only [StepOut.state]
    rw [← e1, ds_if_snd_gCalls]
  · rename_i st1 heq
    have e1 := congrArg Prod.snd heq
    dsimp only at e1
    split
    · rename_i v st2 heq2
      have e2 := congrArg Prod.snd heq2
      dsimp only at e2
      dsimp only [StepOut.state]
      rw [← e2, ← e1, groq_if_snd_gCalls, ds_if_snd_gCalls]
    · rename_i st2 heq2
      have e2 := congrArg Prod.snd heq2
      dsimp only at e2
      split <;>
      · dsimp only [StepOut.state]
        rw [← e2, ← e1, groq_if_snd_gCalls, ds_if_snd_gCalls]

theorem geminiCatch_modelIndex_mono (cfg : Config) (env : Env) (st : LoopSt) (e : ErrObj) :
    st.modelIndex ≤ (geminiCatch cfg env st e).state.modelIndex := by
  dsimp only [geminiCatch]
  repeat' split
  all_goals try rw [fbSection_modelIndex]
  all_goals dsimp only [StepOut.state]
  all_goals omega

theorem geminiStep_modelIndex_mono (cfg : Config) (env : Env) (st : LoopSt) :
    st.modelIndex ≤ (geminiStep cfg env st).state.modelIndex := by
  dsimp only [geminiStep]
  split
  · dsimp only [StepOut.state]
    exact Nat.le.refl
  · refine le_trans ?_ (geminiCatch_modelIndex_mono cfg env _ _)
    exact Nat.le.refl

theorem runLoop_modelIndex_mono (cfg : Config) (env : Env) :
    ∀ (fuel : Nat) (st : LoopSt) (r : Except (List Char) Json) (st' : LoopSt),
      runLoop cfg env fuel st = some (r, st') → st.modelIndex ≤ st'.modelIndex := by
  intro fuel
  induction fuel with
  | zero => intro st r st' h; simp [runLoop] at h
  | succ n ih =>
    intro st r st' h
    simp only [runLoop] at h
    split at h
    · cases h; exact le_refl _
    · cases hs : geminiStep cfg env st with
      | done r2 st2 =>
        rw [hs] at h
        cases h
        have := geminiStep_modelIndex_mono cfg env st
        rwa [hs] at this
      | cont st2 =>
        rw [hs] at h
        have h1 := geminiStep_modelIndex_mono cfg env st
        rw [hs] at h1
        exact le_trans h1 (ih st2 r st' h)

/-- Counterexample to claim C5 as stated: with the default candidate list
(8 models) and an environment answering every Gemini call with a 404, the
run makes 8 attempts, each classified model-not-found, yet ends with model
index 7 and attempt counter 1 — the final model-not-found classification
neither advanced the index nor reset the counter, because no further
candidate remained. -/
theorem claim5_counterexample :
    (runLoop ⟨1, false, false, modelCandidatesDefault, dsModelCandidates, groqModelCandidates⟩
        ⟨fun _ => .err (some 404) ("Not Found".toList) [], fun _ => .err none [] [],
         fun _ => .err none [] [], fun _ => 0⟩
        20 (initLoopSt statsInit)).map
      (fun p => (p.1, p.2.modelIndex, p.2.attempt, p.2.gCalls)) =
      some (.error genericFailMsg, 7, 1, 8) ∧
    modelCandidatesDefault.length = 8 ∧
    isModelNotFoundE (some 404) ("Not Found".toList) = true := by
  refine ⟨by decide, by decide, by decide⟩

/-- Claim C5 (amended): in the Gemini retry loop, a model-not-found
classification advances the model index by one and resets the attempt counter
to zero *whenever a further candidate remains* (so a subsequent
model-not-found on the new model advances again); at the last candidate the
index is unchanged and the loop falls through to fallback/terminal handling.
In every case the model index never decreases across a step or a whole run,
so an earlier model is never reused within the call. -/
theorem claim5_model_rotation :
    (∀ (cfg : Config) (env : Env) (st : LoopSt) (s : Option Nat) (m b : List Char),
      env.gemini st.gCalls = .err s m b →
      isModelNotFoundE s m = true →
      m ≠ insufficientMsg →
      st.modelIndex + 1 < cfg.models.length →
      (geminiStep cfg env st).result = none ∧
      (geminiStep cfg env st).state.modelIndex = st.modelIndex + 1 ∧
      (geminiStep cfg env st).state.attempt = 0) ∧
    (∀ (cfg : Config) (env : Env) (st : LoopSt),
      st.modelIndex ≤ (geminiStep cfg env st).state.modelIndex) ∧
    (∀ (cfg : Config) (env : Env) (fuel : Nat) (st : LoopSt)
       (r : Except (List Char) Json) (st' : LoopSt),
      runLoop cfg env fuel st = some (r, st') → st.modelIndex ≤ st'.modelIndex) := by
  refine ⟨?_, geminiStep_modelIndex_mono, fun cfg env => runLoop_modelIndex_mono cfg env⟩
  intro cfg env st s m b henv h404 hmsg hlt
  dsimp only [geminiStep]
  rw [henv]
  exact geminiCatch_advance cfg env _ ⟨s, m, b⟩ hmsg h404 hlt

/-- Witness for the amended C5: a 404 at model index 0 of the default list
advances to index 1 with a fresh attempt budget; the run-level monotonicity
applied to the all-404 run. -/
theorem claim5_model_rotation_witness :
    (let cfg : Config := ⟨1, false, false, modelCandidatesDefault, dsModelCandidates, groqModelCandidates⟩
     let env : Env := ⟨fun _ => .err (some 404) ("Not Found".toList) [], fun _ => .err none [] [],
                       fun _ => .err none [] [], fun _ => 0⟩
     (geminiStep cfg env (initLoopSt statsInit)).result = none ∧
     (geminiStep cfg env (initLoopSt statsInit)).state.modelIndex = 1 ∧
     (geminiStep cfg env (initLoopSt statsInit)).state.attempt = 0) := by
  exact claim5_model_rotation.1 _ _ _ _ _ _ rfl (by decide) (by decide) (by decide)

/-! ## Claim C3: empty `questions` array -/

theorem groqLoop_preserves_ds (env : Env) : ∀ (ms : List (List Char)) (i : Nat)
    (st : Stats) (le : Option ErrObj),
    (groqLoop env ms i st le).2.1.deepseekSuccess = st.deepseekSuccess ∧
    (groqLoop env ms i st le).2.1.deepseekFail = st.deepseekFail := by
  intro ms
  induction ms with
  | nil => intro i st le; exact ⟨rfl, rfl⟩
  | cons m t ih =>
    intro i st le
    dsimp only [groqLoop]
    split
    · exact ⟨rfl, rfl⟩
    · split
      · exact ih _ _ _
      · exact ⟨rfl, rfl⟩

theorem groqNGFlow_preserves_ds (cfg : Config) (env : Env) (st : Stats) (dc : Nat) :
    (groqNGFlow cfg env st dc).2.1.deepseekSuccess = st.deepseekSuccess ∧
    (groqNGFlow cfg env st dc).2.1.deepseekFail = st.deepseekFail := by
  dsimp only [groqNGFlow]
  split
  · rename_i v st2 qc r heq
    have e := congrArg (fun p => p.2.1) heq
    dsimp only at e
    rw [← e]
    exact groqLoop_preserves_ds env _ _ _ _
  · rename_i st2 qc le heq
    have e := congrArg (fun p => p.2.1) heq
    dsimp only at e
    rw [← e]
    exact groqLoop_preserves_ds env _ _ _ _

/-- Counterexample to claim C3 as stated: with no Gemini key, a DeepSeek
response whose parsed result has an empty `questions` array does *not*
propagate to the caller — the call falls through to Groq and succeeds
(`result.isOk`, one Groq call, `deepseekFail` incremented). -/
theorem claim3_counterexample :
    (generateQuiz ⟨0, true, true, modelCandidatesDefault, dsModelCandidates, groqModelCandidates⟩
        ⟨fun _ => .err none [] [],
         fun _ => .ok (("\x7b\"questions\": []\x7d").toList),
         fun _ => .ok (("\x7b\"questions\": [\x7b\"q\": 1\x7d]\x7d").toList),
         fun _ => 0⟩ 20 statsInit).map
      (fun o => (o.result.isOk, o.stats.deepseekFail, o.stats.deepseekSuccess, o.dCalls, o.qCalls)) =
      some (true, 1, 0, 1, 1) := by decide

/-- Claim C3 (amended): a parsed result with an empty `questions` array is
classified as the insufficient-content failure, never as success.  On the
*Gemini* path this failure propagates to the caller immediately, with no
retry and no DeepSeek/Groq call.  On the DeepSeek path (no Gemini key
configured) the attempt is likewise a failure — `deepseekFail` is incremented
and the call never counts as a DeepSeek success — but when Groq is also
configured the call still falls through to Groq rather than propagating. -/
theorem claim3_empty_questions :
    (∀ (cfg : Config) (env : Env) (st : LoopSt) (c : List Char) (v : Json),
      env.gemini st.gCalls = .ok c → c ≠ [] →
      safeJsonParse c = .ok v → getQuestions v = some .nil →
      (geminiStep cfg env st).result = some (.error insufficientMsg) ∧
      (geminiStep cfg env st).state.dCalls = st.dCalls ∧
      (geminiStep cfg env st).state.qCalls = st.qCalls ∧
      (geminiStep cfg env st).state.gCalls = st.gCalls + 1) ∧
    (∀ (cfg : Config) (env : Env) (st0 : Stats) (m : List Char) (ms : List (List Char))
       (c : List Char) (v : Json),
      cfg.dsConfigured = true → cfg.dsModels = m :: ms →
      env.ds 0 = .ok c → c ≠ [] →
      safeJsonParse c = .ok v → getQuestions v = some .nil →
      (noGeminiFlow cfg env st0).2.1.deepseekSuccess = st0.deepseekSuccess ∧
      (noGeminiFlow cfg env st0).2.1.deepseekFail = st0.deepseekFail + 1) := by
  constructor
  · intro cfg env st c v hc hne hparse hq
    dsimp only [geminiStep]
    rw [hc]
    dsimp only [geminiBody]
    rw [if_neg hne]
    by_cases hph : lcContains c ("insufficient content".toList) = true
    · rw [if_pos hph]
      exact ⟨(geminiCatch_insufficient cfg env _ ⟨none, insufficientMsg, []⟩ rfl).1,
             (geminiCatch_insufficient cfg env _ ⟨none, insufficientMsg, []⟩ rfl).2.1,
             (geminiCatch_insufficient cfg env _ ⟨none, insufficientMsg, []⟩ rfl).2.2.1,
             (geminiCatch_insufficient cfg env _ ⟨none, insufficientMsg, []⟩ rfl).2.2.2.1⟩
    · rw [if_neg hph]
      dsimp only [parseChecks]
      rw [hparse]
      dsimp only
      rw [hq]
      exact ⟨(geminiCatch_insufficient cfg env _ ⟨none, insufficientMsg, []⟩ rfl).1,
             (geminiCatch_insufficient cfg env _ ⟨none, insufficientMsg, []⟩ rfl).2.1,
             (geminiCatch_insufficient cfg env _ ⟨none, insufficientMsg, []⟩ rfl).2.2.1,
             (geminiCatch_insufficient cfg env _ ⟨none, insufficientMsg, []⟩ rfl).2.2.2.1⟩
  · intro cfg env st0 m ms c v hds hm hc hne hparse hq
    dsimp only [noGeminiFlow]
    rw [hds, hm]
    rw [if_pos rfl]
    dsimp only [dsLoop, dsAttempt]
    rw [hc]
    dsimp only
    rw [if_neg hne]
    dsimp only [parseChecks]
    rw [hparse]
    dsimp only
    rw [hq]
    dsimp only
    rw [if_neg (fun h => Option.noConfusion h.1)]
    dsimp only
    split
    · exact groqNGFlow_preserves_ds cfg env _ _
    · exact ⟨rfl, rfl⟩

/-- Witness for the amended C3 at a concrete state and environment. -/
theorem claim3_empty_questions_witness :
    (let cfg : Config := ⟨1, true, true, modelCandidatesDefault, dsModelCandidates, groqModelCandidates⟩
     let env : Env := ⟨fun _ => .ok (("\x7b\"questions\": []\x7d").toList),
                       fun _ => .err none [] [], fun _ => .err none [] [], fun _ => 0⟩
     (geminiStep cfg env (initLoopSt statsInit)).result = some (.error insufficientMsg) ∧
     (geminiStep cfg env (initLoopSt statsInit)).state.dCalls = 0 ∧
     (geminiStep cfg env (initLoopSt statsInit)).state.qCalls = 0 ∧
     (geminiStep cfg env (initLoopSt statsInit)).state.gCalls = 1) := by
  exact claim3_empty_questions.1 _ _ _ _ (.obj (.cons ("questions".toList) (.arr .nil) .nil))
    rfl (by decide) (by decide) (by decide)

/-! ## Claim C4: the concurrency gate -/

/-- The gate invariant: the in-flight count is within bounds and the enqueue
trace is exactly the admitted trace followed by the still-waiting queue (so
admissions happen strictly in FIFO order). -/
def GateInv (maxc : Nat) (p : GateState × GateTrace) : Prop :=
  0 ≤ p.1.inFlight ∧ p.1.inFlight ≤ (maxc : Int) ∧ p.2.enq = p.2.adm ++ p.1.waiters

theorem gateStep_inv (maxc : Nat) (hmax : 1 ≤ maxc) (p : GateState × GateTrace)
    (op : GateOp) (h : GateInv maxc p) : GateInv maxc (gateStep maxc p op) := by
  obtain ⟨s, tr⟩ := p
  obtain ⟨h0, h1, h2⟩ := h
  dsimp only at h0 h1 h2
  cases op with
  | acq id =>
    dsimp only [gateStep]
    split
    · rename_i hlt
      refine ⟨?_, ?_, ?_⟩ <;> dsimp only
      · omega
      · omega
      · exact h2
    · refine ⟨?_, ?_, ?_⟩ <;> dsimp only
      · exact h0
      · exact h1
      · rw [h2, List.append_assoc]
  | rel =>
    dsimp only [gateStep]
    split
    · rename_i hw
      refine ⟨?_, ?_, ?_⟩ <;> dsimp only
      · omega
      · omega
      · rw [h2, hw]
    · rename_i w rest hw
      refine ⟨?_, ?_, ?_⟩ <;> dsimp only
      · omega
      · omega
      · rw [h2, hw]
        simp

theorem gateRun_inv (maxc : Nat) (hmax : 1 ≤ maxc) (ops : List GateOp) :
    GateInv maxc (gateRun maxc ops) := by
  have base : GateInv maxc (⟨0, []⟩, ⟨[], []⟩) :=
    ⟨le_refl _, by dsimp only; exact_mod_cast Nat.zero_le maxc, rfl⟩
  rw [gateRun]
  generalize hp : ((⟨0, []⟩, ⟨[], []⟩) : GateState × GateTrace) = p at base
  clear hp
  induction ops generalizing p with
  | nil => exact base
  | cons op t ih => exact ih _ (gateStep_inv maxc hmax p op base)

/-- Claim C4: for every sequence of gate operations from the initial state,
`0 ≤ inFlight ≤ maxc` holds and waiters are admitted strictly in FIFO order
(the admitted trace is always the exact prefix of the enqueue trace, the
remainder being the current queue); and `withConcurrencyLimit` performs
exactly one release for its acquire on both the normal-return and the
throwing exit path, returning the body's outcome unchanged. -/
theorem claim4_gate (maxc : Nat) (hmax : 1 ≤ maxc) :
    (∀ ops : List GateOp,
      0 ≤ (gateRun maxc ops).1.inFlight ∧
      (gateRun maxc ops).1.inFlight ≤ (maxc : Int) ∧
      (gateRun maxc ops).2.enq = (gateRun maxc ops).2.adm ++ (gateRun maxc ops).1.waiters) ∧
    (∀ (id : Nat) (outcome : Except (List Char) Json),
      (withConcurrencyLimit id outcome).1 = outcome ∧
      (withConcurrencyLimit id outcome).2.count (GateOp.acq id) = 1 ∧
      (withConcurrencyLimit id outcome).2.count GateOp.rel = 1) := by
  constructor
  · intro ops
    exact gateRun_inv maxc hmax ops
  · intro id outcome
    cases outcome <;> refine ⟨rfl, ?_, ?_⟩ <;> simp [withConcurrencyLimit, List.count_cons]

/-- Witness for C4 at the default limit (5) and a concrete operation
sequence: six acquires (the sixth queues), then a release admitting the
queued caller; plus both exit paths of `withConcurrencyLimit`. -/
theorem claim4_gate_witness :
    (let run := gateRun 5 [.acq 1, .acq 2, .acq 3, .acq 4, .acq 5, .acq 6, .rel]
     0 ≤ run.1.inFlight ∧ run.1.inFlight ≤ (5 : Int) ∧
     run.2.enq = run.2.adm ++ run.1.waiters) ∧
    (withConcurrencyLimit 7 (.ok .null)).2.count GateOp.rel = 1 ∧
    (withConcurrencyLimit 7 (.error genericFailMsg)).2.count GateOp.rel = 1 := by
  refine ⟨(claim4_gate 5 (by decide)).1 _, ?_, ?_⟩
  · exact ((claim4_gate 5 (by decide)).2 7 (.ok .null)).2.2
  · exact ((claim4_gate 5 (by decide)).2 7 (.error genericFailMsg)).2.2

/-! ## Claim C8: usage normalization -/

/-- Counterexample to claim C8 as stated: with `prompt_tokens = 5` and
`total_tokens = -1`, the upstream total is present but non-positive, so by
the claim `totalTokens` must be omitted; `normalizeUsage` instead re-derives
`totalTokens = 5` from the prompt/completion sum. -/
theorem claim8_counterexample :
    normalizeUsage (some { prompt_tokens := some (.fin 5), total_tokens := some (.fin (-1)) }) =
      ⟨some 5, none, some 5⟩ ∧
    finPos (numOf (totalChain { prompt_tokens := some (.fin 5), total_tokens := some (.fin (-1)) })) = false := by
  exact ⟨by decide, by decide⟩

theorem filtPos_some (x : JsNum) (n : Int)
    (h : (if finPos x = true then some (jnVal x) else none) = some n) :
    0 < n ∧ x = .fin n := by
  split at h
  · rename_i hx
    cases x with
    | fin k =>
      rw [jnVal, Option.some.injEq] at h
      subst h
      refine ⟨?_, rfl⟩
      simpa [finPos] using hx
    | nan => simp [finPos] at hx
    | inf => simp [finPos] at hx
    | ninf => simp [finPos] at hx
  · exact Option.noConfusion h

theorem filtPos_none (x : JsNum) (h : finPos x = false) :
    (if finPos x = true then some (jnVal x) else none) = none := by
  rw [h]
  simp

theorem filtPos_fin (n : Int) (hpos : 0 < n) :
    (if finPos (JsNum.fin n) = true then some (jnVal (JsNum.fin n)) else none) = some n := by
  simp [finPos, jnVal, hpos]

/-- Claim C8 (amended): `normalizeUsage` produces a uniform record in which
every reported field is strictly positive (never zero); `promptTokens` and
`completionTokens` are carried from the accepted naming chains exactly when
the chain value is positive and finite, and omitted otherwise; `totalTokens`
is the upstream total when that is positive and finite, and otherwise —
including when the upstream total was present but non-positive or
non-finite — it defaults to the sum of the carried prompt and completion
fields whenever that sum is positive, and is omitted only when it is not. -/
theorem claim8_normalize_usage (u : UsageIn) :
    (∀ n, (normalizeUsage (some u)).promptTokens = some n → 0 < n) ∧
    (∀ n, (normalizeUsage (some u)).completionTokens = some n → 0 < n) ∧
    (∀ n, (normalizeUsage (some u)).totalTokens = some n → 0 < n) ∧
    (finPos (numOf (promptChain u)) = false → (normalizeUsage (some u)).promptTokens = none) ∧
    (∀ n, promptChain u = some (.fin n) → 0 < n → (normalizeUsage (some u)).promptTokens = some n) ∧
    (finPos (numOf (completionChain u)) = false → (normalizeUsage (some u)).completionTokens = none) ∧
    (∀ n, completionChain u = some (.fin n) → 0 < n →
      (normalizeUsage (some u)).completionTokens = some n) ∧
    (∀ n, totalChain u = some (.fin n) → 0 < n → (normalizeUsage (some u)).totalTokens = some n) ∧
    (finPos (numOf (totalChain u)) = false →
      (normalizeUsage (some u)).totalTokens =
        (if 0 < (normalizeUsage (some u)).promptTokens.getD 0 +
               (normalizeUsage (some u)).completionTokens.getD 0 then
           some ((normalizeUsage (some u)).promptTokens.getD 0 +
                 (normalizeUsage (some u)).completionTokens.getD 0)
         else none)) := by
  refine ⟨?_, ?_, ?_, ?_, ?_, ?_, ?_, ?_, ?_⟩
  · intro n h
    dsimp only [normalizeUsage] at h
    exact (filtPos_some _ n h).1
  · intro n h
    dsimp only [normalizeUsage] at h
    exact (filtPos_some _ n h).1
  · intro n h
    dsimp only [normalizeUsage] at h
    split at h
    · rename_i v heq
      rw [Option.some.injEq] at h
      subst h
      exact (filtPos_some _ v heq).1
    · split_ifs at h <;>
        first
        | (rw [Option.some.injEq] at h; omega)
        | exact Option.noConfusion h
  · intro h
    dsimp only [normalizeUsage]
    rw [filtPos_none _ h]
  · intro n h hpos
    dsimp only [normalizeUsage]
    rw [h]
    dsimp only [numOf]
    rw [filtPos_fin n hpos]
  · intro h
    dsimp only [normalizeUsage]
    rw [filtPos_none _ h]
  · intro n h hpos
    dsimp only [normalizeUsage]
    rw [h]
    dsimp only [numOf]
    rw [filtPos_fin n hpos]
  · intro n h hpos
    dsimp only [normalizeUsage]
    rw [h]
    dsimp only [numOf]
    rw [filtPos_fin n hpos]
  · intro h
    dsimp only [normalizeUsage]
    rw [filtPos_none _ h]

/-- Witness for the amended C8 at a concrete usage object. -/
theorem claim8_normalize_usage_witness :
    (normalizeUsage (some { promptTokenCount := some (.fin 7), candidatesTokenCount := some (.fin 3) })).totalTokens = some 10 ∧
    (normalizeUsage (some { promptTokenCount := some (.fin 7), candidatesTokenCount := some (.fin 3) })).promptTokens = some 7 := by
  have h := claim8_normalize_usage
    { promptTokenCount := some (.fin 7), candidatesTokenCount := some (.fin 3) }
  refine ⟨?_, h.2.2.2.2.1 7 (by decide) (by decide)⟩
  have h9 := h.2.2.2.2.2.2.2.2 (by decide)
  rw [h9, h.2.2.2.2.1 7 (by decide) (by decide), h.2.2.2.2.2.2.1 3 (by decide) (by decide)]
  decide

/-! ## Claim C10: a `"questions"` match at index 0 disables recovery -/

/-- Claim C10: whenever the first match of `/"questions"\s*:\s*\[/` begins at
position 0 of the input, `tryRecoverQuizJson` returns `undefined` no matter
how many complete, parseable question objects follow, because `!m.index`
treats a zero match index as the absence of a match. -/
theorem claim10_index_zero (s : List Char) (h : findQIdx s = some 0) :
    tryRecoverQuizJson s = none := by
  rw [tryRecoverQuizJson, h]

/-- Witness for C10: the input starts directly with the quoted key and holds
one complete, parseable question object, yet recovery yields nothing — while
the same input prefixed by a single `\x7b` recovers that object. -/
theorem claim10_index_zero_witness :
    findQIdx (("\"questions\": [\x7b\"a\": 1\x7d").toList) = some 0 ∧
    tryRecoverQuizJson (("\"questions\": [\x7b\"a\": 1\x7d").toList) = none ∧
    tryRecoverQuizJson (("\x7b\"questions\": [\x7b\"a\": 1\x7d").toList) =
      some (.obj (.cons ("questions".toList)
        (.arr (.cons (.obj (.cons ("a".toList) (.num 1) .nil)) .nil)) .nil)) := by
  refine ⟨by decide, claim10_index_zero _ (by decide), by decide⟩

/-! ## Balanced-scanner lemmas -/

theorem scanGo_append (oc cc : Char) (t : List Char) :
    ∀ (s : List Char) (d : Int) (i e : Bool) (c r : List Char),
      scanGo oc cc d i e s = some (c, r) →
      scanGo oc cc d i e (s ++ t) = some (c, r ++ t) := by
  intro s
  induction s with
  | nil =>
    intro d i e c r h
    simp [scanGo] at h
  | cons x xs ih =>
    intro d i e c r h
    cases i with
    | true =>
      cases e with
      | true =>
        rw [scanGo] at h
        obtain ⟨⟨c', r'⟩, hinner, hmap⟩ := Option.map_eq_some'.mp h
        cases hmap
        rw [List.cons_append, scanGo, ih _ _ _ _ _ hinner]
        rfl
      | false =>
        rw [scanGo] at h
        rw [List.cons_append, scanGo]
        split_ifs at h ⊢ <;>
        · obtain ⟨⟨c', r'⟩, hinner, hmap⟩ := Option.map_eq_some'.mp h
          cases hmap
          rw [ih _ _ _ _ _ hinner]
          rfl
    | false =>
      rw [scanGo] at h
      rw [List.cons_append, scanGo]
      dsimp only at h ⊢
      split_ifs at h ⊢ <;>
        first
          | (rw [Option.some.injEq, Prod.mk.injEq] at h
             obtain ⟨hc, hr⟩ := h
             subst hc
             subst hr
             rfl)
          | (obtain ⟨⟨c', r'⟩, hinner, hmap⟩ := Option.map_eq_some'.mp h
             cases hmap
             rw [ih _ _ _ _ _ hinner]
             rfl)

/-- A segment is neutral for the `(oc, cc)` scan when, started outside a
string at any positive depth, the scanner walks through it without returning
and re-emerges in the same state. -/
def Neutral (oc cc : Char) (seg : List Char) : Prop :=
  ∀ (d : Int), 1 ≤ d → ∀ rest, scanGo oc cc d false false (seg ++ rest) =
    (scanGo oc cc d false false rest).map (fun p => (seg ++ p.1, p.2))

theorem neutral_nil (oc cc : Char) : Neutral oc cc [] := by
  intro d hd rest
  simp

theorem neutral_append {oc cc : Char} {a b : List Char}
    (ha : Neutral oc cc a) (hb : Neutral oc cc b) : Neutral oc cc (a ++ b) := by
  intro d hd rest
  rw [List.append_assoc, ha d hd, hb d hd, Option.map_map]
  cases scanGo oc cc d false false rest <;> simp [List.append_assoc]

theorem neutral_char {oc cc : Char} {c : Char}
    (h1 : ¬ c = oc) (h2 : ¬ c = cc) (h3 : ¬ c = '"') : Neutral oc cc [c] := by
  intro d hd rest
  rw [List.cons_append, List.nil_append, scanGo]
  rw [if_neg h3, if_neg h1, if_neg h2]
  simp only [add_zero, sub_zero]
  rw [if_neg (by omega)]
  rfl

theorem strSeg_scan {oc cc : Char} (content : List Char)
    (hok : ∀ c ∈ content, ¬ c = '"' ∧ ¬ c = '\\') :
    ∀ (d : Int) (rest : List Char),
      scanGo oc cc d true false (content ++ '"' :: rest) =
      (scanGo oc cc d false false rest).map (fun p => (content ++ '"' :: p.1, p.2)) := by
  induction content with
  | nil =>
    intro d rest
    rw [List.nil_append, scanGo]
    rw [if_neg (by decide), if_pos rfl]
    cases scanGo oc cc d false false rest <;> rfl
  | cons x xs ih =>
    intro d rest
    obtain ⟨hq, hb⟩ := hok x (by simp)
    rw [List.cons_append, scanGo, if_neg hb, if_neg hq,
        ih (fun c hc => hok c (by simp [hc])) d rest]
    cases scanGo oc cc d false false rest <;> rfl

theorem neutral_string {oc cc : Char} (content : List Char)
    (hocq : ¬ oc = '"') (hccq : ¬ cc = '"')
    (hok : ∀ c ∈ content, ¬ c = '"' ∧ ¬ c = '\\') :
    Neutral oc cc ('"' :: content ++ ['"']) := by
  intro d hd rest
  simp only [List.cons_append, List.append_assoc, List.nil_append]
  rw [scanGo, if_pos rfl, strSeg_scan content hok d rest]
  cases scanGo oc cc d false false rest <;> rfl

theorem neutral_wrap {oc cc : Char} (inner : List Char)
    (hne : ¬ oc = cc) (hocq : ¬ oc = '"') (hccq : ¬ cc = '"')
    (h : Neutral oc cc inner) : Neutral oc cc (oc :: inner ++ [cc]) := by
  intro d hd rest
  simp only [List.cons_append, List.append_assoc, List.nil_append]
  rw [scanGo, if_neg hocq, if_pos rfl, if_neg hne]
  rw [if_neg (by omega)]
  rw [h (d + 1 - 0) (by omega) (cc :: rest)]
  rw [scanGo, if_neg hccq]
  dsimp only
  rw [show ((d + 1 - 0 + if cc = oc then 1 else 0) - if cc = cc then 1 else 0) = d from by
    rw [if_neg (fun hh => hne hh.symm), if_pos rfl]; omega]
  rw [if_neg (show ¬ d = 0 by omega)]
  cases scanGo oc cc d false false rest <;> simp

theorem scanTop {oc cc : Char} (inner rest : List Char)
    (hne : ¬ oc = cc) (hocq : ¬ oc = '"') (hccq : ¬ cc = '"')
    (h : Neutral oc cc inner) :
    scanGo oc cc 0 false false ((oc :: inner ++ [cc]) ++ rest) =
      some (oc :: inner ++ [cc], rest) := by
  simp only [List.cons_append, List.append_assoc, List.nil_append]
  rw [scanGo, if_neg hocq, if_pos rfl, if_neg hne]
  rw [if_neg (by omega)]
  rw [h (0 + 1 - 0) (by omega) (cc :: rest)]
  rw [scanGo, if_neg hccq]
  dsimp only
  rw [show ((0 + 1 - 0 + if cc = oc then 1 else 0) - if cc = cc then 1 else 0 : Int) = 0 from by
    rw [if_neg (fun hh => hne hh.symm), if_pos rfl]; omega]
  rw [if_pos rfl]
  simp

/-! ## Well-behaved JSON values

The positive claims about the sanitizer quantify over JSON values whose
strings avoid the characters that interact with the sanitizer's regexes:
quotes and backslashes (escapes), backticks (code fences), control
characters (rejected by the strict parser), and a comma followed by
whitespace and a closing bracket (mangled by the trailing-comma regex). -/

/-- Every comma inside the string content is followed (within the content,
or by the closing quote that will follow it) by a non-closer. -/
def contentCommasOk : List Char → Bool
  | [] => true
  | c :: rest =>
    (if c = ',' then
      (match rest.dropWhile isRegWs with
       | [] => true
       | c2 :: _ => ! (c2 = '}' || c2 = ']'))
     else true) && contentCommasOk rest

def strContentOk (s : List Char) : Bool :=
  s.all (fun c => ! (c = '"') && ! (c = '\\') && ! (c = btick) && decide (32 ≤ c.toNat)) &&
  contentCommasOk s

mutual
def strOkV : Json → Bool
  | .null => true
  | .jbool _ => true
  | .num _ => true
  | .str s => strContentOk s
  | .arr xs => strOkL xs
  | .obj fs => strOkF fs

def strOkL : JsonList → Bool
  | .nil => true
  | .cons x t => strOkV x && strOkL t

def strOkF : JsonFields → Bool
  | .nil => true
  | .cons k v t => strContentOk k && strOkV v && strOkF t
end

/-! ### Decimal-digit facts -/

theorem natCharsFuel_irrel : ∀ (n f : Nat), n < f → natCharsFuel f n = natChars n := by
  intro n
  induction n using Nat.strong_induction_on with
  | _ n ih =>
    intro f hf
    match f, hf with
    | f' + 1, _ =>
      by_cases h10 : n < 10
      · rw [natCharsFuel, if_pos h10, natChars, natCharsFuel, if_pos h10]
      · have hdiv : n / 10 < n := Nat.div_lt_self (by omega) (by omega)
        rw [natCharsFuel, if_neg h10, natChars, natCharsFuel, if_neg h10]
        rw [ih (n / 10) hdiv f' (by omega)]
        rw [ih (n / 10) hdiv n (by omega)]

theorem natChars_lt10 (n : Nat) (h : n < 10) : natChars n = [Char.ofNat (n + 48)] := by
  rw [natChars, natCharsFuel, if_pos h]

theorem natChars_ge10 (n : Nat) (h : 10 ≤ n) :
    natChars n = natChars (n / 10) ++ [Char.ofNat (n % 10 + 48)] := by
  conv_lhs => rw [natChars, natCharsFuel]
  rw [if_neg (by omega)]
  rw [natCharsFuel_irrel (n / 10) n (Nat.div_lt_self (by omega) (by omega))]

theorem digitChar_facts (k : Nat) (h : k < 10) :
    isDigitCh (Char.ofNat (k + 48)) = true ∧
    (Char.ofNat (k + 48)).toNat - 48 = k ∧
    ¬ Char.ofNat (k + 48) = btick ∧
    ¬ Char.ofNat (k + 48) = '"' ∧
    ¬ Char.ofNat (k + 48) = '\\' ∧
    ¬ Char.ofNat (k + 48) = ',' ∧
    ¬ Char.ofNat (k + 48) = '{' ∧
    ¬ Char.ofNat (k + 48) = '}' ∧
    ¬ Char.ofNat (k + 48) = '[' ∧
    ¬ Char.ofNat (k + 48) = ']' ∧
    isRegWs (Char.ofNat (k + 48)) = false ∧
    isJsonWs (Char.ofNat (k + 48)) = false ∧
    isAlphaCh (Char.ofNat (k + 48)) = false := by
  interval_cases k <;> exact ⟨rfl, rfl, by decide, by decide, by decide, by decide, by decide,
    by decide, by decide, by decide, rfl, rfl, rfl⟩

theorem natChars_all_digits : ∀ n, ∀ c ∈ natChars n, isDigitCh c = true := by
  intro n
  induction n using Nat.strong_induction_on with
  | _ n ih =>
    by_cases h10 : n < 10
    · rw [natChars_lt10 n h10]
      intro c hc
      rw [List.mem_singleton] at hc
      subst hc
      exact (digitChar_facts n h10).1
    · rw [natChars_ge10 n (by omega)]
      intro c hc
      rw [List.mem_append] at hc
      rcases hc with hc | hc
      · exact ih (n / 10) (Nat.div_lt_self (by omega) (by omega)) c hc
      · rw [List.mem_singleton] at hc
        subst hc
        exact (digitChar_facts (n % 10) (by omega)).1

theorem natChars_ne_nil (n : Nat) : natChars n ≠ [] := by
  by_cases h10 : n < 10
  · rw [natChars_lt10 n h10]
    simp
  · rw [natChars_ge10 n (by omega)]
    simp

theorem digitsToNat_append_last (a : List Char) (c : Char) :
    digitsToNat (a ++ [c]) = digitsToNat a * 10 + (c.toNat - 48) := by
  rw [digitsToNat, digitsToNat, List.foldl_append]
  rfl

theorem digitsToNat_natChars : ∀ n, digitsToNat (natChars n) = n := by
  intro n
  induction n using Nat.strong_induction_on with
  | _ n ih =>
    by_cases h10 : n < 10
    · rw [natChars_lt10 n h10]
      have := (digitChar_facts n h10).2.1
      rw [digitsToNat]
      simp only [List.foldl_cons, List.foldl_nil]
      omega
    · rw [natChars_ge10 n (by omega), digitsToNat_append_last,
          ih (n / 10) (Nat.div_lt_self (by omega) (by omega))]
      have := (digitChar_facts (n % 10) (by omega)).2.1
      omega

theorem natChars_head_ne_zero (n : Nat) (hn : 1 ≤ n) :
    ∀ c t, natChars n = c :: t → ¬ c = '0' := by
  induction n using Nat.strong_induction_on with
  | _ n ih =>
    intro c t hct
    by_cases h10 : n < 10
    · rw [natChars_lt10 n h10] at hct
      rw [List.cons.injEq] at hct
      obtain ⟨hc, -⟩ := hct
      subst hc
      interval_cases n <;> decide
    · rw [natChars_ge10 n (by omega)] at hct
      have hdiv1 : 1 ≤ n / 10 := by
        have h10 : 10 / 10 ≤ n / 10 := Nat.div_le_div_right (by omega)
        omega
      obtain ⟨c', t', heq⟩ : ∃ c' t', natChars (n / 10) = c' :: t' := by
        cases hh : natChars (n / 10) with
        | nil => exact absurd hh (natChars_ne_nil _)
        | cons a b => exact ⟨a, b, rfl⟩
      rw [heq, List.cons_append, List.cons.injEq] at hct
      obtain ⟨hc, -⟩ := hct
      subst hc
      exact ih (n / 10) (Nat.div_lt_self (by omega) (by omega)) hdiv1 _ _ heq

/-! ### Shape facts about rendered values -/

/-- A character that can begin a rendered JSON value: printable, not
whitespace, not a backtick, and not a comma or closing bracket. -/
def goodHead (c : Char) : Bool :=
  ! isRegWs c && ! isJsonWs c && ! (c = btick) && ! (c = ',') && ! (c = '}') && ! (c = ']')

theorem strContentOk_mem {s : List Char} (h : strContentOk s = true) :
    ∀ c ∈ s, ¬ c = '"' ∧ ¬ c = '\\' ∧ ¬ c = btick ∧ 32 ≤ c.toNat := by
  intro c hc
  rw [strContentOk, Bool.and_eq_true, List.all_eq_true] at h
  have := h.1 c hc
  simp only [Bool.and_eq_true, Bool.not_eq_true', decide_eq_true_eq] at this
  exact ⟨by simpa using this.1.1.1, by simpa using this.1.1.2, by simpa using this.1.2, this.2⟩

theorem strContentOk_commas {s : List Char} (h : strContentOk s = true) :
    contentCommasOk s = true := by
  rw [strContentOk, Bool.and_eq_true] at h
  exact h.2

theorem natChars_last (n : Nat) :
    ∃ a k, natChars n = a ++ [Char.ofNat (k + 48)] ∧ k < 10 := by
  by_cases h10 : n < 10
  · exact ⟨[], n, by rw [natChars_lt10 n h10]; rfl, h10⟩
  · exact ⟨natChars (n / 10), n % 10, natChars_ge10 n (by omega), by omega⟩

theorem digit_toNat_range (c : Char) (hd : isDigitCh c = true) :
    48 ≤ c.toNat ∧ c.toNat ≤ 57 := by
  rw [isDigitCh, Bool.and_eq_true, decide_eq_true_eq, decide_eq_true_eq] at hd
  exact hd

theorem digit_goodHead (c : Char) (hd : isDigitCh c = true) : goodHead c = true := by
  have hr := digit_toNat_range c hd
  rw [goodHead, isRegWs, isJsonWs]
  simp only [Bool.and_eq_true, Bool.not_eq_true', Bool.or_eq_false_iff,
    decide_eq_false_iff_not]
  repeat' apply And.intro
  all_goals (intro hh; subst hh; exact absurd hr (by decide))

theorem render_head : ∀ v, ∃ c t, render v = c :: t ∧ goodHead c = true := by
  intro v
  cases v with
  | null => exact ⟨'n', _, rfl, by decide⟩
  | jbool b =>
    cases b
    · exact ⟨'f', _, rfl, by decide⟩
    · exact ⟨'t', _, rfl, by decide⟩
  | num n =>
    rw [render, intChars]
    split
    · exact ⟨'-', _, rfl, by decide⟩
    · obtain ⟨c, t, hct⟩ : ∃ c t, natChars n.natAbs = c :: t := by
        cases hh : natChars n.natAbs with
        | nil => exact absurd hh (natChars_ne_nil _)
        | cons a b => exact ⟨a, b, rfl⟩
      exact ⟨c, t, hct,
        digit_goodHead c (natChars_all_digits _ c (by rw [hct]; simp))⟩
  | str s => exact ⟨'"', _, rfl, by decide⟩
  | arr xs => exact ⟨'[', _, rfl, by decide⟩
  | obj fs => exact ⟨'{', _, rfl, by decide⟩

theorem renderTC_head : ∀ v, ∃ c t, renderTC v = c :: t ∧ goodHead c = true := by
  intro v
  cases v with
  | null => exact ⟨'n', _, rfl, by decide⟩
  | jbool b =>
    cases b
    · exact ⟨'f', _, rfl, by decide⟩
    · exact ⟨'t', _, rfl, by decide⟩
  | num n =>
    rw [renderTC, intChars]
    split
    · exact ⟨'-', _, rfl, by decide⟩
    · obtain ⟨c, t, hct⟩ : ∃ c t, natChars n.natAbs = c :: t := by
        cases hh : natChars n.natAbs with
        | nil => exact absurd hh (natChars_ne_nil _)
        | cons a b => exact ⟨a, b, rfl⟩
      exact ⟨c, t, hct,
        digit_goodHead c (natChars_all_digits _ c (by rw [hct]; simp))⟩
  | str s => exact ⟨'"', _, rfl, by decide⟩
  | arr xs =>
    cases xs
    · exact ⟨'[', _, rfl, by decide⟩
    · exact ⟨'[', _, rfl, by decide⟩
  | obj fs =>
    cases fs
    · exact ⟨'{', _, rfl, by decide⟩
    · exact ⟨'{', _, rfl, by decide⟩

/-- A character that can end a rendered JSON value: not whitespace and not a
backtick. -/
def goodLast (c : Char) : Bool :=
  ! isRegWs c && ! isJsonWs c && ! (c = btick)

theorem digit_goodLast (c : Char) (hd : isDigitCh c = true) : goodLast c = true := by
  have hr := digit_toNat_range c hd
  rw [goodLast, isRegWs, isJsonWs]
  simp only [Bool.and_eq_true, Bool.not_eq_true', Bool.or_eq_false_iff,
    decide_eq_false_iff_not]
  repeat' apply And.intro
  all_goals (intro hh; subst hh; exact absurd hr (by decide))

theorem render_last : ∀ v, ∃ a c, render v = a ++ [c] ∧ goodLast c = true := by
  intro v
  cases v with
  | null => exact ⟨['n', 'u', 'l'], 'l', by decide, by decide⟩
  | jbool b =>
    cases b
    · exact ⟨['f', 'a', 'l', 's'], 'e', by decide, by decide⟩
    · exact ⟨['t', 'r', 'u'], 'e', by decide, by decide⟩
  | num n =>
    rw [render, intChars]
    obtain ⟨a, k, hak, hk⟩ := natChars_last n.natAbs
    have hd : isDigitCh (Char.ofNat (k + 48)) = true := (digitChar_facts k hk).1
    split
    · exact ⟨'-' :: a, Char.ofNat (k + 48), by rw [hak]; rfl, digit_goodLast _ hd⟩
    · exact ⟨a, Char.ofNat (k + 48), hak, digit_goodLast _ hd⟩
  | str s => exact ⟨'"' :: s, '"', by simp [render], by decide⟩
  | arr xs => exact ⟨'[' :: renderList xs, ']', by simp [render], by decide⟩
  | obj fs => exact ⟨'{' :: renderFields fs, '}', by simp [render], by decide⟩

/-! ### Neutrality of rendered values -/

theorem neutral_congr {oc cc : Char} {a b : List Char} (h : a = b)
    (hn : Neutral oc cc a) : Neutral oc cc b := h ▸ hn

theorem neutral_of_chars {oc cc : Char} :
    ∀ (seg : List Char), (∀ c ∈ seg, ¬ c = oc ∧ ¬ c = cc ∧ ¬ c = '"') →
      Neutral oc cc seg := by
  intro seg
  induction seg with
  | nil => intro _; exact neutral_nil oc cc
  | cons x t ih =>
    intro h
    obtain ⟨h1, h2, h3⟩ := h x (by simp)
    exact neutral_congr rfl
      (neutral_append (neutral_char h1 h2 h3) (ih (fun c hc => h c (by simp [hc]))))

theorem natChars_neutral {oc cc : Char} (hoc : oc = '{' ∨ oc = '[')
    (hcc : cc = '}' ∨ cc = ']') (n : Nat) : Neutral oc cc (natChars n) := by
  apply neutral_of_chars
  intro c hc
  have hd := digit_toNat_range c (natChars_all_digits n c hc)
  rcases hoc with h | h <;> rcases hcc with h' | h' <;> subst h <;> subst h' <;>
    exact ⟨fun hh => absurd hd (by subst hh; decide),
           fun hh => absurd hd (by subst hh; decide),
           fun hh => absurd hd (by subst hh; decide)⟩

mutual
theorem renderV_neutral (oc cc : Char) (hp : (oc = '{' ∧ cc = '}') ∨ (oc = '[' ∧ cc = ']')) :
    ∀ v, strOkV v = true → Neutral oc cc (render v)
  | .null, _ => by
    rcases hp with ⟨h1, h2⟩ | ⟨h1, h2⟩ <;> subst h1 <;> subst h2 <;>
      exact neutral_of_chars _ (by decide)
  | .jbool b, _ => by
    cases b <;> rcases hp with ⟨h1, h2⟩ | ⟨h1, h2⟩ <;> subst h1 <;> subst h2 <;>
      exact neutral_of_chars _ (by decide)
  | .num n, _ => by
    rw [render, intChars]
    split
    · refine neutral_congr rfl (@neutral_append oc cc ['-'] _ ?_ ?_)
      · apply neutral_of_chars
        intro c hc
        rw [List.mem_singleton] at hc
        subst hc
        rcases hp with ⟨h1, h2⟩ | ⟨h1, h2⟩ <;> subst h1 <;> subst h2 <;>
          exact ⟨by decide, by decide, by decide⟩
      · exact natChars_neutral (hp.imp And.left And.left) (hp.imp And.right And.right) _
    · exact natChars_neutral (hp.imp And.left And.left) (hp.imp And.right And.right) _
  | .str s, hok => by
    rw [render]
    have hmem := strContentOk_mem (by rw [strOkV] at hok; exact hok)
    refine neutral_string s ?_ ?_ (fun c hc => ⟨(hmem c hc).1, (hmem c hc).2.1⟩)
    · rcases hp with ⟨h1, -⟩ | ⟨h1, -⟩ <;> subst h1 <;> decide
    · rcases hp with ⟨-, h2⟩ | ⟨-, h2⟩ <;> subst h2 <;> decide
  | .arr xs, hok => by
    rw [render]
    have hL : Neutral oc cc (renderList xs) :=
      renderL_neutral oc cc hp xs (by rw [strOkV] at hok; exact hok)
    rcases hp with ⟨h1, h2⟩ | ⟨h1, h2⟩
    · subst h1; subst h2
      refine neutral_congr (show ['['] ++ (renderList xs ++ [']']) = _ by simp) ?_
      exact neutral_append (neutral_of_chars _ (by decide))
        (neutral_append hL (neutral_of_chars _ (by decide)))
    · subst h1; subst h2
      exact neutral_congr (by simp) (neutral_wrap (renderList xs)
        (by decide) (by decide) (by decide) hL)
  | .obj fs, hok => by
    rw [render]
    have hF : Neutral oc cc (renderFields fs) :=
      renderF_neutral oc cc hp fs (by rw [strOkV] at hok; exact hok)
    rcases hp with ⟨h1, h2⟩ | ⟨h1, h2⟩
    · subst h1; subst h2
      exact neutral_congr (by simp) (neutral_wrap (renderFields fs)
        (by decide) (by decide) (by decide) hF)
    · subst h1; subst h2
      refine neutral_congr (show ['{'] ++ (renderFields fs ++ ['}']) = _ by simp) ?_
      exact neutral_append (neutral_of_chars _ (by decide))
        (neutral_append hF (neutral_of_chars _ (by decide)))

theorem renderL_neutral (oc cc : Char) (hp : (oc = '{' ∧ cc = '}') ∨ (oc = '[' ∧ cc = ']')) :
    ∀ xs, strOkL xs = true → Neutral oc cc (renderList xs)
  | .nil, _ => by rw [renderList]; exact neutral_nil oc cc
  | .cons x .nil, hok => by
    rw [renderList]
    exact renderV_neutral oc cc hp x (by rw [strOkL, Bool.and_eq_true, strOkL] at hok; exact hok.1)
  | .cons x (.cons y t), hok => by
    rw [renderList]
    rw [strOkL, Bool.and_eq_true] at hok
    refine neutral_congr (show render x ++ (',' :: renderList (.cons y t)) = _ by simp) ?_
    refine neutral_append (renderV_neutral oc cc hp x hok.1) ?_
    refine neutral_congr (show [','] ++ renderList (.cons y t) = _ by simp) ?_
    refine neutral_append ?_ (renderL_neutral oc cc hp _ hok.2)
    apply neutral_of_chars
    intro c hc
    rw [List.mem_singleton] at hc
    subst hc
    rcases hp with ⟨h1, h2⟩ | ⟨h1, h2⟩ <;> subst h1 <;> subst h2 <;>
      exact ⟨by decide, by decide, by decide⟩

theorem renderF_neutral (oc cc : Char) (hp : (oc = '{' ∧ cc = '}') ∨ (oc = '[' ∧ cc = ']')) :
    ∀ fs, strOkF fs = true → Neutral oc cc (renderFields fs)
  | .nil, _ => by rw [renderFields]; exact neutral_nil oc cc
  | .cons k v .nil, hok => by
    rw [renderFields]
    rw [strOkF, Bool.and_eq_true, Bool.and_eq_true] at hok
    have hmem := strContentOk_mem hok.1.1
    refine neutral_congr
      (show ('"' :: k ++ ['"']) ++ ([':'] ++ render v) = _ by simp) ?_
    refine neutral_append ?_ (neutral_append ?_ (renderV_neutral oc cc hp v hok.1.2))
    · refine neutral_string k ?_ ?_ (fun c hc => ⟨(hmem c hc).1, (hmem c hc).2.1⟩)
      · rcases hp with ⟨h1, -⟩ | ⟨h1, -⟩ <;> subst h1 <;> decide
      · rcases hp with ⟨-, h2⟩ | ⟨-, h2⟩ <;> subst h2 <;> decide
    · apply neutral_of_chars
      intro c hc
      rw [List.mem_singleton] at hc
      subst hc
      rcases hp with ⟨h1, h2⟩ | ⟨h1, h2⟩ <;> subst h1 <;> subst h2 <;>
        exact ⟨by decide, by decide, by decide⟩
  | .cons k v (.cons k2 v2 t), hok => by
    rw [renderFields]
    rw [strOkF, Bool.and_eq_true, Bool.and_eq_true] at hok
    have hmem := strContentOk_mem hok.1.1
    refine neutral_congr
      (show (('"' :: k ++ ['"']) ++ ([':'] ++ render v)) ++
            ([','] ++ renderFields (.cons k2 v2 t)) = _ by simp) ?_
    refine neutral_append (neutral_append ?_ (neutral_append ?_
      (renderV_neutral oc cc hp v hok.1.2))) (neutral_append ?_
      (renderF_neutral oc cc hp _ hok.2))
    · refine neutral_string k ?_ ?_ (fun c hc => ⟨(hmem c hc).1, (hmem c hc).2.1⟩)
      · rcases hp with ⟨h1, -⟩ | ⟨h1, -⟩ <;> subst h1 <;> decide
      · rcases hp with ⟨-, h2⟩ | ⟨-, h2⟩ <;> subst h2 <;> decide
    · apply neutral_of_chars
      intro c hc
      rw [List.mem_singleton] at hc
      subst hc
      rcases hp with ⟨h1, h2⟩ | ⟨h1, h2⟩ <;> subst h1 <;> subst h2 <;>
        exact ⟨by decide, by decide, by decide⟩
    · apply neutral_of_chars
      intro c hc
      rw [List.mem_singleton] at hc
      subst hc
      rcases hp with ⟨h1, h2⟩ | ⟨h1, h2⟩ <;> subst h1 <;> subst h2 <;>
        exact ⟨by decide, by decide, by decide⟩
end

/-! ### List-navigation helpers -/

theorem dropWhile_head_false {p : Char → Bool} :
    ∀ {l : List Char} {c : Char} {r : List Char}, l.dropWhile p = c :: r → p c = false := by
  intro l
  induction l with
  | nil => intro c r h; exact absurd h (by simp)
  | cons x t ih =>
    intro c r h
    rw [List.dropWhile_cons] at h
    split at h
    · exact ih h
    · next hx =>
      cases h
      simp only [Bool.not_eq_true] at hx
      exact hx

theorem dropWhile_append_cons {p : Char → Bool} :
    ∀ (l : List Char) {c : Char} {r : List Char}, l.dropWhile p = c :: r →
      ∀ l2, (l ++ l2).dropWhile p = c :: (r ++ l2) := by
  intro l
  induction l with
  | nil => intro c r h; exact absurd h (by simp)
  | cons x t ih =>
    intro c r h l2
    rw [List.dropWhile_cons] at h
    rw [List.cons_append, List.dropWhile_cons]
    split at h
    · next hx => rw [if_pos hx]; exact ih h l2
    · next hx => rw [if_neg hx]; cases h; rfl

theorem dropWhile_append_nil {p : Char → Bool} :
    ∀ (l : List Char), l.dropWhile p = [] →
      ∀ l2, (l ++ l2).dropWhile p = l2.dropWhile p := by
  intro l
  induction l with
  | nil => intro _ l2; rfl
  | cons x t ih =>
    intro h l2
    rw [List.dropWhile_cons] at h
    rw [List.cons_append, List.dropWhile_cons]
    split at h
    · next hx => rw [if_pos hx]; exact ih h l2
    · exact absurd h (by simp)

theorem startsWith_append : ∀ (p r : List Char), startsWith (p ++ r) p = true := by
  intro p
  induction p with
  | nil => intro r; cases r <;> rfl
  | cons x t ih =>
    intro r
    rw [List.cons_append, startsWith]
    simp [ih r]

theorem goodHead_parts {c : Char} (h : goodHead c = true) :
    isRegWs c = false ∧ isJsonWs c = false ∧ ¬ c = btick ∧ ¬ c = ',' ∧
      ¬ c = '}' ∧ ¬ c = ']' := by
  rw [goodHead] at h
  simp only [Bool.and_eq_true, Bool.not_eq_true', decide_eq_false_iff_not] at h
  obtain ⟨⟨⟨⟨⟨h1, h2⟩, h3⟩, h4⟩, h5⟩, h6⟩ := h
  exact ⟨h1, h2, h3, h4, h5, h6⟩

/-! ### Rendered values contain no backtick -/

mutual
theorem renderV_no_btick : ∀ v, strOkV v = true → ∀ c ∈ render v, ¬ c = btick
  | .null, _ => by decide
  | .jbool b, _ => by cases b <;> decide
  | .num n, _ => by
    rw [render, intChars]
    split
    · intro c hc
      rw [List.mem_cons] at hc
      rcases hc with hc | hc
      · subst hc; decide
      · have hr := digit_toNat_range c (natChars_all_digits _ c hc)
        intro hb; subst hb; exact absurd hr (by decide)
    · intro c hc
      have hr := digit_toNat_range c (natChars_all_digits _ c hc)
      intro hb; subst hb; exact absurd hr (by decide)
  | .str s, hok => by
    rw [render]
    intro c hc
    simp only [List.mem_cons, List.mem_append, List.mem_singleton, List.not_mem_nil,
      or_false, false_or, or_assoc] at hc
    rcases hc with hc | hc | hc
    · subst hc; decide
    · exact (strContentOk_mem (by rw [strOkV] at hok; exact hok) c hc).2.2.1
    · subst hc; decide
  | .arr xs, hok => by
    rw [render]
    intro c hc
    simp only [List.mem_cons, List.mem_append, List.mem_singleton, List.not_mem_nil,
      or_false, false_or, or_assoc] at hc
    rcases hc with hc | hc | hc
    · subst hc; decide
    · exact renderL_no_btick xs (by rw [strOkV] at hok; exact hok) c hc
    · subst hc; decide
  | .obj fs, hok => by
    rw [render]
    intro c hc
    simp only [List.mem_cons, List.mem_append, List.mem_singleton, List.not_mem_nil,
      or_false, false_or, or_assoc] at hc
    rcases hc with hc | hc | hc
    · subst hc; decide
    · exact renderF_no_btick fs (by rw [strOkV] at hok; exact hok) c hc
    · subst hc; decide

theorem renderL_no_btick : ∀ xs, strOkL xs = true → ∀ c ∈ renderList xs, ¬ c = btick
  | .nil, _ => by decide
  | .cons x .nil, hok => by
    rw [renderList]
    exact renderV_no_btick x (by rw [strOkL, Bool.and_eq_true] at hok; exact hok.1)
  | .cons x (.cons y t), hok => by
    rw [renderList]
    rw [strOkL, Bool.and_eq_true] at hok
    intro c hc
    simp only [List.mem_append, List.mem_cons] at hc
    rcases hc with hc | hc | hc
    · exact renderV_no_btick x hok.1 c hc
    · subst hc; decide
    · exact renderL_no_btick _ hok.2 c hc

theorem renderF_no_btick : ∀ fs, strOkF fs = true → ∀ c ∈ renderFields fs, ¬ c = btick
  | .nil, _ => by decide
  | .cons k v .nil, hok => by
    rw [renderFields]
    rw [strOkF, Bool.and_eq_true, Bool.and_eq_true] at hok
    intro c hc
    simp only [List.mem_cons, List.mem_append, List.not_mem_nil, or_false, false_or,
      or_assoc] at hc
    rcases hc with hc | hc | hc | hc | hc
    · subst hc; decide
    · exact (strContentOk_mem hok.1.1 c hc).2.2.1
    · subst hc; decide
    · subst hc; decide
    · exact renderV_no_btick v hok.1.2 c hc
  | .cons k v (.cons k2 v2 t), hok => by
    rw [renderFields]
    rw [strOkF, Bool.and_eq_true, Bool.and_eq_true] at hok
    intro c hc
    simp only [List.mem_cons, List.mem_append, List.not_mem_nil, or_false, false_or,
      or_assoc] at hc
    rcases hc with hc | hc | hc | hc | hc | hc | hc
    · subst hc; decide
    · exact (strContentOk_mem hok.1.1 c hc).2.2.1
    · subst hc; decide
    · subst hc; decide
    · exact renderV_no_btick v hok.1.2 c hc
    · subst hc; decide
    · exact renderF_no_btick _ hok.2 c hc
end

/-! ### Neutrality of trailing-comma renderings -/

mutual
theorem renderVTC_neutral (oc cc : Char)
    (hp : (oc = '{' ∧ cc = '}') ∨ (oc = '[' ∧ cc = ']')) :
    ∀ v, strOkV v = true → Neutral oc cc (renderTC v)
  | .null, _ => by
    rcases hp with ⟨h1, h2⟩ | ⟨h1, h2⟩ <;> subst h1 <;> subst h2 <;>
      exact neutral_of_chars _ (by decide)
  | .jbool b, _ => by
    cases b <;> rcases hp with ⟨h1, h2⟩ | ⟨h1, h2⟩ <;> subst h1 <;> subst h2 <;>
      exact neutral_of_chars _ (by decide)
  | .num n, _ => by
    rw [renderTC, intChars]
    split
    · refine neutral_congr rfl (@neutral_append oc cc ['-'] _ ?_ ?_)
      · apply neutral_of_chars
        intro c hc
        rw [List.mem_singleton] at hc
        subst hc
        rcases hp with ⟨h1, h2⟩ | ⟨h1, h2⟩ <;> subst h1 <;> subst h2 <;>
          exact ⟨by decide, by decide, by decide⟩
      · exact natChars_neutral (hp.imp And.left And.left) (hp.imp And.right And.right) _
    · exact natChars_neutral (hp.imp And.left And.left) (hp.imp And.right And.right) _
  | .str s, hok => by
    rw [renderTC]
    have hmem := strContentOk_mem (by rw [strOkV] at hok; exact hok)
    refine neutral_string s ?_ ?_ (fun c hc => ⟨(hmem c hc).1, (hmem c hc).2.1⟩)
    · rcases hp with ⟨h1, -⟩ | ⟨h1, -⟩ <;> subst h1 <;> decide
    · rcases hp with ⟨-, h2⟩ | ⟨-, h2⟩ <;> subst h2 <;> decide
  | .arr .nil, _ => by
    rcases hp with ⟨h1, h2⟩ | ⟨h1, h2⟩
    · subst h1; subst h2
      exact neutral_of_chars _ (by decide)
    · subst h1; subst h2
      exact neutral_congr (show '[' :: [] ++ [']'] = renderTC (.arr .nil) by decide)
        (neutral_wrap [] (by decide) (by decide) (by decide) (neutral_nil _ _))
  | .arr (.cons x t), hok => by
    rw [renderTC]
    have hL : Neutral oc cc (renderListTC (.cons x t) ++ [',']) := by
      refine neutral_append
        (renderLTC_neutral oc cc hp _ (by rw [strOkV] at hok; exact hok)) ?_
      apply neutral_of_chars
      intro c hc
      rw [List.mem_singleton] at hc
      subst hc
      rcases hp with ⟨h1, h2⟩ | ⟨h1, h2⟩ <;> subst h1 <;> subst h2 <;>
        exact ⟨by decide, by decide, by decide⟩
    rcases hp with ⟨h1, h2⟩ | ⟨h1, h2⟩
    · subst h1; subst h2
      refine neutral_congr
        (show ['['] ++ ((renderListTC (.cons x t) ++ [',']) ++ [']']) = _ by simp) ?_
      exact neutral_append (neutral_of_chars _ (by decide))
        (neutral_append hL (neutral_of_chars _ (by decide)))
    · subst h1; subst h2
      exact neutral_congr (by simp)
        (neutral_wrap (renderListTC (.cons x t) ++ [','])
          (by decide) (by decide) (by decide) hL)
  | .obj .nil, _ => by
    rcases hp with ⟨h1, h2⟩ | ⟨h1, h2⟩
    · subst h1; subst h2
      exact neutral_congr (show '{' :: [] ++ ['}'] = renderTC (.obj .nil) by decide)
        (neutral_wrap [] (by decide) (by decide) (by decide) (neutral_nil _ _))
    · subst h1; subst h2
      exact neutral_of_chars _ (by decide)
  | .obj (.cons k v t), hok => by
    rw [renderTC]
    have hF : Neutral oc cc (renderFieldsTC (.cons k v t) ++ [',']) := by
      refine neutral_append
        (renderFTC_neutral oc cc hp _ (by rw [strOkV] at hok; exact hok)) ?_
      apply neutral_of_chars
      intro c hc
      rw [List.mem_singleton] at hc
      subst hc
      rcases hp with ⟨h1, h2⟩ | ⟨h1, h2⟩ <;> subst h1 <;> subst h2 <;>
        exact ⟨by decide, by decide, by decide⟩
    rcases hp with ⟨h1, h2⟩ | ⟨h1, h2⟩
    · subst h1; subst h2
      exact neutral_congr (by simp)
        (neutral_wrap (renderFieldsTC (.cons k v t) ++ [','])
          (by decide) (by decide) (by decide) hF)
    · subst h1; subst h2
      refine neutral_congr
        (show ['{'] ++ ((renderFieldsTC (.cons k v t) ++ [',']) ++ ['}']) = _ by simp) ?_
      exact neutral_append (neutral_of_chars _ (by decide))
        (neutral_append hF (neutral_of_chars _ (by decide)))

theorem renderLTC_neutral (oc cc : Char)
    (hp : (oc = '{' ∧ cc = '}') ∨ (oc = '[' ∧ cc = ']')) :
    ∀ xs, strOkL xs = true → Neutral oc cc (renderListTC xs)
  | .nil, _ => by rw [renderListTC]; exact neutral_nil oc cc
  | .cons x .nil, hok => by
    rw [renderListTC]
    exact renderVTC_neutral oc cc hp x
      (by rw [strOkL, Bool.and_eq_true] at hok; exact hok.1)
  | .cons x (.cons y t), hok => by
    rw [renderListTC]
    rw [strOkL, Bool.and_eq_true] at hok
    refine neutral_congr
      (show renderTC x ++ (',' :: renderListTC (.cons y t)) = _ by simp) ?_
    refine neutral_append (renderVTC_neutral oc cc hp x hok.1) ?_
    refine neutral_congr (show [','] ++ renderListTC (.cons y t) = _ by simp) ?_
    refine neutral_append ?_ (renderLTC_neutral oc cc hp _ hok.2)
    apply neutral_of_chars
    intro c hc
    rw [List.mem_singleton] at hc
    subst hc
    rcases hp with ⟨h1, h2⟩ | ⟨h1, h2⟩ <;> subst h1 <;> subst h2 <;>
      exact ⟨by decide, by decide, by decide⟩

theorem renderFTC_neutral (oc cc : Char)
    (hp : (oc = '{' ∧ cc = '}') ∨ (oc = '[' ∧ cc = ']')) :
    ∀ fs, strOkF fs = true → Neutral oc cc (renderFieldsTC fs)
  | .nil, _ => by rw [renderFieldsTC]; exact neutral_nil oc cc
  | .cons k v .nil, hok => by
    rw [renderFieldsTC]
    rw [strOkF, Bool.and_eq_true, Bool.and_eq_true] at hok
    have hmem := strContentOk_mem hok.1.1
    refine neutral_congr
      (show ('"' :: k ++ ['"']) ++ ([':'] ++ renderTC v) = _ by simp) ?_
    refine neutral_append ?_ (neutral_append ?_ (renderVTC_neutral oc cc hp v hok.1.2))
    · refine neutral_string k ?_ ?_ (fun c hc => ⟨(hmem c hc).1, (hmem c hc).2.1⟩)
      · rcases hp with ⟨h1, -⟩ | ⟨h1, -⟩ <;> subst h1 <;> decide
      · rcases hp with ⟨-, h2⟩ | ⟨-, h2⟩ <;> subst h2 <;> decide
    · apply neutral_of_chars
      intro c hc
      rw [List.mem_singleton] at hc
      subst hc
      rcases hp with ⟨h1, h2⟩ | ⟨h1, h2⟩ <;> subst h1 <;> subst h2 <;>
        exact ⟨by decide, by decide, by decide⟩
  | .cons k v (.cons k2 v2 t), hok => by
    rw [renderFieldsTC]
    rw [strOkF, Bool.and_eq_true, Bool.and_eq_true] at hok
    have hmem := strContentOk_mem hok.1.1
    refine neutral_congr
      (show (('"' :: k ++ ['"']) ++ ([':'] ++ renderTC v)) ++
            ([','] ++ renderFieldsTC (.cons k2 v2 t)) = _ by simp) ?_
    refine neutral_append (neutral_append ?_ (neutral_append ?_
      (renderVTC_neutral oc cc hp v hok.1.2))) (neutral_append ?_
      (renderFTC_neutral oc cc hp _ hok.2))
    · refine neutral_string k ?_ ?_ (fun c hc => ⟨(hmem c hc).1, (hmem c hc).2.1⟩)
      · rcases hp with ⟨h1, -⟩ | ⟨h1, -⟩ <;> subst h1 <;> decide
      · rcases hp with ⟨-, h2⟩ | ⟨-, h2⟩ <;> subst h2 <;> decide
    · apply neutral_of_chars
      intro c hc
      rw [List.mem_singleton] at hc
      subst hc
      rcases hp with ⟨h1, h2⟩ | ⟨h1, h2⟩ <;> subst h1 <;> subst h2 <;>
        exact ⟨by decide, by decide, by decide⟩
    · apply neutral_of_chars
      intro c hc
      rw [List.mem_singleton] at hc
      subst hc
      rcases hp with ⟨h1, h2⟩ | ⟨h1, h2⟩ <;> subst h1 <;> subst h2 <;>
        exact ⟨by decide, by decide, by decide⟩
end

/-! ### Trailing-comma removal on safe segments -/

theorem wsCloserFlag_false : ∀ {s : List Char} {c : Char} {r : List Char},
    s.dropWhile isRegWs = c :: r → ¬ c = '}' → ¬ c = ']' → wsCloserFlag s = false := by
  intro s
  induction s with
  | nil => intro c r hd _ _; exact absurd hd (by simp)
  | cons x t ih =>
    intro c r hd h1 h2
    rw [List.dropWhile_cons] at hd
    rw [wsCloserFlag]
    split at hd
    · next hx =>
      have hx1 : ¬ x = '}' := fun h => by subst h; exact absurd hx (by decide)
      have hx2 : ¬ x = ']' := fun h => by subst h; exact absurd hx (by decide)
      simp [hx, hx1, hx2, ih hd h1 h2]
    · next hx =>
      cases hd
      simp only [Bool.not_eq_true] at hx
      simp [h1, h2, hx]

theorem rtc_cons_nc {c : Char} (h : ¬ c = ',') (s : List Char) :
    rtc (c :: s) = c :: rtc s := by
  rw [rtc, if_neg (fun hh => h hh.1)]

theorem rtc_cons_comma_nf {s : List Char} (h : wsCloserFlag s = false) :
    rtc (',' :: s) = ',' :: rtc s := by
  rw [rtc, if_neg (fun hh => by rw [h] at hh; exact Bool.noConfusion hh.2)]

/-- A segment the trailing-comma regex passes over unchanged, whatever
follows it. -/
def CommaSafe (seg : List Char) : Prop :=
  ∀ q, rtc (seg ++ q) = seg ++ rtc q

theorem commaSafe_nil : CommaSafe [] := by
  intro q; simp

theorem commaSafe_append {a b : List Char} (ha : CommaSafe a) (hb : CommaSafe b) :
    CommaSafe (a ++ b) := by
  intro q
  rw [List.append_assoc, ha, hb, List.append_assoc]

theorem commaSafe_of_chars :
    ∀ (seg : List Char), (∀ c ∈ seg, ¬ c = ',') → CommaSafe seg := by
  intro seg
  induction seg with
  | nil => intro _; exact commaSafe_nil
  | cons x t ih =>
    intro h q
    rw [List.cons_append, rtc_cons_nc (h x (by simp)),
      ih (fun c hc => h c (by simp [hc])) q, List.cons_append]

theorem commaSafe_comma_guarded {t : List Char}
    (hguard : ∀ q, wsCloserFlag (t ++ q) = false) (ht : CommaSafe t) :
    CommaSafe (',' :: t) := by
  intro q
  rw [List.cons_append, rtc_cons_comma_nf (hguard q), ht q, List.cons_append]

theorem rtc_content : ∀ (s : List Char), contentCommasOk s = true →
    ∀ q, rtc (s ++ '"' :: q) = s ++ '"' :: rtc q := by
  intro s
  induction s with
  | nil =>
    intro _ q
    rw [List.nil_append, rtc_cons_nc (by decide), List.nil_append]
  | cons x t ih =>
    intro h q
    rw [contentCommasOk, Bool.and_eq_true] at h
    obtain ⟨hcur, hrest⟩ := h
    by_cases hx : x = ','
    · subst hx
      rw [if_pos rfl] at hcur
      have hflag : wsCloserFlag (t ++ '"' :: q) = false := by
        cases hdt : t.dropWhile isRegWs with
        | nil =>
          refine @wsCloserFlag_false _ '"' q ?_ (by decide) (by decide)
          rw [dropWhile_append_nil t hdt, List.dropWhile_cons, if_neg (by decide)]
        | cons c2 r2 =>
          rw [hdt] at hcur
          simp only [Bool.not_eq_true', Bool.or_eq_false_iff,
            decide_eq_false_iff_not] at hcur
          exact wsCloserFlag_false (dropWhile_append_cons t hdt ('"' :: q))
            hcur.1 hcur.2
      rw [List.cons_append, rtc_cons_comma_nf hflag, ih hrest q, List.cons_append]
    · rw [List.cons_append, rtc_cons_nc hx, ih hrest q, List.cons_append]

theorem commaSafe_string {s : List Char} (hok : strContentOk s = true) :
    CommaSafe ('"' :: s ++ ['"']) := by
  intro q
  have e : ('"' :: s ++ ['"']) ++ q = '"' :: (s ++ '"' :: q) := by simp
  rw [e, rtc_cons_nc (by decide), rtc_content s (strContentOk_commas hok) q]
  simp

theorem renderList_head : ∀ (x : Json) (t : JsonList),
    ∃ c r, renderList (.cons x t) = c :: r ∧ goodHead c = true := by
  intro x t
  obtain ⟨c, t', hct, hg⟩ := render_head x
  cases t with
  | nil => exact ⟨c, t', by rw [renderList]; exact hct, hg⟩
  | cons y t2 =>
    exact ⟨c, t' ++ ',' :: renderList (.cons y t2), by rw [renderList, hct]; rfl, hg⟩

theorem renderFields_head : ∀ (k : List Char) (v : Json) (t : JsonFields),
    ∃ r, renderFields (.cons k v t) = '"' :: r := by
  intro k v t
  cases t with
  | nil => exact ⟨k ++ '"' :: ':' :: render v, by rw [renderFields]; simp⟩
  | cons k2 v2 t2 =>
    exact ⟨(k ++ '"' :: ':' :: render v) ++ ',' :: renderFields (.cons k2 v2 t2),
      by rw [renderFields]; simp⟩

theorem renderListTC_head : ∀ (x : Json) (t : JsonList),
    ∃ c r, renderListTC (.cons x t) = c :: r ∧ goodHead c = true := by
  intro x t
  obtain ⟨c, t', hct, hg⟩ := renderTC_head x
  cases t with
  | nil => exact ⟨c, t', by rw [renderListTC]; exact hct, hg⟩
  | cons y t2 =>
    exact ⟨c, t' ++ ',' :: renderListTC (.cons y t2), by rw [renderListTC, hct]; rfl, hg⟩

theorem renderFieldsTC_head : ∀ (k : List Char) (v : Json) (t : JsonFields),
    ∃ r, renderFieldsTC (.cons k v t) = '"' :: r := by
  intro k v t
  cases t with
  | nil => exact ⟨k ++ '"' :: ':' :: renderTC v, by rw [renderFieldsTC]; simp⟩
  | cons k2 v2 t2 =>
    exact ⟨(k ++ '"' :: ':' :: renderTC v) ++ ',' :: renderFieldsTC (.cons k2 v2 t2),
      by rw [renderFieldsTC]; simp⟩

mutual
theorem commaSafe_renderV : ∀ v, strOkV v = true → CommaSafe (render v)
  | .null, _ => commaSafe_of_chars _ (by decide)
  | .jbool b, _ => by cases b <;> exact commaSafe_of_chars _ (by decide)
  | .num n, _ => by
    apply commaSafe_of_chars
    intro c hc
    rw [render, intChars] at hc
    split at hc
    · rw [List.mem_cons] at hc
      rcases hc with hc | hc
      · subst hc; decide
      · have hr := digit_toNat_range c (natChars_all_digits _ c hc)
        intro hb; subst hb; exact absurd hr (by decide)
    · have hr := digit_toNat_range c (natChars_all_digits _ c hc)
      intro hb; subst hb; exact absurd hr (by decide)
  | .str s, hok => by
    rw [render]
    exact commaSafe_string (by rw [strOkV] at hok; exact hok)
  | .arr xs, hok => by
    rw [render, show '[' :: renderList xs ++ [']'] = ['['] ++ (renderList xs ++ [']'])
      from by simp]
    exact commaSafe_append (commaSafe_of_chars _ (by decide))
      (commaSafe_append (commaSafe_renderL xs (by rw [strOkV] at hok; exact hok))
        (commaSafe_of_chars _ (by decide)))
  | .obj fs, hok => by
    rw [render, show '{' :: renderFields fs ++ ['}'] = ['{'] ++ (renderFields fs ++ ['}'])
      from by simp]
    exact commaSafe_append (commaSafe_of_chars _ (by decide))
      (commaSafe_append (commaSafe_renderF fs (by rw [strOkV] at hok; exact hok))
        (commaSafe_of_chars _ (by decide)))

theorem commaSafe_renderL : ∀ xs, strOkL xs = true → CommaSafe (renderList xs)
  | .nil, _ => by rw [renderList]; exact commaSafe_nil
  | .cons x .nil, hok => by
    rw [renderList]
    exact commaSafe_renderV x (by rw [strOkL, Bool.and_eq_true] at hok; exact hok.1)
  | .cons x (.cons y t), hok => by
    rw [strOkL, Bool.and_eq_true] at hok
    rw [renderList, show render x ++ ',' :: renderList (.cons y t) =
      render x ++ (',' :: renderList (.cons y t)) from rfl]
    refine commaSafe_append (commaSafe_renderV x hok.1) ?_
    refine commaSafe_comma_guarded ?_ (commaSafe_renderL _ hok.2)
    intro q
    obtain ⟨c, r, heq, hg⟩ := renderList_head y t
    have hparts := goodHead_parts hg
    refine @wsCloserFlag_false _ c (r ++ q) ?_
      hparts.2.2.2.2.1 hparts.2.2.2.2.2
    rw [heq, List.cons_append, List.dropWhile_cons, if_neg (by simp [hparts.1])]

theorem commaSafe_renderF : ∀ fs, strOkF fs = true → CommaSafe (renderFields fs)
  | .nil, _ => by rw [renderFields]; exact commaSafe_nil
  | .cons k v .nil, hok => by
    rw [strOkF, Bool.and_eq_true, Bool.and_eq_true] at hok
    rw [renderFields, show '"' :: k ++ '"' :: ':' :: render v =
      ('"' :: k ++ ['"']) ++ ([':'] ++ render v) from by simp]
    exact commaSafe_append (commaSafe_string hok.1.1)
      (commaSafe_append (commaSafe_of_chars _ (by decide))
        (commaSafe_renderV v hok.1.2))
  | .cons k v (.cons k2 v2 t), hok => by
    rw [strOkF, Bool.and_eq_true, Bool.and_eq_true] at hok
    rw [renderFields, show ('"' :: k ++ '"' :: ':' :: render v) ++
      ',' :: renderFields (.cons k2 v2 t) =
      (('"' :: k ++ ['"']) ++ ([':'] ++ render v)) ++
      (',' :: renderFields (.cons k2 v2 t)) from by simp]
    refine commaSafe_append (commaSafe_append (commaSafe_string hok.1.1)
      (commaSafe_append (commaSafe_of_chars _ (by decide))
        (commaSafe_renderV v hok.1.2))) ?_
    refine commaSafe_comma_guarded ?_ (commaSafe_renderF _ hok.2)
    intro q
    obtain ⟨r, heq⟩ := renderFields_head k2 v2 t
    refine @wsCloserFlag_false _ '"' (r ++ q) ?_ (by decide) (by decide)
    rw [heq, List.cons_append, List.dropWhile_cons, if_neg (by decide)]
end

theorem rtc_render {v : Json} (hok : strOkV v = true) : rtc (render v) = render v := by
  have h := commaSafe_renderV v hok []
  simpa [show rtc [] = [] from rfl] using h

/-! ### Trailing-comma removal repairs the trailing-comma rendering -/

mutual
theorem rtcTC_V : ∀ v, strOkV v = true →
    ∀ q, rtc (renderTC v ++ q) = render v ++ rtc q
  | .null, hok, q => by
    rw [show renderTC Json.null = render Json.null from rfl]
    exact commaSafe_renderV _ hok q
  | .jbool b, hok, q => by
    cases b
    · rw [show renderTC (Json.jbool false) = render (Json.jbool false) from rfl]
      exact commaSafe_renderV _ hok q
    · rw [show renderTC (Json.jbool true) = render (Json.jbool true) from rfl]
      exact commaSafe_renderV _ hok q
  | .num n, hok, q => by
    rw [show renderTC (Json.num n) = render (Json.num n) from rfl]
    exact commaSafe_renderV _ hok q
  | .str s, hok, q => by
    rw [show renderTC (Json.str s) = render (Json.str s) from rfl]
    exact commaSafe_renderV _ hok q
  | .arr .nil, hok, q => by
    rw [show renderTC (Json.arr .nil) = render (Json.arr .nil) from by decide]
    exact commaSafe_renderV _ hok q
  | .arr (.cons x t), hok, q => by
    rw [renderTC]
    have hokL : strOkL (.cons x t) = true := by rw [strOkV] at hok; exact hok
    have e : ('[' :: renderListTC (.cons x t) ++ ',' :: [']']) ++ q =
        '[' :: (renderListTC (.cons x t) ++ (',' :: ']' :: q)) := by simp
    rw [e, rtc_cons_nc (by decide), rtcTC_L _ hokL (',' :: ']' :: q)]
    have hflag : wsCloserFlag (']' :: q) = true := by rw [wsCloserFlag]; simp
    rw [rtc, if_pos ⟨rfl, hflag⟩, rtc_cons_nc (by decide),
      List.dropWhile_cons, if_neg (by decide), render]
    simp
  | .obj .nil, hok, q => by
    rw [show renderTC (Json.obj .nil) = render (Json.obj .nil) from by decide]
    exact commaSafe_renderV _ hok q
  | .obj (.cons k v t), hok, q => by
    rw [renderTC]
    have hokF : strOkF (.cons k v t) = true := by rw [strOkV] at hok; exact hok
    have e : ('{' :: renderFieldsTC (.cons k v t) ++ ',' :: ['}']) ++ q =
        '{' :: (renderFieldsTC (.cons k v t) ++ (',' :: '}' :: q)) := by simp
    rw [e, rtc_cons_nc (by decide), rtcTC_F _ hokF (',' :: '}' :: q)]
    have hflag : wsCloserFlag ('}' :: q) = true := by rw [wsCloserFlag]; simp
    rw [rtc, if_pos ⟨rfl, hflag⟩, rtc_cons_nc (by decide),
      List.dropWhile_cons, if_neg (by decide), render]
    simp

theorem rtcTC_L : ∀ xs, strOkL xs = true →
    ∀ q, rtc (renderListTC xs ++ q) = renderList xs ++ rtc q
  | .nil, _, q => by rw [renderListTC, renderList]; simp
  | .cons x .nil, hok, q => by
    rw [renderListTC, renderList]
    exact rtcTC_V x (by rw [strOkL, Bool.and_eq_true] at hok; exact hok.1) q
  | .cons x (.cons y t), hok, q => by
    rw [strOkL, Bool.and_eq_true] at hok
    rw [renderListTC, renderList]
    have e : (renderTC x ++ ',' :: renderListTC (.cons y t)) ++ q =
        renderTC x ++ (',' :: (renderListTC (.cons y t) ++ q)) := by simp
    rw [e, rtcTC_V x hok.1]
    obtain ⟨c, r, heq, hg⟩ := renderListTC_head y t
    have hparts := goodHead_parts hg
    have hflag : wsCloserFlag (renderListTC (.cons y t) ++ q) = false := by
      refine @wsCloserFlag_false _ c (r ++ q) ?_
        hparts.2.2.2.2.1 hparts.2.2.2.2.2
      rw [heq, List.cons_append, List.dropWhile_cons, if_neg (by simp [hparts.1])]
    rw [rtc_cons_comma_nf hflag, rtcTC_L _ hok.2 q]
    simp

theorem rtcTC_F : ∀ fs, strOkF fs = true →
    ∀ q, rtc (renderFieldsTC fs ++ q) = renderFields fs ++ rtc q
  | .nil, _, q => by rw [renderFieldsTC, renderFields]; simp
  | .cons k v .nil, hok, q => by
    rw [strOkF, Bool.and_eq_true, Bool.and_eq_true] at hok
    rw [renderFieldsTC, renderFields]
    have e : ('"' :: k ++ '"' :: ':' :: renderTC v) ++ q =
        ('"' :: k ++ ['"']) ++ (':' :: (renderTC v ++ q)) := by simp
    rw [e, commaSafe_string hok.1.1 (':' :: (renderTC v ++ q)),
      rtc_cons_nc (by decide), rtcTC_V v hok.1.2 q]
    simp
  | .cons k v (.cons k2 v2 t), hok, q => by
    rw [strOkF, Bool.and_eq_true, Bool.and_eq_true] at hok
    rw [renderFieldsTC, renderFields]
    have e : (('"' :: k ++ '"' :: ':' :: renderTC v) ++
        ',' :: renderFieldsTC (.cons k2 v2 t)) ++ q =
        ('"' :: k ++ ['"']) ++
          (':' :: (renderTC v ++ (',' :: (renderFieldsTC (.cons k2 v2 t) ++ q)))) := by
      simp
    rw [e, commaSafe_string hok.1.1, rtc_cons_nc (by decide), rtcTC_V v hok.1.2]
    obtain ⟨r, heq⟩ := renderFieldsTC_head k2 v2 t
    have hflag : wsCloserFlag (renderFieldsTC (.cons k2 v2 t) ++ q) = false := by
      refine @wsCloserFlag_false _ '"' (r ++ q) ?_ (by decide) (by decide)
      rw [heq, List.cons_append, List.dropWhile_cons, if_neg (by decide)]
    rw [rtc_cons_comma_nf hflag, rtcTC_F _ hok.2 q]
    simp
end

theorem rtc_renderTC {v : Json} (hok : strOkV v = true) :
    rtc (renderTC v) = render v := by
  have h := rtcTC_V v hok []
  simpa [show rtc [] = [] from rfl] using h

/-! ### Trimming around an embedded value -/

theorem dropWhile_append_general {p : Char → Bool} (a b : List Char) (c : Char)
    (r : List Char) (hb : b = c :: r) (hc : p c = false) :
    (a ++ b).dropWhile p = a.dropWhile p ++ b := by
  cases hda : a.dropWhile p with
  | nil =>
    rw [dropWhile_append_nil a hda b, hb, List.dropWhile_cons, if_neg (by simp [hc])]
    simp
  | cons x xs =>
    rw [dropWhile_append_cons a hda b]
    rfl

theorem goodLast_parts {c : Char} (h : goodLast c = true) :
    isRegWs c = false ∧ isJsonWs c = false ∧ ¬ c = btick := by
  rw [goodLast] at h
  simp only [Bool.and_eq_true, Bool.not_eq_true', decide_eq_false_iff_not] at h
  obtain ⟨⟨h1, h2⟩, h3⟩ := h
  exact ⟨h1, h2, h3⟩

theorem startsWith_head_ne {c p : Char} (h : ¬ c = p) (s ps : List Char) :
    startsWith (c :: s) (p :: ps) = false := by
  rw [startsWith]
  simp [h]

theorem jsTrim_around {m : List Char} (p1 p2 : List Char) (c : Char) (mt ma : List Char)
    (d : Char) (hm1 : m = c :: mt) (hc : isRegWs c = false)
    (hm2 : m = ma ++ [d]) (hd : isRegWs d = false) :
    jsTrim (p1 ++ m ++ p2) =
      p1.dropWhile isRegWs ++ m ++ (p2.reverse.dropWhile isRegWs).reverse := by
  rw [jsTrim, List.append_assoc]
  rw [dropWhile_append_general p1 (m ++ p2) c (mt ++ p2) (by rw [hm1]; rfl) hc]
  rw [show (p1.dropWhile isRegWs ++ (m ++ p2)).reverse =
      p2.reverse ++ (m.reverse ++ (p1.dropWhile isRegWs).reverse) from by simp]
  rw [dropWhile_append_general p2.reverse (m.reverse ++ (p1.dropWhile isRegWs).reverse)
      d (ma.reverse ++ (p1.dropWhile isRegWs).reverse) (by rw [hm2]; simp) hd]
  simp

theorem jsTrim_self {m : List Char} (c : Char) (mt ma : List Char) (d : Char)
    (hm1 : m = c :: mt) (hc : isRegWs c = false)
    (hm2 : m = ma ++ [d]) (hd : isRegWs d = false) : jsTrim m = m := by
  have h := @jsTrim_around m [] [] c mt ma d hm1 hc hm2 hd
  simpa using h

/-- Is the value an object or an array (the shapes the balanced-extraction
step locates)? -/
def isContainer : Json → Bool
  | .arr _ => true
  | .obj _ => true
  | _ => false

theorem extract_render {v : Json} (hok : strOkV v = true)
    (hcont : isContainer v = true) (p1 p2 : List Char)
    (hp1 : ∀ c ∈ p1, ¬ c = '{' ∧ ¬ c = '[') :
    extractFirstBalancedJson (p1 ++ (render v ++ p2)) = some (render v) := by
  have hdrop1 : p1.dropWhile (fun c => ¬(c = '{' ∨ c = '[')) = [] := by
    rw [List.dropWhile_eq_nil_iff]
    intro a ha
    simp only [decide_eq_true_eq]
    intro hb
    exact absurd hb (not_or.mpr ⟨(hp1 a ha).1, (hp1 a ha).2⟩)
  cases v with
  | obj fs =>
    have hN : Neutral '{' '}' (renderFields fs) :=
      renderF_neutral '{' '}' (Or.inl ⟨rfl, rfl⟩) fs (by rw [strOkV] at hok; exact hok)
    have hscan := @scanTop '{' '}' (renderFields fs) p2
      (by decide) (by decide) (by decide) hN
    rw [render, extractFirstBalancedJson]
    rw [dropWhile_append_nil p1 hdrop1]
    rw [show ('{' :: renderFields fs ++ ['}']) ++ p2 =
        '{' :: (renderFields fs ++ ['}'] ++ p2) from by simp]
    rw [List.dropWhile_cons, if_neg (by simp)]
    dsimp only
    rw [if_pos rfl]
    rw [show '{' :: (renderFields fs ++ ['}'] ++ p2) =
        ('{' :: renderFields fs ++ ['}']) ++ p2 from by simp]
    rw [hscan]
    rfl
  | arr xs =>
    have hN : Neutral '[' ']' (renderList xs) :=
      renderL_neutral '[' ']' (Or.inr ⟨rfl, rfl⟩) xs (by rw [strOkV] at hok; exact hok)
    have hscan := @scanTop '[' ']' (renderList xs) p2
      (by decide) (by decide) (by decide) hN
    rw [render, extractFirstBalancedJson]
    rw [dropWhile_append_nil p1 hdrop1]
    rw [show ('[' :: renderList xs ++ [']']) ++ p2 =
        '[' :: (renderList xs ++ [']'] ++ p2) from by simp]
    rw [List.dropWhile_cons, if_neg (by simp)]
    dsimp only
    rw [if_neg (by decide)]
    rw [show '[' :: (renderList xs ++ [']'] ++ p2) =
        ('[' :: renderList xs ++ [']']) ++ p2 from by simp]
    rw [hscan]
    rfl
  | null => exact Bool.noConfusion hcont
  | jbool b => cases b <;> exact Bool.noConfusion hcont
  | num n => exact Bool.noConfusion hcont
  | str s => exact Bool.noConfusion hcont

theorem sanitize_of_trim {raw s : List Char} {v : Json} (htrim : jsTrim raw = s)
    (hc : ∃ c tl, s = c :: tl ∧ isRegWs c = false ∧ ¬ c = btick)
    (hex : extractFirstBalancedJson s = some (render v))
    (hrtc : rtc (render v) = render v) :
    sanitizeJsonString raw = render v := by
  obtain ⟨c, tl, hs, hcw, hcb⟩ := hc
  rw [sanitizeJsonString]
  dsimp only
  rw [htrim, hs]
  rw [if_neg (by simp)]
  have hbom : ¬ (c :: tl).head? = some '﻿' := by
    simp only [List.head?_cons, Option.some.injEq]
    intro he
    subst he
    exact absurd hcw (by decide)
  rw [if_neg hbom]
  have hfence : startsWith (c :: tl) [btick, btick, btick] = false :=
    startsWith_head_ne hcb tl [btick, btick]
  rw [hfence, if_neg (by simp)]
  rw [← hs, hex]
  exact hrtc

theorem sanitize_embedded {v : Json} (hok : strOkV v = true)
    (hcont : isContainer v = true) (p1 p2 : List Char)
    (hp1 : ∀ c ∈ p1, ¬ c = '{' ∧ ¬ c = '[' ∧ ¬ c = btick) :
    sanitizeJsonString (p1 ++ render v ++ p2) = render v := by
  obtain ⟨ch, ctl, hch, hgh⟩ := render_head v
  obtain ⟨ma, d, hma, hgl⟩ := render_last v
  have hghp := goodHead_parts hgh
  have hglp := goodLast_parts hgl
  have htrim := jsTrim_around p1 p2 ch ctl ma d hch hghp.1 hma hglp.1
  have hp1m : ∀ c ∈ p1.dropWhile isRegWs, ¬ c = '{' ∧ ¬ c = '[' ∧ ¬ c = btick :=
    fun c hcmem => hp1 c ((List.dropWhile_sublist _).subset hcmem)
  refine sanitize_of_trim htrim ?_ ?_ (rtc_render hok)
  · cases hpt : p1.dropWhile isRegWs with
    | nil =>
      exact ⟨ch, ctl ++ (p2.reverse.dropWhile isRegWs).reverse,
        by rw [hch]; simp, hghp.1, hghp.2.2.1⟩
    | cons a r =>
      exact ⟨a, r ++ (render v ++ (p2.reverse.dropWhile isRegWs).reverse),
        by simp, dropWhile_head_false hpt,
        (hp1m a (by rw [hpt]; simp)).2.2⟩
  · have hx := extract_render hok hcont (p1.dropWhile isRegWs)
      ((p2.reverse.dropWhile isRegWs).reverse)
      (fun c hcm => ⟨(hp1m c hcm).1, (hp1m c hcm).2.1⟩)
    rw [← List.append_assoc] at hx
    exact hx

theorem stripFenceTail_append :
    ∀ (seg : List Char), (∀ c ∈ seg, ¬ c = btick) →
      ∀ t, stripFenceTail (seg ++ t) = seg ++ stripFenceTail t := by
  intro seg
  induction seg with
  | nil => intro _ t; simp
  | cons x s ih =>
    intro h t
    rw [List.cons_append, stripFenceTail, if_neg (fun hh => h x (by simp) hh.1),
      ih (fun c hc => h c (by simp [hc])) t, List.cons_append]

theorem sanitize_fenced {v : Json} (hok : strOkV v = true)
    (hcont : isContainer v = true) :
    sanitizeJsonString ([btick, btick, btick, 'j', 's', 'o', 'n', '\n'] ++ render v ++
      ['\n', btick, btick, btick]) = render v := by
  obtain ⟨ch, ctl, hch, hgh⟩ := render_head v
  obtain ⟨ma, d, hma, hgl⟩ := render_last v
  have hghp := goodHead_parts hgh
  have hglp := goodLast_parts hgl
  have hnb := renderV_no_btick v hok
  have hsft : stripFenceTail (render v ++ ['\n', btick, btick, btick]) =
      render v ++ ['\n'] := by
    rw [stripFenceTail_append (render v) hnb ['\n', btick, btick, btick],
      show stripFenceTail ['\n', btick, btick, btick] = ['\n'] from by decide]
  have hsfh : stripFenceHead ([btick, btick, btick, 'j', 's', 'o', 'n', '\n'] ++
      render v ++ ['\n', btick, btick, btick]) =
      render v ++ ['\n', btick, btick, btick] := by
    rw [stripFenceHead]
    rw [show ([btick, btick, btick, 'j', 's', 'o', 'n', '\n'] ++ render v ++
        ['\n', btick, btick, btick]).drop 3 =
        'j' :: 's' :: 'o' :: 'n' :: '\n' ::
          (render v ++ ['\n', btick, btick, btick]) from rfl]
    rw [List.dropWhile_cons, if_pos (by decide)]
    rw [List.dropWhile_cons, if_pos (by decide)]
    rw [List.dropWhile_cons, if_pos (by decide)]
    rw [List.dropWhile_cons, if_pos (by decide)]
    rw [List.dropWhile_cons, if_neg (by decide)]
    rw [List.dropWhile_cons, if_pos (by decide)]
    rw [hch, List.cons_append, List.dropWhile_cons, if_neg (by simp [hghp.1])]
  have htrim0 : jsTrim ([btick, btick, btick, 'j', 's', 'o', 'n', '\n'] ++ render v ++
      ['\n', btick, btick, btick]) =
      [btick, btick, btick, 'j', 's', 'o', 'n', '\n'] ++ render v ++
      ['\n', btick, btick, btick] := by
    refine jsTrim_self btick (([btick, btick, 'j', 's', 'o', 'n', '\n'] ++ render v) ++
      ['\n', btick, btick, btick])
      (([btick, btick, btick, 'j', 's', 'o', 'n', '\n'] ++ render v) ++ ['\n', btick, btick])
      btick rfl (by decide) (by simp) (by decide)
  have hfence : startsWith ([btick, btick, btick, 'j', 's', 'o', 'n', '\n'] ++ render v ++
      ['\n', btick, btick, btick]) [btick, btick, btick] = true := by
    rw [show [btick, btick, btick, 'j', 's', 'o', 'n', '\n'] ++ render v ++
      ['\n', btick, btick, btick] = [btick, btick, btick] ++
      (['j', 's', 'o', 'n', '\n'] ++ render v ++ ['\n', btick, btick, btick]) from by simp]
    exact startsWith_append _ _
  have hbom : ¬ ([btick, btick, btick, 'j', 's', 'o', 'n', '\n'] ++ render v ++
      ['\n', btick, btick, btick]).head? = some '﻿' := by
    rw [show [btick, btick, btick, 'j', 's', 'o', 'n', '\n'] ++ render v ++
      ['\n', btick, btick, btick] = btick ::
      (([btick, btick, 'j', 's', 'o', 'n', '\n'] ++ render v) ++
        ['\n', btick, btick, btick]) from rfl]
    simp only [List.head?_cons, Option.some.injEq]
    decide
  have hj2 : jsTrim (render v ++ ['\n']) = render v := by
    have h := jsTrim_around [] ['\n'] ch ctl ma d hch hghp.1 hma hglp.1
    simpa [List.dropWhile_cons, show isRegWs '\n' = true from by decide] using h
  have hN : extractFirstBalancedJson (render v) = some (render v) := by
    have hx := extract_render hok hcont [] [] (by simp)
    simpa using hx
  rw [sanitizeJsonString]
  dsimp only
  rw [htrim0]
  rw [if_neg (by simp)]
  rw [if_neg hbom]
  rw [hfence, if_pos rfl]
  rw [hsfh, hsft, hj2, hN]
  exact rtc_render hok

theorem renderTC_last : ∀ v, ∃ a c, renderTC v = a ++ [c] ∧ goodLast c = true := by
  intro v
  cases v with
  | null => exact ⟨['n', 'u', 'l'], 'l', by decide, by decide⟩
  | jbool b =>
    cases b
    · exact ⟨['f', 'a', 'l', 's'], 'e', by decide, by decide⟩
    · exact ⟨['t', 'r', 'u'], 'e', by decide, by decide⟩
  | num n =>
    rw [renderTC, intChars]
    obtain ⟨a, k, hak, hk⟩ := natChars_last n.natAbs
    have hd : isDigitCh (Char.ofNat (k + 48)) = true := (digitChar_facts k hk).1
    split
    · exact ⟨'-' :: a, Char.ofNat (k + 48), by rw [hak]; rfl, digit_goodLast _ hd⟩
    · exact ⟨a, Char.ofNat (k + 48), hak, digit_goodLast _ hd⟩
  | str s => exact ⟨'"' :: s, '"', by simp [renderTC], by decide⟩
  | arr xs =>
    cases xs with
    | nil => exact ⟨['['], ']', by decide, by decide⟩
    | cons x t =>
      exact ⟨'[' :: renderListTC (.cons x t) ++ [','], ']',
        by rw [renderTC]; simp, by decide⟩
  | obj fs =>
    cases fs with
    | nil => exact ⟨['{'], '}', by decide, by decide⟩
    | cons k v t =>
      exact ⟨'{' :: renderFieldsTC (.cons k v t) ++ [','], '}',
        by rw [renderTC]; simp, by decide⟩

theorem extract_renderTC {v : Json} (hok : strOkV v = true)
    (hcont : isContainer v = true) :
    extractFirstBalancedJson (renderTC v) = some (renderTC v) := by
  cases v with
  | obj fs =>
    cases fs with
    | nil => decide
    | cons k v t =>
      have hN : Neutral '{' '}' (renderFieldsTC (.cons k v t) ++ [',']) :=
        neutral_append (renderFTC_neutral '{' '}' (Or.inl ⟨rfl, rfl⟩) _
          (by rw [strOkV] at hok; exact hok)) (neutral_of_chars _ (by decide))
      have hscan := @scanTop '{' '}'
        (renderFieldsTC (.cons k v t) ++ [',']) [] (by decide) (by decide) (by decide) hN
      rw [renderTC, extractFirstBalancedJson]
      rw [show '{' :: renderFieldsTC (.cons k v t) ++ ',' :: ['}'] =
          '{' :: ((renderFieldsTC (.cons k v t) ++ [',']) ++ ['}']) from by simp]
      rw [List.dropWhile_cons, if_neg (by simp)]
      dsimp only
      rw [if_pos rfl]
      rw [show '{' :: ((renderFieldsTC (.cons k v t) ++ [',']) ++ ['}']) =
          ('{' :: (renderFieldsTC (.cons k v t) ++ [',']) ++ ['}']) ++ [] from by simp]
      rw [hscan]
      simp
  | arr xs =>
    cases xs with
    | nil => decide
    | cons x t =>
      have hN : Neutral '[' ']' (renderListTC (.cons x t) ++ [',']) :=
        neutral_append (renderLTC_neutral '[' ']' (Or.inr ⟨rfl, rfl⟩) _
          (by rw [strOkV] at hok; exact hok)) (neutral_of_chars _ (by decide))
      have hscan := @scanTop '[' ']'
        (renderListTC (.cons x t) ++ [',']) [] (by decide) (by decide) (by decide) hN
      rw [renderTC, extractFirstBalancedJson]
      rw [show '[' :: renderListTC (.cons x t) ++ ',' :: [']'] =
          '[' :: ((renderListTC (.cons x t) ++ [',']) ++ [']']) from by simp]
      rw [List.dropWhile_cons, if_neg (by simp)]
      dsimp only
      rw [if_neg (by decide)]
      rw [show '[' :: ((renderListTC (.cons x t) ++ [',']) ++ [']']) =
          ('[' :: (renderListTC (.cons x t) ++ [',']) ++ [']']) ++ [] from by simp]
      rw [hscan]
      simp
  | null => exact Bool.noConfusion hcont
  | jbool b => cases b <;> exact Bool.noConfusion hcont
  | num n => exact Bool.noConfusion hcont
  | str s => exact Bool.noConfusion hcont

theorem sanitize_parts {raw s b : List Char} (htrim : jsTrim raw = s)
    (hc : ∃ c tl, s = c :: tl ∧ isRegWs c = false ∧ ¬ c = btick)
    (hex : extractFirstBalancedJson s = some b) :
    sanitizeJsonString raw = rtc b := by
  obtain ⟨c, tl, hs, hcw, hcb⟩ := hc
  rw [sanitizeJsonString]
  dsimp only
  rw [htrim, hs]
  rw [if_neg (by simp)]
  have hbom : ¬ (c :: tl).head? = some '﻿' := by
    simp only [List.head?_cons, Option.some.injEq]
    intro he
    subst he
    exact absurd hcw (by decide)
  rw [if_neg hbom]
  have hfence : startsWith (c :: tl) [btick, btick, btick] = false :=
    startsWith_head_ne hcb tl [btick, btick]
  rw [hfence, if_neg (by simp)]
  rw [← hs, hex]

theorem sanitize_renderTC {v : Json} (hok : strOkV v = true)
    (hcont : isContainer v = true) :
    sanitizeJsonString (renderTC v) = render v := by
  obtain ⟨ch, ctl, hch, hgh⟩ := renderTC_head v
  obtain ⟨ma, d, hma, hgl⟩ := renderTC_last v
  have hghp := goodHead_parts hgh
  have hglp := goodLast_parts hgl
  have h := sanitize_parts (jsTrim_self ch ctl ma d hch hghp.1 hma hglp.1)
    ⟨ch, ctl, hch, hghp.1, hghp.2.2.1⟩ (extract_renderTC hok hcont)
  rw [h, rtc_renderTC hok]

/-! ### The strict parser re-reads rendered values -/

/-- May this suffix legally follow a rendered numeral?  (It must not extend
the numeral and must not turn it into a fraction or exponent.) -/
def numRestOk : List Char → Bool
  | [] => true
  | c :: _ => ! isDigitCh c && ! (c = '.') && ! (c = 'e') && ! (c = 'E')

theorem takeWhile_all_append (p : Char → Bool) :
    ∀ (a b : List Char), (∀ c ∈ a, p c = true) →
      (∀ c r, b = c :: r → p c = false) →
      (a ++ b).takeWhile p = a ∧ (a ++ b).dropWhile p = b := by
  intro a
  induction a with
  | nil =>
    intro b _ hb
    cases b with
    | nil => exact ⟨rfl, rfl⟩
    | cons c t =>
      have hb' : p c = false := hb c t rfl
      refine ⟨?_, ?_⟩
      · rw [List.nil_append, List.takeWhile_cons, if_neg (by simp [hb'])]
      · rw [List.nil_append, List.dropWhile_cons, if_neg (by simp [hb'])]
  | cons x a' ih =>
    intro b hall hb
    have hx := hall x (by simp)
    obtain ⟨ih1, ih2⟩ := ih b (fun c hc => hall c (by simp [hc])) hb
    refine ⟨?_, ?_⟩
    · rw [List.cons_append, List.takeWhile_cons, if_pos (by simp [hx]), ih1]
    · rw [List.cons_append, List.dropWhile_cons, if_pos (by simp [hx]), ih2]

theorem digit_not_key (c : Char) (hd : isDigitCh c = true) :
    ¬ c = 'n' ∧ ¬ c = 't' ∧ ¬ c = 'f' ∧ ¬ c = '"' ∧ ¬ c = '[' ∧ ¬ c = '{' ∧
      ¬ c = '-' := by
  have hr := digit_toNat_range c hd
  repeat' apply And.intro
  all_goals (intro hh; subst hh; exact absurd hr (by decide))

theorem numCore_natChars (m : Nat) (rest : List Char) (hd : numRestOk rest = true) :
    numCore (natChars m ++ rest) = some ((m : Int), rest) := by
  obtain ⟨c, ct, hceq⟩ : ∃ c ct, natChars m = c :: ct := by
    cases h : natChars m with
    | nil => exact absurd h (natChars_ne_nil m)
    | cons a b => exact ⟨a, b, rfl⟩
  have hall := natChars_all_digits m
  have hb : ∀ c r, rest = c :: r → isDigitCh c = false := by
    intro c r hcr
    rw [hcr, numRestOk] at hd
    simp only [Bool.and_eq_true, Bool.not_eq_true'] at hd
    exact hd.1.1.1
  obtain ⟨htw1, htw2⟩ := takeWhile_all_append isDigitCh (natChars m) rest hall hb
  have hnz : c = '0' → ct = [] := by
    intro h0
    by_cases hm : m < 10
    · have h1 := natChars_lt10 m hm
      rw [hceq] at h1
      injection h1 with _ h2
    · exact absurd h0 (natChars_head_ne_zero m (by omega) c ct hceq)
  rw [numCore]
  rw [htw1, htw2, hceq]
  split
  next heq => exact List.noConfusion heq
  next a b heq =>
    injection heq with h1 h2
    rw [hnz h1] at h2
    exact List.noConfusion h2
  next q f1 f2 =>
    rw [← hceq, digitsToNat_natChars]
    split
    next =>
      rw [numRestOk] at hd
      exact absurd hd (by decide)
    next =>
      rw [numRestOk] at hd
      exact absurd hd (by decide)
    next =>
      rw [numRestOk] at hd
      exact absurd hd (by decide)
    next => rfl

theorem numBody_cons_nonminus {c : Char} (h : ¬ c = '-') (t : List Char) :
    numBody (c :: t) = numCore (c :: t) := by
  rw [numBody.eq_def]
  split
  next t2 heq =>
    injection heq with h1 _
    exact absurd h1 h
  next => rfl

theorem numBody_intChars (n : Int) (rest : List Char) (hd : numRestOk rest = true) :
    numBody (intChars n ++ rest) = some (n, rest) := by
  by_cases hn : n < 0
  · rw [intChars, if_pos hn, List.cons_append,
      show numBody ('-' :: (natChars n.natAbs ++ rest)) =
        (numCore (natChars n.natAbs ++ rest)).map (fun p => (-p.1, p.2)) from rfl,
      numCore_natChars n.natAbs rest hd]
    have he : -((n.natAbs : Nat) : Int) = n := by omega
    show some (-((n.natAbs : Nat) : Int), rest) = some (n, rest)
    rw [he]
  · obtain ⟨c, ct, hceq⟩ : ∃ c ct, natChars n.natAbs = c :: ct := by
      cases h : natChars n.natAbs with
      | nil => exact absurd h (natChars_ne_nil _)
      | cons a b => exact ⟨a, b, rfl⟩
    have hdg : isDigitCh c = true := natChars_all_digits _ c (by rw [hceq]; simp)
    rw [intChars, if_neg hn, hceq, List.cons_append,
      numBody_cons_nonminus (digit_not_key c hdg).2.2.2.2.2.2,
      ← List.cons_append, ← hceq, numCore_natChars n.natAbs rest hd]
    have he : ((n.natAbs : Nat) : Int) = n := by omega
    rw [he]

theorem strBody_cons_plain {x : Char} (h1 : ¬ x = '"') (h2 : ¬ x = '\\')
    (h3 : 32 ≤ x.toNat) (t : List Char) :
    strBody (x :: t) = (strBody t).map (fun p => (x :: p.1, p.2)) := by
  rw [strBody.eq_def]
  split
  next a heq => exact List.noConfusion heq
  next a r heq =>
    injection heq with hx ht
    exact absurd hx h1
  next q a b c d r heq =>
    injection heq with hx ht
    exact absurd hx h2
  next q e r hf heq =>
    injection heq with hx ht
    exact absurd hx h2
  next q c r f1 f2 f3 heq =>
    injection heq with hx ht
    subst hx
    subst ht
    rw [if_neg (by omega)]

theorem strBody_ok : ∀ (s : List Char),
    (∀ c ∈ s, ¬ c = '"' ∧ ¬ c = '\\' ∧ 32 ≤ c.toNat) →
    ∀ rest, strBody (s ++ '"' :: rest) = some (s, rest) := by
  intro s
  induction s with
  | nil => intro _ rest; rw [List.nil_append, strBody]
  | cons x s' ih =>
    intro h rest
    obtain ⟨h1, h2, h3⟩ := h x (by simp)
    rw [List.cons_append, strBody_cons_plain h1 h2 h3,
      ih (fun c hc => h c (by simp [hc])) rest]
    rfl

mutual
theorem parseV_render : ∀ (fuel : Nat) (v : Json) (rest : List Char),
    strOkV v = true → (render v).length + 1 ≤ fuel → numRestOk rest = true →
    parseValue fuel (render v ++ rest) = some (v, rest)
  | 0, v, rest => by intro _ hf _; omega
  | fuel + 1, v, rest => by
    intro hok hfuel hrest
    cases v with
    | null =>
      rw [show render Json.null = ['n', 'u', 'l', 'l'] from by decide]
      simp [parseValue, startsWith, isJsonWs, List.dropWhile_cons]
    | jbool b =>
      cases b
      · rw [show render (Json.jbool false) = ['f', 'a', 'l', 's', 'e'] from by decide]
        simp [parseValue, startsWith, isJsonWs, List.dropWhile_cons]
      · rw [show render (Json.jbool true) = ['t', 'r', 'u', 'e'] from by decide]
        simp [parseValue, startsWith, isJsonWs, List.dropWhile_cons]
    | num n =>
      by_cases hn : n < 0
      · rw [render, intChars, if_pos hn, List.cons_append]
        show (numBody ('-' :: (natChars n.natAbs ++ rest))).map
            (fun p => (Json.num p.1, p.2)) = some (Json.num n, rest)
        have hnum := numBody_intChars n rest hrest
        rw [intChars, if_pos hn, List.cons_append] at hnum
        rw [hnum]
        rfl
      · rw [render, intChars, if_neg hn]
        obtain ⟨c, ct, hceq⟩ : ∃ c ct, natChars n.natAbs = c :: ct := by
          cases h : natChars n.natAbs with
          | nil => exact absurd h (natChars_ne_nil _)
          | cons a b => exact ⟨a, b, rfl⟩
        have hdg : isDigitCh c = true := natChars_all_digits _ c (by rw [hceq]; simp)
        have hkey := digit_not_key c hdg
        have hjw : isJsonWs c = false := (goodHead_parts (digit_goodHead c hdg)).2.1
        rw [hceq, List.cons_append, parseValue]
        rw [List.dropWhile_cons, if_neg (by simp [hjw])]
        dsimp only
        rw [if_neg hkey.1, if_neg hkey.2.1, if_neg hkey.2.2.1, if_neg hkey.2.2.2.1,
          if_neg hkey.2.2.2.2.1, if_neg hkey.2.2.2.2.2.1, if_pos (Or.inr hdg)]
        have hnum := numBody_intChars n rest hrest
        rw [intChars, if_neg hn, hceq, List.cons_append] at hnum
        rw [hnum]
        rfl
    | str s =>
      rw [render, show ('"' :: s ++ ['"']) ++ rest = '"' :: (s ++ '"' :: rest) from by simp]
      have hmem := strContentOk_mem (by rw [strOkV] at hok; exact hok)
      show (strBody (s ++ '"' :: rest)).map (fun p => (Json.str p.1, p.2)) =
        some (Json.str s, rest)
      rw [strBody_ok s (fun c hc => ⟨(hmem c hc).1, (hmem c hc).2.1, (hmem c hc).2.2.2⟩) rest]
      rfl
    | arr xs =>
      cases xs with
      | nil =>
        rw [show render (Json.arr .nil) = ['[', ']'] from by decide]
        simp [parseValue, isJsonWs, List.dropWhile_cons]
      | cons x t =>
        have hokL : strOkL (.cons x t) = true := by rw [strOkV] at hok; exact hok
        have hlen : (renderList (.cons x t)).length + 2 ≤ fuel := by
          rw [render] at hfuel
          simp only [List.length_append, List.length_cons, List.length_nil] at hfuel
          omega
        rw [render, show ('[' :: renderList (.cons x t) ++ [']']) ++ rest =
          '[' :: (renderList (.cons x t) ++ ']' :: rest) from by simp]
        obtain ⟨c, r, hLeq, hg⟩ := renderList_head x t
        have hparts := goodHead_parts hg
        show (match ((renderList (.cons x t) ++ ']' :: rest).dropWhile isJsonWs) with
              | ']' :: r => some (Json.arr .nil, r)
              | _ => (parseElems fuel
                  ((renderList (.cons x t) ++ ']' :: rest).dropWhile isJsonWs)).map
                  (fun p => (Json.arr p.1, p.2))) = some (Json.arr (.cons x t), rest)
        have hdw : (renderList (.cons x t) ++ ']' :: rest).dropWhile isJsonWs =
            renderList (.cons x t) ++ ']' :: rest := by
          rw [hLeq, List.cons_append, List.dropWhile_cons, if_neg (by simp [hparts.2.1])]
        rw [hdw, hLeq, List.cons_append]
        split
        next r2 heq =>
          injection heq with h1 h2
          exact absurd h1 hparts.2.2.2.2.2
        next =>
          rw [← List.cons_append, ← hLeq,
            parseL_render fuel (.cons x t) rest hokL
              (fun h => JsonList.noConfusion h) hlen]
          rfl
    | obj fs =>
      cases fs with
      | nil =>
        rw [show render (Json.obj .nil) = ['{', '}'] from by decide]
        simp [parseValue, isJsonWs, List.dropWhile_cons]
      | cons k v2 t =>
        have hokF : strOkF (.cons k v2 t) = true := by rw [strOkV] at hok; exact hok
        have hlen : (renderFields (.cons k v2 t)).length + 2 ≤ fuel := by
          rw [render] at hfuel
          simp only [List.length_append, List.length_cons, List.length_nil] at hfuel
          omega
        rw [render, show ('{' :: renderFields (.cons k v2 t) ++ ['}']) ++ rest =
          '{' :: (renderFields (.cons k v2 t) ++ '}' :: rest) from by simp]
        obtain ⟨r, hFeq⟩ := renderFields_head k v2 t
        show (match ((renderFields (.cons k v2 t) ++ '}' :: rest).dropWhile isJsonWs) with
              | '}' :: r => some (Json.obj .nil, r)
              | _ => (parseMembers fuel
                  ((renderFields (.cons k v2 t) ++ '}' :: rest).dropWhile isJsonWs)).map
                  (fun p => (Json.obj p.1, p.2))) = some (Json.obj (.cons k v2 t), rest)
        have hdw : (renderFields (.cons k v2 t) ++ '}' :: rest).dropWhile isJsonWs =
            renderFields (.cons k v2 t) ++ '}' :: rest := by
          rw [hFeq, List.cons_append, List.dropWhile_cons, if_neg (by decide)]
        rw [hdw, hFeq, List.cons_append]
        split
        next r2 heq =>
          injection heq with h1 h2
          exact absurd h1 (by decide)
        next =>
          rw [← List.cons_append, ← hFeq,
            parseF_render fuel (.cons k v2 t) rest hokF
              (fun h => JsonFields.noConfusion h) hlen]
          rfl

theorem parseL_render : ∀ (fuel : Nat) (xs : JsonList) (rest : List Char),
    strOkL xs = true → xs ≠ .nil → (renderList xs).length + 2 ≤ fuel →
    parseElems fuel (renderList xs ++ ']' :: rest) = some (xs, rest)
  | 0, xs, rest => by intro _ _ h; omega
  | fuel + 1, .nil, rest => by intro _ hne _; exact absurd rfl hne
  | fuel + 1, .cons x .nil, rest => by
    intro hok _ hfuel
    rw [strOkL, Bool.and_eq_true] at hok
    rw [renderList] at hfuel ⊢
    rw [parseElems,
      parseV_render fuel x (']' :: rest) hok.1 (by omega) rfl]
    rfl
  | fuel + 1, .cons x (.cons y t), rest => by
    intro hok _ hfuel
    rw [strOkL, Bool.and_eq_true] at hok
    rw [renderList] at hfuel ⊢
    simp only [List.length_append, List.length_cons] at hfuel
    rw [show (render x ++ ',' :: renderList (.cons y t)) ++ ']' :: rest =
      render x ++ (',' :: (renderList (.cons y t) ++ ']' :: rest)) from by simp]
    rw [parseElems,
      parseV_render fuel x (',' :: (renderList (.cons y t) ++ ']' :: rest)) hok.1
        (by omega) rfl]
    show (parseElems fuel (renderList (.cons y t) ++ ']' :: rest)).map
        (fun p => (JsonList.cons x p.1, p.2)) =
      some (JsonList.cons x (JsonList.cons y t), rest)
    rw [parseL_render fuel (.cons y t) rest hok.2
      (fun h => JsonList.noConfusion h) (by omega)]
    rfl

theorem parseF_render : ∀ (fuel : Nat) (fs : JsonFields) (rest : List Char),
    strOkF fs = true → fs ≠ .nil → (renderFields fs).length + 2 ≤ fuel →
    parseMembers fuel (renderFields fs ++ '}' :: rest) = some (fs, rest)
  | 0, fs, rest => by intro _ _ h; omega
  | fuel + 1, .nil, rest => by intro _ hne _; exact absurd rfl hne
  | fuel + 1, .cons k v .nil, rest => by
    intro hok _ hfuel
    rw [strOkF, Bool.and_eq_true, Bool.and_eq_true] at hok
    have hmem := strContentOk_mem hok.1.1
    rw [renderFields] at hfuel ⊢
    simp only [List.length_append, List.length_cons] at hfuel
    rw [show ('"' :: k ++ '"' :: ':' :: render v) ++ '}' :: rest =
      '"' :: (k ++ '"' :: (':' :: (render v ++ '}' :: rest))) from by simp]
    rw [parseMembers]
    show (match strBody (k ++ '"' :: (':' :: (render v ++ '}' :: rest))) with
          | none => none
          | some (k2, r) =>
            match r.dropWhile isJsonWs with
            | ':' :: r2 =>
              match parseValue fuel r2 with
              | none => none
              | some (v2, r3) =>
                match r3.dropWhile isJsonWs with
                | ',' :: r4 => (parseMembers fuel r4).map
                    (fun p => (JsonFields.cons k2 v2 p.1, p.2))
                | '}' :: r4 => some (JsonFields.cons k2 v2 .nil, r4)
                | _ => none
            | _ => none) = some (JsonFields.cons k v .nil, rest)
    rw [strBody_ok k (fun c hc => ⟨(hmem c hc).1, (hmem c hc).2.1, (hmem c hc).2.2.2⟩)
      (':' :: (render v ++ '}' :: rest))]
    show (match parseValue fuel (render v ++ '}' :: rest) with
          | none => none
          | some (v2, r3) =>
            match r3.dropWhile isJsonWs with
            | ',' :: r4 => (parseMembers fuel r4).map
                (fun p => (JsonFields.cons k v2 p.1, p.2))
            | '}' :: r4 => some (JsonFields.cons k v2 .nil, r4)
            | _ => none) = some (JsonFields.cons k v .nil, rest)
    rw [parseV_render fuel v ('}' :: rest) hok.1.2 (by omega) rfl]
    rfl
  | fuel + 1, .cons k v (.cons k2 v2 t), rest => by
    intro hok _ hfuel
    rw [strOkF, Bool.and_eq_true, Bool.and_eq_true] at hok
    have hmem := strContentOk_mem hok.1.1
    rw [renderFields] at hfuel ⊢
    simp only [List.length_append, List.length_cons] at hfuel
    rw [show (('"' :: k ++ '"' :: ':' :: render v) ++
        ',' :: renderFields (.cons k2 v2 t)) ++ '}' :: rest =
      '"' :: (k ++ '"' :: (':' :: (render v ++
        ',' :: (renderFields (.cons k2 v2 t) ++ '}' :: rest)))) from by simp]
    rw [parseMembers]
    show (match strBody (k ++ '"' :: (':' :: (render v ++
            ',' :: (renderFields (.cons k2 v2 t) ++ '}' :: rest)))) with
          | none => none
          | some (k3, r) =>
            match r.dropWhile isJsonWs with
            | ':' :: r2 =>
              match parseValue fuel r2 with
              | none => none
              | some (v3, r3) =>
                match r3.dropWhile isJsonWs with
                | ',' :: r4 => (parseMembers fuel r4).map
                    (fun p => (JsonFields.cons k3 v3 p.1, p.2))
                | '}' :: r4 => some (JsonFields.cons k3 v3 .nil, r4)
                | _ => none
            | _ => none) =
      some (JsonFields.cons k v (JsonFields.cons k2 v2 t), rest)
    rw [strBody_ok k (fun c hc => ⟨(hmem c hc).1, (hmem c hc).2.1, (hmem c hc).2.2.2⟩)
      (':' :: (render v ++ ',' :: (renderFields (.cons k2 v2 t) ++ '}' :: rest)))]
    show (match parseValue fuel (render v ++
            ',' :: (renderFields (.cons k2 v2 t) ++ '}' :: rest)) with
          | none => none
          | some (v3, r3) =>
            match r3.dropWhile isJsonWs with
            | ',' :: r4 => (parseMembers fuel r4).map
                (fun p => (JsonFields.cons k v3 p.1, p.2))
            | '}' :: r4 => some (JsonFields.cons k v3 .nil, r4)
            | _ => none) =
      some (JsonFields.cons k v (JsonFields.cons k2 v2 t), rest)
    rw [parseV_render fuel v
      (',' :: (renderFields (.cons k2 v2 t) ++ '}' :: rest)) hok.1.2 (by omega) rfl]
    show (parseMembers fuel (renderFields (.cons k2 v2 t) ++ '}' :: rest)).map
        (fun p => (JsonFields.cons k v p.1, p.2)) =
      some (JsonFields.cons k v (JsonFields.cons k2 v2 t), rest)
    rw [parseF_render fuel (.cons k2 v2 t) rest hok.2
      (fun h => JsonFields.noConfusion h) (by omega)]
    rfl
end

theorem jsParse_render {v : Json} (hok : strOkV v = true) :
    jsParse (render v) = some v := by
  have h := parseV_render (2 * (render v).length + 2) v [] hok (by omega) rfl
  rw [List.append_nil] at h
  rw [jsParse, h]
  rfl

/-! ## Claim C1: sanitize-then-strict-parse on embedded well-formed JSON -/

/-- A counterexample to the unrestricted claim: `{"a": ",\x7d"}` is well-formed
JSON (parsed directly, the field `a` holds the string `,}`), yet the
sanitize-then-strict-parse path does not return that object: the
trailing-comma regex rewrites the string literal's interior, so the cleaned
text no longer parses. -/
theorem claim1_counterexample :
    jsParse ("\x7b\"a\": \",\x7d\"\x7d".toList) =
      some (.obj (.cons ("a".toList) (.str (",\x7d".toList)) .nil)) ∧
    ¬ safeJsonParse ("\x7b\"a\": \",\x7d\"\x7d".toList) =
      .ok (.obj (.cons ("a".toList) (.str (",\x7d".toList)) .nil)) := by
  decide

/-- C1 (amended): for a rendered object or array whose strings avoid the
characters the sanitizer's regexes react to (quotes, backslashes, backticks,
control characters, and a comma whose following whitespace run ends at a
closing bracket), the sanitize-then-strict-parse path recovers exactly the
embedded value — both when surrounded by prose free of `{`/`[`/backtick and
when wrapped in a ```json code fence — and equals the direct parse of the
embedded rendering. -/
theorem claim1_sanitize_parse (v : Json) (p1 p2 : List Char)
    (hok : strOkV v = true) (hcont : isContainer v = true)
    (hp1 : ∀ c ∈ p1, ¬ c = '{' ∧ ¬ c = '[' ∧ ¬ c = btick) :
    sanitizeJsonString (p1 ++ render v ++ p2) = render v ∧
    safeJsonParse (p1 ++ render v ++ p2) = Except.ok v ∧
    sanitizeJsonString ([btick, btick, btick, 'j', 's', 'o', 'n', '\n'] ++ render v ++
      ['\n', btick, btick, btick]) = render v ∧
    safeJsonParse ([btick, btick, btick, 'j', 's', 'o', 'n', '\n'] ++ render v ++
      ['\n', btick, btick, btick]) = Except.ok v ∧
    jsParse (render v) = some v := by
  refine ⟨sanitize_embedded hok hcont p1 p2 hp1, ?_, sanitize_fenced hok hcont, ?_,
    jsParse_render hok⟩
  · rw [safeJsonParse]
    rw [sanitize_embedded hok hcont p1 p2 hp1, jsParse_render hok]
  · rw [safeJsonParse]
    rw [sanitize_fenced hok hcont, jsParse_render hok]

def claim1Value : Json :=
  .obj (.cons ("quiz".toList)
    (.arr (.cons (.num 7) (.cons (.str ("ok".toList)) .nil))) .nil)

theorem claim1_sanitize_parse_witness :
    strOkV claim1Value = true ∧ isContainer claim1Value = true ∧
    (∀ c ∈ "The quiz: ".toList, ¬ c = '{' ∧ ¬ c = '[' ∧ ¬ c = btick) ∧
    (sanitizeJsonString ("The quiz: ".toList ++ render claim1Value ++
        " Done.".toList) = render claim1Value ∧
     safeJsonParse ("The quiz: ".toList ++ render claim1Value ++
        " Done.".toList) = Except.ok claim1Value ∧
     sanitizeJsonString ([btick, btick, btick, 'j', 's', 'o', 'n', '\n'] ++
        render claim1Value ++ ['\n', btick, btick, btick]) = render claim1Value ∧
     safeJsonParse ([btick, btick, btick, 'j', 's', 'o', 'n', '\n'] ++
        render claim1Value ++ ['\n', btick, btick, btick]) = Except.ok claim1Value ∧
     jsParse (render claim1Value) = some claim1Value) :=
  ⟨by decide, by decide, by decide,
    claim1_sanitize_parse claim1Value ("The quiz: ".toList) (" Done.".toList)
      (by decide) (by decide) (by decide)⟩

/-! ## Claim C7: trailing-comma removal -/

/-- A counterexample to the exact-removal claim: `{"a": ",\x7d" ,}` is valid
except for its single trailing comma, but sanitization does not remove only
that comma — the regex also fires inside the string literal — so the parse
"succeeds" with a mutated value (field `a` becomes `}` instead of `,}`). -/
theorem claim7_counterexample :
    ¬ sanitizeJsonString ("\x7b\"a\": \",\x7d\" ,\x7d".toList) = "\x7b\"a\": \",\x7d\" \x7d".toList ∧
    safeJsonParse ("\x7b\"a\": \",\x7d\" ,\x7d".toList) =
      .ok (.obj (.cons ("a".toList) (.str ("\x7d".toList)) .nil)) := by
  decide

/-- C7 (amended): on renderings whose strings avoid the characters the
sanitizer's regexes react to, the trailing-comma replacement repairs every
trailing comma (one before each closing bracket of a non-empty container) and
changes nothing else: the sanitized trailing-comma rendering is exactly the
canonical rendering, and the strict parse then succeeds with the original
value. -/
theorem claim7_trailing_commas (v : Json) (hok : strOkV v = true)
    (hcont : isContainer v = true) :
    rtc (renderTC v) = render v ∧
    sanitizeJsonString (renderTC v) = render v ∧
    jsParse (render v) = some v ∧
    safeJsonParse (renderTC v) = Except.ok v := by
  refine ⟨rtc_renderTC hok, sanitize_renderTC hok hcont, jsParse_render hok, ?_⟩
  rw [safeJsonParse]
  rw [sanitize_renderTC hok hcont, jsParse_render hok]

def claim7Value : Json :=
  .obj (.cons ("questions".toList)
    (.arr (.cons (.obj (.cons ("q".toList) (.str ("one".toList)) .nil))
      (.cons (.num 2) .nil))) .nil)

theorem claim7_trailing_commas_witness :
    strOkV claim7Value = true ∧ isContainer claim7Value = true ∧
    (rtc (renderTC claim7Value) = render claim7Value ∧
     sanitizeJsonString (renderTC claim7Value) = render claim7Value ∧
     jsParse (render claim7Value) = some claim7Value ∧
     safeJsonParse (renderTC claim7Value) = Except.ok claim7Value) :=
  ⟨by decide, by decide, claim7_trailing_commas claim7Value (by decide) (by decide)⟩

/-! ## Claim C2: recovery of a truncated `questions` array -/

/-- The textual body of a comma-separated element list, each element followed
by a comma (as in a truncated array, where a separator came before the cut). -/
def elemsBody : JsonList → List Char
  | .nil => []
  | .cons x t => render x ++ ',' :: elemsBody t

def isObjB : Json → Bool
  | .obj _ => true
  | _ => false

/-- Every element is a well-behaved object. -/
def objsOkL : JsonList → Bool
  | .nil => true
  | .cons x t => isObjB x && strOkV x && objsOkL t

/-- The `"questions":[` match of the recovery regex, with no whitespace. -/
def qMarker : List Char :=
  ['"', 'q', 'u', 'e', 's', 't', 'i', 'o', 'n', 's', '"', ':', '[']

theorem jsonList_append_nil : ∀ (l : JsonList), l.append .nil = l
  | .nil => rfl
  | .cons x t => by rw [JsonList.append, jsonList_append_nil t]

theorem jsonList_append_cons : ∀ (acc : JsonList) (x : Json) (t : JsonList),
    (acc.append (.cons x .nil)).append t = acc.append (.cons x t)
  | .nil, x, t => rfl
  | .cons a b, x, t => by
    rw [JsonList.append, JsonList.append, JsonList.append, jsonList_append_cons b x t]

theorem scan_render_obj {fs : JsonFields} (hok : strOkF fs = true) (rem : List Char) :
    scanGo '{' '}' 0 false false (render (.obj fs) ++ rem) =
      some (render (.obj fs), rem) := by
  rw [render]
  exact scanTop (renderFields fs) rem (by decide) (by decide) (by decide)
    (renderF_neutral '{' '}' (Or.inl ⟨rfl, rfl⟩) fs hok)

theorem sanitize_render_self {v : Json} (hok : strOkV v = true)
    (hcont : isContainer v = true) : sanitizeJsonString (render v) = render v := by
  have h := sanitize_embedded hok hcont [] [] (by simp)
  simpa using h

theorem recLoop_congr (fuel : Nat) (s1 s2 : List Char) (acc : JsonList)
    (h : s1.dropWhile (fun c => isRegWs c || c = ',') =
      s2.dropWhile (fun c => isRegWs c || c = ',')) :
    recLoop (fuel + 1) s1 acc = recLoop (fuel + 1) s2 acc := by
  rw [recLoop, recLoop, h]

theorem recLoop_comma (fuel : Nat) (s : List Char) (acc : JsonList) :
    recLoop (fuel + 1) (',' :: s) acc = recLoop (fuel + 1) s acc := by
  refine recLoop_congr fuel _ s acc ?_
  rw [List.dropWhile_cons, if_pos (by simp)]

theorem recLoop_elem {fs : JsonFields} (hsf : strOkF fs = true) (fuel : Nat)
    (rem : List Char) (acc : JsonList) :
    recLoop (fuel + 1 + 1) (render (.obj fs) ++ rem) acc =
      recLoop (fuel + 1) rem (acc.append (.cons (.obj fs) .nil)) := by
  rw [recLoop]
  have hdw : (render (.obj fs) ++ rem).dropWhile (fun c => isRegWs c || c = ',') =
      render (.obj fs) ++ rem := by
    rw [render, show ('{' :: renderFields fs ++ ['}']) ++ rem =
      '{' :: (renderFields fs ++ ['}'] ++ rem) from by simp,
      List.dropWhile_cons, if_neg (by decide)]
  rw [hdw]
  rw [render, show ('{' :: renderFields fs ++ ['}']) ++ rem =
    '{' :: (renderFields fs ++ ['}'] ++ rem) from by simp]
  dsimp only
  rw [if_neg (by decide), if_neg (by decide)]
  have hscan : scanGo '{' '}' 0 false false
      ('{' :: (renderFields fs ++ ['}'] ++ rem)) =
      some ('{' :: renderFields fs ++ ['}'], rem) := by
    have h := scan_render_obj hsf rem
    rw [render, show ('{' :: renderFields fs ++ ['}']) ++ rem =
      '{' :: (renderFields fs ++ ['}'] ++ rem) from by simp] at h
    exact h
  rw [hscan]
  dsimp only
  rw [show ('{' :: renderFields fs ++ ['}'] : List Char) = render (.obj fs) from
    by rw [render]]
  rw [@sanitize_render_self (.obj fs) (by rw [strOkV]; exact hsf) rfl,
    @jsParse_render (.obj fs) (by rw [strOkV]; exact hsf)]

theorem recLoop_run : ∀ (xs : JsonList) (fuel : Nat) (acc : JsonList)
    (rest : List Char), objsOkL xs = true → xs.length ≤ fuel →
    recLoop (fuel + 1) (elemsBody xs ++ rest) acc =
      recLoop (fuel - xs.length + 1) rest (acc.append xs)
  | .nil, fuel, acc, rest => by
    intro _ _
    rw [show elemsBody .nil = [] from rfl, List.nil_append, jsonList_append_nil]
    rfl
  | .cons x t, fuel, acc, rest => by
    intro hobj hlen
    rw [objsOkL, Bool.and_eq_true, Bool.and_eq_true] at hobj
    obtain ⟨fs, hfs⟩ : ∃ fs, x = .obj fs := by
      cases x with
      | obj fs => exact ⟨fs, rfl⟩
      | null => exact Bool.noConfusion hobj.1.1
      | jbool b => exact Bool.noConfusion hobj.1.1
      | num n => exact Bool.noConfusion hobj.1.1
      | str s => exact Bool.noConfusion hobj.1.1
      | arr l => exact Bool.noConfusion hobj.1.1
    subst hfs
    have hsf : strOkF fs = true := by
      have := hobj.1.2
      rw [strOkV] at this
      exact this
    rw [JsonList.length] at hlen
    obtain ⟨f2, hf2⟩ : ∃ f2, fuel = f2 + 1 := ⟨fuel - 1, by omega⟩
    subst hf2
    rw [elemsBody, show (render (.obj fs) ++ ',' :: elemsBody t) ++ rest =
      render (.obj fs) ++ (',' :: (elemsBody t ++ rest)) from by simp]
    rw [recLoop_elem hsf f2 (',' :: (elemsBody t ++ rest)) acc]
    rw [recLoop_comma]
    rw [recLoop_run t f2 (acc.append (.cons (.obj fs) .nil)) rest hobj.2 (by omega)]
    rw [jsonList_append_cons]
    rw [show JsonList.length (.cons (.obj fs) t) = t.length + 1 from rfl,
      Nat.succ_sub_succ]

theorem recLoop_stop (fuel : Nat) (tail : List Char) (acc : JsonList)
    (hstop : tail.dropWhile (fun c => isRegWs c || c = ',') = [] ∨
      ∃ c r, tail.dropWhile (fun c => isRegWs c || c = ',') = c :: r ∧ ¬ c = '{') :
    recLoop (fuel + 1) tail acc = some acc := by
  rw [recLoop]
  rcases hstop with h | ⟨c, r, h, hc⟩
  · rw [h]
  · rw [h]
    dsimp only
    by_cases hcl : c = ']'
    · rw [if_pos hcl]
    · rw [if_neg hcl, if_pos hc]

theorem qKeyAt_marker (body : List Char) : qKeyAt (qMarker ++ body) = true := rfl

theorem findQIdx_append_noquote : ∀ (p : List Char), (∀ c ∈ p, ¬ c = '"') →
    ∀ s, findQIdx (p ++ s) = (findQIdx s).map (· + p.length) := by
  intro p
  induction p with
  | nil =>
    intro _ s
    rw [List.nil_append]
    cases findQIdx s <;> simp
  | cons x t ih =>
    intro h s
    rw [List.cons_append, findQIdx]
    have hq : qKeyAt (x :: (t ++ s)) = false := by
      rw [qKeyAt, show ("\"questions\"".toList : List Char) =
        '"' :: ('q' :: 'u' :: 'e' :: 's' :: 't' :: 'i' :: 'o' :: 'n' :: 's' :: '"' :: [])
        from rfl, startsWith_head_ne (h x (by simp)) _ _]
      rfl
    rw [hq, if_neg (by simp), ih (fun c hc => h c (by simp [hc])) s]
    cases findQIdx s with
    | none => rfl
    | some k =>
      have h2 : k + t.length + 1 = k + (t.length + 1) := by omega
      show some (k + t.length + 1) = some (k + (t.length + 1))
      rw [h2]

theorem elemsBody_length : ∀ (xs : JsonList), xs.length ≤ (elemsBody xs).length
  | .nil => Nat.le_refl 0
  | .cons x t => by
    obtain ⟨c, t', hct, -⟩ := render_head x
    have ih := elemsBody_length t
    rw [elemsBody, JsonList.length]
    simp only [List.length_append, List.length_cons, hct]
    omega

theorem tryRecover_shape (p body : List Char) (hp : ∀ c ∈ p, ¬ c = '"')
    (hpne : ¬ p = []) :
    tryRecoverQuizJson (p ++ (qMarker ++ body)) =
      (match recLoop (body.length + 1) body .nil with
       | none => none
       | some .nil => none
       | some (.cons v objs) =>
         some (.obj (.cons ("questions".toList) (.arr (.cons v objs)) .nil))) := by
  have h1 : findQIdx (qMarker ++ body) = some 0 := by
    rw [show qMarker ++ body =
      '"' :: (['q', 'u', 'e', 's', 't', 'i', 'o', 'n', 's', '"', ':', '['] ++ body)
      from by simp [qMarker]]
    rw [findQIdx, if_pos ?_]
    have hq := qKeyAt_marker body
    rw [show qMarker ++ body =
      '"' :: (['q', 'u', 'e', 's', 't', 'i', 'o', 'n', 's', '"', ':', '['] ++ body)
      from by simp [qMarker]] at hq
    exact hq
  have hfind : findQIdx (p ++ (qMarker ++ body)) = some p.length := by
    rw [findQIdx_append_noquote p hp (qMarker ++ body), h1]
    simp
  obtain ⟨i0, hi0⟩ : ∃ i0, p.length = i0 + 1 := by
    cases hp0 : p with
    | nil => exact absurd hp0 hpne
    | cons a b => exact ⟨b.length, rfl⟩
  rw [tryRecoverQuizJson, hfind, hi0]
  dsimp only
  rw [← hi0, List.drop_left]
  rw [show (qMarker ++ body).dropWhile (fun c => ¬ c = '[') = '[' :: body from rfl]

/-- A counterexample to the unrestricted claim: when the `"questions"` key is
at the very start of the input, recovery returns nothing even though one
complete, parseable object follows (the falsy zero match index). -/
theorem claim2_counterexample :
    tryRecoverQuizJson ("\"questions\":[\x7b\"b\": 2\x7d".toList) = none ∧
    findQIdx ("\"questions\":[\x7b\"b\": 2\x7d".toList) = some 0 ∧
    jsParse ("\x7b\"b\": 2\x7d".toList) =
      some (.obj (.cons ("b".toList) (.num 2) .nil)) := by
  decide

/-- C2 (amended): when the `"questions":[` match starts after a non-empty
quote-free prefix, and the array body consists of comma-terminated renderings
of well-behaved objects followed by a truncation point (whitespace/commas then
end of input, or a non-`{` character), recovery returns exactly those objects
in order; and if a scanned element fails to parse (`{"a":}` here), recovery
yields nothing, whatever well-formed elements preceded it. -/
theorem claim2_truncated_recovery (xs : JsonList) (p tail2 tail3 : List Char)
    (hxs : objsOkL xs = true) (hne : ¬ xs = .nil)
    (hp : ∀ c ∈ p, ¬ c = '"') (hpne : ¬ p = [])
    (hstop : tail2.dropWhile (fun c => isRegWs c || c = ',') = [] ∨
      ∃ c r, tail2.dropWhile (fun c => isRegWs c || c = ',') = c :: r ∧ ¬ c = '{') :
    tryRecoverQuizJson (p ++ (qMarker ++ (elemsBody xs ++ tail2))) =
      some (.obj (.cons ("questions".toList) (.arr xs) .nil)) ∧
    tryRecoverQuizJson (p ++ (qMarker ++ (elemsBody xs ++
      ("\x7b\"a\":\x7d".toList ++ tail3)))) = none := by
  obtain ⟨v, objs, hvo⟩ : ∃ v objs, xs = .cons v objs := by
    cases hx : xs with
    | nil => exact absurd hx hne
    | cons v objs => exact ⟨v, objs, rfl⟩
  have hlen2 := elemsBody_length xs
  constructor
  · rw [tryRecover_shape p (elemsBody xs ++ tail2) hp hpne]
    rw [recLoop_run xs ((elemsBody xs ++ tail2).length) .nil tail2 hxs
      (by simp only [List.length_append]; omega)]
    rw [show JsonList.append .nil xs = xs from rfl]
    rw [recLoop_stop _ tail2 xs hstop]
    rw [hvo]
  · rw [tryRecover_shape p (elemsBody xs ++ ("\x7b\"a\":\x7d".toList ++ tail3)) hp hpne]
    rw [recLoop_run xs ((elemsBody xs ++ ("\x7b\"a\":\x7d".toList ++ tail3)).length) .nil
      ("\x7b\"a\":\x7d".toList ++ tail3) hxs (by simp only [List.length_append]; omega)]
    rw [show JsonList.append .nil xs = xs from rfl]
    have hbadscan : scanGo '{' '}' 0 false false ("\x7b\"a\":\x7d".toList ++ tail3) =
        some ("\x7b\"a\":\x7d".toList, tail3) := by
      have hN : Neutral '{' '}' (('"' :: ['a'] ++ ['"']) ++ [':']) :=
        neutral_append (neutral_string ['a'] (by decide) (by decide) (by decide))
          (neutral_char (by decide) (by decide) (by decide))
      have h := @scanTop '{' '}' (('"' :: ['a'] ++ ['"']) ++ [':'])
        tail3 (by decide) (by decide) (by decide) hN
      rw [show ('{' :: (('"' :: ['a'] ++ ['"']) ++ [':']) ++ ['}'] : List Char) =
        "\x7b\"a\":\x7d".toList from by decide] at h
      exact h
    rw [recLoop]
    rw [show ("\x7b\"a\":\x7d".toList ++ tail3).dropWhile
        (fun c => isRegWs c || c = ',') = '{' :: ("\"a\":\x7d".toList ++ tail3) from rfl]
    dsimp only
    rw [if_neg (by decide), if_neg (by decide)]
    rw [show ('{' :: ("\"a\":\x7d".toList ++ tail3)) = "\x7b\"a\":\x7d".toList ++ tail3 from rfl,
      hbadscan]
    dsimp only
    rw [show jsParse (sanitizeJsonString ("\x7b\"a\":\x7d".toList)) = none from by decide]

def claim2Elems : JsonList :=
  .cons (.obj (.cons ("q".toList) (.str ("one".toList)) .nil))
    (.cons (.obj (.cons ("q".toList) (.num 2) .nil)) .nil)

theorem claim2_truncated_recovery_witness :
    objsOkL claim2Elems = true ∧ (¬ claim2Elems = .nil) ∧
    (tryRecoverQuizJson ("\x7b ".toList ++ (qMarker ++ (elemsBody claim2Elems ++
        "  ".toList))) =
      some (.obj (.cons ("questions".toList) (.arr claim2Elems) .nil)) ∧
     tryRecoverQuizJson ("\x7b ".toList ++ (qMarker ++ (elemsBody claim2Elems ++
        ("\x7b\"a\":\x7d".toList ++ "x".toList)))) = none) :=
  ⟨by decide, by decide,
    claim2_truncated_recovery claim2Elems ("\x7b ".toList) ("  ".toList) ("x".toList)
      (by decide) (by decide) (by decide) (by decide) (Or.inl (by decide))⟩

end QG
